import Mathlib

/-!
# laria.me: parsing articles and synchronising them into the database

A shallow embedding of `article/article.go`, `dbutils/dbutils.go`,
`updateArticles` of `update.go`, and `update` and `handleUpdate` of
`serve.go`: first the definitions, then the theorems.

* Go strings are `String`s; the functions of the Go standard library that the
  code calls and that are small are written out (`TrimSpace`, `SplitN`), the
  large ones (`strings.ToLower`, `time.Parse`, `Time.Format`,
  `html.UnescapeString`, the goldmark renderer) are fields of `Lib`, so every
  theorem holds whatever these functions compute.
* The database is a value `Db`: the rows of table `article`, the rows of table
  `article_tag` and the auto-increment counter of `article.article_id`.  A
  transaction works on a copy of that value; `Commit` installs the copy and
  `Rollback` drops it.
* The schema of the database is not among the sources.  What the embedding
  takes from the spec about it is marked in the definitions concerned; the
  database compares strings exactly, and whether deleting an article removes
  its tag rows is left open (the parameter `cascade`).
* A file is a `Reader`: its text and the error reading it ends with; the file
  system is a function from paths to readers.  `bufio.Scanner` is the value
  `Scanner`; `NewScanner` cuts the text into lines as `bufio.ScanLines` does.
  The pattern `reMore` is a `RegularExpression` of Mathlib, matched against the
  whole line.
* Every statement sent to the database can fail.  Which ones do is decided by
  a value of `Faults` (one per `SaveToDb` call), so the theorems quantify over
  all failure patterns.
* The pattern `reHtmlTag` has a negated character class, so its language is
  the inductive predicate `isTagToken`, and `tagEnd_iff` links the scan of
  `tagEnd` to it.
* A request handler is a function from the context, the response writer and
  the request to what it leaves; a `panic` is an error result.  The response
  writer keeps every `WriteHeader` call, the first of which is the status sent.
* A Go result `(T, error)` of the database functions is an `Except Error T`; a
  result `error` alone is an `Option Error` (`none` is `nil`).  `parseHeader`
  keeps the pair, since the article returned next to an error matters.
-/

namespace Laria

/-! ## Errors, time stamps, library functions -/

/-- Go `error` values met by the code: the two sentinels of package `article`,
`sql.ErrNoRows`, an error made by a library or by the database (`ext`), and
the error `TxCommitIfOk` builds with `fmt.Errorf("... %w", rollbackErr, err)`,
which wraps `err`. -/
inductive Error where
  | ErrBrokenHeader
  | ErrMissingMandatoryHeaders
  | ErrNoRows
  | ext (msg : String)
  | rollbackFailed (rollbackErr : Error) (err : Error)
  deriving DecidableEq, Repr

/-- What `errors.Unwrap` returns: only the `%w` error of `TxCommitIfOk` wraps
another error. -/
def Error.unwrap : Error → Option Error
  | .rollbackFailed _ err => some err
  | _ => none

/-- The error `e` carries the failure `cause`: it is `cause` itself or wraps
it directly. -/
def Error.carries (e cause : Error) : Bool :=
  e = cause || e.unwrap = some cause

/-- A `time.Time`, as the seconds since the zero time. -/
structure Time where
  sec : Int
  deriving DecidableEq, Repr

/-- The zero value of `time.Time`. -/
def Time.zero : Time := ⟨0⟩

/-- The library functions the code calls and that are not written out here. -/
structure Lib where
  /-- Go `strings.ToLower`. -/
  ToLower : String → String
  /-- Go `time.Parse("2006-01-02 15:04:05", s)`. -/
  timeParse : String → Except Error Time
  /-- Go `t.Format("2006-01-02 15:04:05")`. -/
  timeFormat : Time → String
  /-- Go `html.UnescapeString`. -/
  UnescapeString : String → String
  /-- The goldmark conversion behind `markdown.Parse`. -/
  Convert : String → Except Error String

/-! ## The article record -/

/-- Go `Article`. `Tags` is a `map[string]struct{}`: the list holds its keys
in the order in which `range` visits them (the `nil` map and the empty map are
both `[]`). -/
structure Article where
  Slug : String
  Published : Time
  Hidden : Bool
  Title : String
  SummaryHtml : String
  FullHtml : String
  Tags : List String
  deriving DecidableEq, Repr

/-- The Go value `Article{}`. -/
def Article.empty : Article :=
  { Slug := "", Published := Time.zero, Hidden := false, Title := "",
    SummaryHtml := "", FullHtml := "", Tags := [] }

/-! ## stripTags -/

/-- After a `<`: the input that follows the end of a match of
`([^>'"]+|'[^']*'|"[^"]*")*>`, or `none` when there is no match.  `q` is the
quote an attribute value is open with.  The three alternatives start with
different characters and none of them can start with `>`, so the match, when
there is one, is found by one pass: a quote opens a value that runs to the
next quote of the same kind, `>` outside a value ends the tag, and the end of
the input inside the tag means no match. -/
def tagEnd : Option Char → List Char → Option (List Char)
  | _, [] => none
  | none, c :: cs =>
    if c = '>' then some cs
    else if c = Char.ofNat 39 ∨ c = Char.ofNat 34 then tagEnd (some c) cs
    else tagEnd none cs
  | some q, c :: cs =>
    if c = q then tagEnd none cs else tagEnd (some q) cs

/-- Go `reHtmlTag.ReplaceAllString(s, "")` on the characters of `s`: at every
`<` that starts a match the match is dropped and the scan goes on behind it;
every other character is kept. `fuel` bounds the number of steps. -/
def removeHtmlTags : Nat → List Char → List Char
  | 0, cs => cs
  | _ + 1, [] => []
  | fuel + 1, c :: cs =>
    if c = '<' then
      match tagEnd none cs with
      | some rest => removeHtmlTags fuel rest
      | none => c :: removeHtmlTags fuel cs
    else c :: removeHtmlTags fuel cs

/-- The characters up to and including the first `;`, and the rest behind it;
`none` when there is no `;`. -/
def throughSemicolon : List Char → Option (List Char × List Char)
  | [] => none
  | c :: cs =>
    if c = ';' then some ([c], cs)
    else match throughSemicolon cs with
      | some (m, rest) => some (c :: m, rest)
      | none => none

/-- Go `reHtmlEntity.ReplaceAllStringFunc(s, html.UnescapeString)` for the
pattern `&[^;]*;`: a match runs from an `&` to the first `;` behind it and is
replaced by what `UnescapeString` makes of it. -/
def replaceEntities (lib : Lib) : Nat → List Char → List Char
  | 0, cs => cs
  | _ + 1, [] => []
  | fuel + 1, c :: cs =>
    if c = '&' then
      match throughSemicolon cs with
      | some (m, rest) =>
        (lib.UnescapeString ⟨c :: m⟩).data ++ replaceEntities lib fuel rest
      | none => c :: replaceEntities lib fuel cs
    else c :: replaceEntities lib fuel cs

/-- Go `stripTags`. -/
def stripTags (lib : Lib) (s : String) : String :=
  let s1 := removeHtmlTags s.data.length s.data
  ⟨replaceEntities lib s1.length s1⟩

/-! ## The database -/

/-- A row of table `article`. `published` holds the formatted time stamp the
code binds to the column. -/
structure ArticleRow where
  article_id : Int
  slug : String
  published : String
  hidden : Bool
  title : String
  summary_html : String
  full_html : String
  full_plain : String
  deriving DecidableEq, Repr

/-- A row of table `article_tag`. -/
structure TagRow where
  article_id : Int
  tag : String
  deriving DecidableEq, Repr

/-- The database: the rows of the two tables in storage order and the next
value of the auto-increment column `article.article_id`. -/
structure Db where
  article : List ArticleRow
  article_tag : List TagRow
  nextId : Int
  deriving DecidableEq, Repr

/-- The storage failures of one `SaveToDb` call: for every call into
`database/sql` the message of the error it returns, or `none` when it
succeeds. `tagExec` decides for each tag whether `stmt.Exec(id, tag)` fails. -/
structure Faults where
  onBegin : Option String
  onSelect : Option String
  onUpdate : Option String
  onInsert : Option String
  onLastInsertId : Option String
  onRemoveTags : Option String
  onPrepare : Option String
  tagExec : String → Option String
  onCommit : Option String
  onRollback : Option String

/-- No call fails. -/
def Faults.none : Faults :=
  { onBegin := Option.none, onSelect := Option.none, onUpdate := Option.none,
    onInsert := Option.none, onLastInsertId := Option.none,
    onRemoveTags := Option.none, onPrepare := Option.none,
    tagExec := fun _ => Option.none, onCommit := Option.none,
    onRollback := Option.none }

/-- The error value of a failed call into `database/sql`. -/
def sqlErr (msg : String) : Error := Error.ext msg

/-- The row a successful `UPDATE article SET ... WHERE article_id = ?` of
`updateDbDetails` leaves in place of `r`. -/
def Article.updatedRow (lib : Lib) (a : Article) (r : ArticleRow) : ArticleRow :=
  { r with
    published := lib.timeFormat a.Published,
    hidden := a.Hidden,
    title := a.Title,
    summary_html := a.SummaryHtml,
    full_html := a.FullHtml,
    full_plain := stripTags lib a.FullHtml }

/-- Go `Article.updateDbDetails`: the `UPDATE` rewrites every row whose
`article_id` is `id`. Returns the transaction's state and the error. -/
def Article.updateDbDetails (lib : Lib) (f : Faults) (a : Article) (tx : Db) (id : Int) :
    Db × Option Error :=
  match f.onUpdate with
  | some msg => (tx, some (sqlErr msg))
  | none =>
    ({ tx with article :=
        tx.article.map (fun r => if r.article_id = id then a.updatedRow lib r else r) },
     none)

/-- The row `INSERT INTO article SET ...` of `createInDb` adds under the
identity `id`. -/
def Article.newRow (lib : Lib) (a : Article) (id : Int) : ArticleRow :=
  { article_id := id,
    slug := a.Slug,
    published := lib.timeFormat a.Published,
    hidden := a.Hidden,
    title := a.Title,
    summary_html := a.SummaryHtml,
    full_html := a.FullHtml,
    full_plain := stripTags lib a.FullHtml }

/-- Modelled from the spec: the schema of the database is not among the
sources. By section 6 of the spec `slug` is a unique key of table `article`,
so the database refuses to insert a slug that a stored row has. -/
def slugTaken (tx : Db) (slug : String) : Bool :=
  tx.article.any (fun r => r.slug = slug)

/-- Go `Article.createInDb`. The `INSERT` fails when the database reports an
error or the slug is taken; otherwise the row is appended under the next
auto-increment value, which `LastInsertId` returns. -/
def Article.createInDb (lib : Lib) (f : Faults) (a : Article) (tx : Db) :
    Db × Except Error Int :=
  match f.onInsert with
  | some msg => (tx, .error (sqlErr msg))
  | none =>
    if slugTaken tx a.Slug then
      (tx, .error (sqlErr "Duplicate entry for key slug"))
    else
      let tx1 : Db :=
        { tx with article := tx.article ++ [a.newRow lib tx.nextId], nextId := tx.nextId + 1 }
      match f.onLastInsertId with
      | some msg => (tx1, .error (sqlErr msg))
      | none => (tx1, .ok tx.nextId)

/-- Go `removeTags`: `DELETE FROM article_tag WHERE article_id = ?`. -/
def removeTags (f : Faults) (tx : Db) (id : Int) : Db × Option Error :=
  match f.onRemoveTags with
  | some msg => (tx, some (sqlErr msg))
  | none => ({ tx with article_tag := tx.article_tag.filter (fun t => t.article_id ≠ id) }, none)

/-- Modelled from the spec: the schema of the database is not among the
sources. By section 6 of the spec the pair (article identity, tag) is the key
of table `article_tag`, so one
`REPLACE INTO article_tag SET article_id = ?, tag = ?` deletes a row with the
same pair before it inserts the new row. -/
def replaceIntoArticleTag (tx : Db) (id : Int) (tag : String) : Db :=
  { tx with article_tag :=
      tx.article_tag.filter (fun t => ¬ (t.article_id = id ∧ t.tag = tag)) ++ [⟨id, tag⟩] }

/-- The loop of `setTags` over the keys of the map. -/
def setTagsLoop (f : Faults) (id : Int) : List String → Db → Db × Option Error
  | [], tx => (tx, none)
  | tag :: rest, tx =>
    match f.tagExec tag with
    | some msg => (tx, some (sqlErr msg))
    | none => setTagsLoop f id rest (replaceIntoArticleTag tx id tag)

/-- Go `setTags`. -/
def setTags (f : Faults) (tx : Db) (id : Int) (tags : List String) : Db × Option Error :=
  match f.onPrepare with
  | some msg => (tx, some (sqlErr msg))
  | none => setTagsLoop f id tags tx

/-- The `QueryRow(...).Scan(&id)` of `saveToDb` for
`SELECT article_id FROM article WHERE slug = ?`: the identity of the first row
with the slug, `sql.ErrNoRows` when there is none. -/
def selectIdBySlug (f : Faults) (tx : Db) (slug : String) : Except Error Int :=
  match f.onSelect with
  | some msg => .error (sqlErr msg)
  | none =>
    match tx.article.find? (fun r => r.slug = slug) with
    | some r => .ok r.article_id
    | none => .error Error.ErrNoRows

/-- The `switch` of `saveToDb`: update the row found, or insert one, or give
up with the error of the lookup. -/
def Article.upsert (lib : Lib) (f : Faults) (a : Article) (tx : Db) : Db × Except Error Int :=
  match selectIdBySlug f tx a.Slug with
  | .ok id =>
    match a.updateDbDetails lib f tx id with
    | (tx1, some err) => (tx1, .error err)
    | (tx1, none) => (tx1, .ok id)
  | .error Error.ErrNoRows => a.createInDb lib f tx
  | .error err => (tx, .error err)

/-- Go `Article.saveToDb`: the transaction's state after the call and the
result (the `0` returned next to an error is not kept). -/
def Article.saveToDb (lib : Lib) (f : Faults) (a : Article) (tx : Db) : Db × Except Error Int :=
  match a.upsert lib f tx with
  | (tx1, .error err) => (tx1, .error err)
  | (tx1, .ok id) =>
    match removeTags f tx1 id with
    | (tx2, some err) => (tx2, .error err)
    | (tx2, none) =>
      match setTags f tx2 id a.Tags with
      | (tx3, some err) => (tx3, .error err)
      | (tx3, none) => (tx3, .ok id)

/-- Go `dbutils.TxCommitIfOk` for a transaction begun on `db` whose state is
`tx`: the database after the call and the error returned. `Rollback` drops the
transaction's state; a `Commit` or a `Rollback` that fails leaves the
database as it was before the transaction. -/
def TxCommitIfOk (f : Faults) (db tx : Db) (err : Option Error) : Db × Option Error :=
  match err with
  | some e =>
    match f.onRollback with
    | some msg => (db, some (Error.rollbackFailed (sqlErr msg) e))
    | none => (db, some e)
  | none =>
    match f.onCommit with
    | some msg => (db, some (sqlErr msg))
    | none => (tx, none)

/-- The `error` half of a result. -/
def errOf {α : Type} : Except Error α → Option Error
  | .error e => some e
  | .ok _ => none

/-- Go `Article.SaveToDb`: the database after the call and the result. When
`Commit` fails Go returns the identity next to the error; the identity is not
kept here. -/
def Article.SaveToDb (lib : Lib) (f : Faults) (a : Article) (db : Db) : Db × Except Error Int :=
  match f.onBegin with
  | some msg => (db, .error (sqlErr msg))
  | none =>
    let r := a.saveToDb lib f db
    match TxCommitIfOk f db r.1 (errOf r.2) with
    | (db1, some err) => (db1, .error err)
    | (db1, none) => (db1, r.2)

/-- The number of `?` in the statement `DeleteArticlesFromDbExcept` builds:
one written with the head of the statement, one for each `i` of the loop
`for i := 1; i < len(slugs); i++`. -/
def deletePlaceholders (slugs : List String) : Nat :=
  1 + (List.range' 1 (slugs.length - 1)).length

/-- Run `DELETE FROM article WHERE slug NOT IN (?, ..., ?)` with `n`
placeholders and the arguments `args`. The statement is refused when the number
of arguments is not the number of placeholders. `cascade` says whether the
schema removes the `article_tag` rows of a deleted article with it. -/
def execDeleteNotIn (onExec : Option String) (cascade : Bool) (db : Db) (n : Nat)
    (args : List String) : Db × Option Error :=
  match onExec with
  | some msg => (db, some (sqlErr msg))
  | none =>
    if n ≠ args.length then (db, some (sqlErr "sql: wrong number of arguments"))
    else
      let kept := db.article.filter (fun r => r.slug ∈ args)
      let deleted := db.article.filter (fun r => r.slug ∉ args)
      let tags :=
        if cascade then
          db.article_tag.filter (fun t => !(deleted.any (fun r => r.article_id = t.article_id)))
        else db.article_tag
      ({ db with article := kept, article_tag := tags }, none)

/-- Go `DeleteArticlesFromDbExcept`. -/
def DeleteArticlesFromDbExcept (onExec : Option String) (cascade : Bool) (db : Db)
    (slugs : List String) : Db × Option Error :=
  if slugs.length = 0 then (db, none)
  else execDeleteNotIn onExec cascade db (deletePlaceholders slugs) slugs

/-- The loop of `updateArticles` that saves the articles and collects their
slugs; the `i`-th call of `SaveToDb` meets the failures `faults i`. An error
is the one `log.Fatalf` ends the process with. -/
def saveArticles (lib : Lib) (faults : Nat → Faults) :
    Nat → List Article → Db → List String → Db × Except Error (List String)
  | _, [], db, slugs => (db, .ok slugs)
  | i, a :: rest, db, slugs =>
    match a.SaveToDb lib (faults i) db with
    | (db1, .error err) => (db1, .error err)
    | (db1, .ok _) => saveArticles lib faults (i + 1) rest db1 (slugs ++ [a.Slug])

/-- Go `updateArticles`, from the loaded `articles` on: the database when the
function returns or the process ends, and the error of `log.Fatalf` (`none`
when the function returns). -/
def updateArticles (lib : Lib) (faults : Nat → Faults) (onDelete : Option String)
    (cascade : Bool) (db : Db) (articles : List Article) : Db × Option Error :=
  match saveArticles lib faults 0 articles db [] with
  | (db1, .error err) => (db1, some err)
  | (db1, .ok slugs) => DeleteArticlesFromDbExcept onDelete cascade db1 slugs

/-! ## What a successful save leaves: the definitions the theorems are stated with -/

/-- The rows of `article_tag` after one `REPLACE INTO` for (`id`, `tag`). -/
def replaceTagRows (id : Int) (rows : List TagRow) (tag : String) : List TagRow :=
  rows.filter (fun t => ¬ (t.article_id = id ∧ t.tag = tag)) ++ [⟨id, tag⟩]

/-- The rows of `article_tag` after `removeTags` for `id` and the `REPLACE INTO`
of every tag of `tags`. -/
def tagRowsAfter (id : Int) (tags : List String) (rows : List TagRow) : List TagRow :=
  tags.foldl (replaceTagRows id) (rows.filter (fun t => t.article_id ≠ id))

/-- The rows of `article` after a successful save of `a`, and the identity it
returns: the first row with the slug decides between update and insert. -/
def Article.savedRows (lib : Lib) (a : Article) (db : Db) : List ArticleRow × Int :=
  match db.article.find? (fun r => r.slug = a.Slug) with
  | some r =>
    (db.article.map (fun x => if x.article_id = r.article_id then a.updatedRow lib x else x),
     r.article_id)
  | none => (db.article ++ [a.newRow lib db.nextId], db.nextId)

/-- The database a successful `SaveToDb` of `a` leaves. -/
def Article.savedDb (lib : Lib) (a : Article) (db : Db) : Db :=
  { article := (a.savedRows lib db).1,
    article_tag := tagRowsAfter (a.savedRows lib db).2 a.Tags db.article_tag,
    nextId := match db.article.find? (fun r => r.slug = a.Slug) with
      | some _ => db.nextId
      | none => db.nextId + 1 }

/-- Modelled from the spec: the schema of the database is not among the
sources. By sections 3 and 6 of the spec the identity `article_id` is assigned
by the storage on insert: no two rows of `article` have the same identity, and
every identity in use is below the next auto-increment value. -/
def Db.KeysOk (db : Db) : Prop :=
  (db.article.map (fun r => r.article_id)).Nodup ∧ ∀ r ∈ db.article, r.article_id < db.nextId

instance (db : Db) : Decidable db.KeysOk := by
  unfold Db.KeysOk
  exact inferInstance

/-- No two rows of `article` have the same slug (the unique key of the spec's
section 6). -/
def Db.SlugsUnique (db : Db) : Prop :=
  (db.article.map (fun r => r.slug)).Nodup

instance (db : Db) : Decidable db.SlugsUnique := by
  unfold Db.SlugsUnique
  exact inferInstance

/-- The slugs of the stored articles. -/
def Db.slugs (db : Db) : List String :=
  db.article.map (fun r => r.slug)

/-- The tags associated with the identity `id`. -/
def Db.tagsOf (db : Db) (id : Int) : List String :=
  (db.article_tag.filter (fun t => t.article_id = id)).map (fun t => t.tag)

/-- The article `p` is stored with its fields and tags: some row has its slug
and the column values `SaveToDb` writes for `p`, and the tags associated with
that row are the tags of `p`. -/
def Article.StoredIn (lib : Lib) (p : Article) (db : Db) : Prop :=
  ∃ r ∈ db.article, r = p.newRow lib r.article_id ∧ ∀ t, t ∈ db.tagsOf r.article_id ↔ t ∈ p.Tags

/-- An instance of `Lib` to evaluate the definitions with: `ToLower` maps the
ASCII capitals, every date parses to the zero time, `UnescapeString` and the
renderer return their argument. -/
def Lib.plain : Lib :=
  { ToLower := fun s => ⟨s.data.map Char.toLower⟩,
    timeParse := fun _ => .ok Time.zero,
    timeFormat := fun _ => "0001-01-01 00:00:00",
    UnescapeString := fun s => s,
    Convert := fun s => .ok s }

/-! ## Strings -/

/-- Go `unicode.IsSpace`. -/
def isSpace (c : Char) : Bool :=
  c = '\t' || c = '\n' || c = '\x0b' || c = '\x0c' || c = '\r' || c = ' ' ||
  c.val = 0x85 || c.val = 0xA0 || c.val = 0x1680 || (0x2000 ≤ c.val && c.val ≤ 0x200a) ||
  c.val = 0x2028 || c.val = 0x2029 || c.val = 0x202f || c.val = 0x205f || c.val = 0x3000

/-- Drop the white space at the end. -/
def trimRight (cs : List Char) : List Char :=
  (cs.reverse.dropWhile isSpace).reverse

/-- Go `strings.TrimSpace`. -/
def TrimSpace (s : String) : String :=
  ⟨trimRight (s.data.dropWhile isSpace)⟩

/-- The characters before the first `:` and the characters behind it; `none`
when there is no `:`. -/
def splitFirstColon : List Char → Option (List Char × List Char)
  | [] => none
  | c :: cs =>
    if c = ':' then some ([], cs)
    else match splitFirstColon cs with
      | some (k, v) => some (c :: k, v)
      | none => none

/-- Go `strings.SplitN(line, ":", 2)`: the line itself when it has no `:`, else
the part before the first `:` and the whole rest behind it. -/
def SplitN (line : String) : List String :=
  match splitFirstColon line.data with
  | some (k, v) => [⟨k⟩, ⟨v⟩]
  | none => [line]

/-- Go `strings.Split(s, ",")` on the characters of `s`. -/
def splitComma : List Char → List (List Char)
  | [] => [[]]
  | c :: cs =>
    if c = ',' then [] :: splitComma cs
    else match splitComma cs with
      | p :: ps => (c :: p) :: ps
      | [] => [[c]]

/-- The loop of `splitTags`: `tags[tag] = struct{}{}` adds the key when the map
does not hold it. -/
def addTags (tags : List String) : List (List Char) → List String
  | [] => tags
  | part :: parts =>
    let tag := TrimSpace ⟨part⟩
    if tag ≠ "" then addTags (if tag ∈ tags then tags else tags ++ [tag]) parts
    else addTags tags parts

/-- Go `splitTags`. -/
def splitTags (s : String) : List String :=
  addTags [] (splitComma s.data)

/-- Go `parseDate`. -/
def parseDate (lib : Lib) (s : String) : Except Error Time :=
  lib.timeParse s

/-! ## The scanner -/

/-- A `bufio.Scanner` over an input: the lines it has not delivered yet, the
error the reader ends with (`none` for `io.EOF`), whether that error comes
while the last line is being read (the line is then delivered unterminated,
with the error already recorded) and the error recorded so far. -/
structure Scanner where
  lines : List String
  readErr : Option Error
  errWithLast : Bool
  err : Option Error
  deriving DecidableEq, Repr

/-- A scanner at the start of an input that is read without error. -/
def Scanner.ofLines (lines : List String) : Scanner :=
  { lines := lines, readErr := none, errWithLast := false, err := none }

/-- Go `scanner.Scan()` with `scanner.Text()`: the next line, or `none` when
`Scan` returns false, and the scanner after the call. -/
def Scanner.Scan (sc : Scanner) : Option String × Scanner :=
  match sc.lines with
  | [] => (none, { sc with err := sc.err.orElse (fun _ => sc.readErr) })
  | [l] =>
    (some l, { sc with lines := [],
                       err := if sc.errWithLast then sc.err.orElse (fun _ => sc.readErr)
                              else sc.err })
  | l :: rest => (some l, { sc with lines := rest })

/-- Go `scanner.Err()`. -/
def Scanner.Err (sc : Scanner) : Option Error := sc.err

/-! ## parseHeader -/

/-- The local variables of `parseHeader`. -/
structure HeaderState where
  article : Article
  seenTitle : Bool
  seenPublished : Bool
  deriving DecidableEq, Repr

/-- The state `parseHeader` starts with. -/
def HeaderState.init : HeaderState :=
  { article := Article.empty, seenTitle := false, seenPublished := false }

/-- The body of the loop of `parseHeader` for a trimmed, non-empty `line`: the
split at the first colon and the `switch` over the key. An error is the one
`parseHeader` returns. -/
def headerStep (lib : Lib) (st : HeaderState) (line : String) : Except Error HeaderState :=
  match SplitN line with
  | [k, v] =>
    let key := lib.ToLower (TrimSpace k)
    let value := TrimSpace v
    if key = "title" then
      .ok { st with article := { st.article with Title := value }, seenTitle := true }
    else if key = "tags" then
      .ok { st with article := { st.article with Tags := splitTags value } }
    else if key = "date" then
      match parseDate lib value with
      | .ok t => .ok { st with article := { st.article with Published := t },
                               seenPublished := true }
      | .error err => .error err
    else if key = "hidden" then
      .ok { st with article := { st.article with Hidden := lib.ToLower value = "yes" } }
    else .ok st
  | _ => .error Error.ErrBrokenHeader

/-- The loop `for scanner.Scan() { ... }` of `parseHeader`. Every turn takes a
line from the scanner, so `fuel` above the number of lines is never used up. -/
def parseHeaderLoop (lib : Lib) : Nat → Scanner → HeaderState → Scanner × Except Error HeaderState
  | 0, sc, st => (sc, .ok st)
  | fuel + 1, sc, st =>
    match sc.Scan with
    | (none, sc1) => (sc1, .ok st)
    | (some text, sc1) =>
      let line := TrimSpace text
      if line = "" then (sc1, .ok st)
      else match headerStep lib st line with
        | .ok st1 => parseHeaderLoop lib fuel sc1 st1
        | .error err => (sc1, .error err)

/-- Go `parseHeader`: the scanner after the call, the article and the error
returned. -/
def parseHeader (lib : Lib) (sc : Scanner) : Scanner × Article × Option Error :=
  match parseHeaderLoop lib (sc.lines.length + 1) sc HeaderState.init with
  | (sc1, .error err) => (sc1, Article.empty, some err)
  | (sc1, .ok st) =>
    match sc1.Err with
    | some err => (sc1, Article.empty, some err)
    | none =>
      if !st.seenTitle || !st.seenPublished then
        (sc1, Article.empty, some Error.ErrMissingMandatoryHeaders)
      else (sc1, st.article, none)

/-- The header block of an input: the lines before the first line that is
empty once trimmed. -/
def headerBlock (lines : List String) : List String :=
  lines.takeWhile (fun l => TrimSpace l ≠ "")

/-- The line, once trimmed, has a colon. -/
def hasColon (text : String) : Bool :=
  decide (':' ∈ (TrimSpace text).data)

/-- The key `parseHeader` reads from a line: the lower-cased, trimmed part
before the first colon of the trimmed line; `none` when there is no colon. -/
def headerKey (lib : Lib) (text : String) : Option String :=
  match splitFirstColon (TrimSpace text).data with
  | some (k, _) => some (lib.ToLower (TrimSpace ⟨k⟩))
  | none => none

/-- The value `parseHeader` reads from a line: the trimmed rest behind the
first colon of the trimmed line; `none` when there is no colon. -/
def headerValue (text : String) : Option String :=
  match splitFirstColon (TrimSpace text).data with
  | some (_, v) => some (TrimSpace ⟨v⟩)
  | none => none

/-- The date line `text` does not parse: its key is `date` and `parseDate`
refuses its value. -/
def badDate (lib : Lib) (text : String) : Bool :=
  match headerKey lib text, headerValue text with
  | some k, some v =>
    k = "date" && (match parseDate lib v with
      | .ok _ => false
      | .error _ => true)
  | _, _ => false

/-- The loop body of `parseHeader` run over the lines of a header block. -/
def foldSteps (lib : Lib) : List String → HeaderState → Except Error HeaderState
  | [], st => .ok st
  | text :: rest, st =>
    match headerStep lib st (TrimSpace text) with
    | .ok st1 => foldSteps lib rest st1
    | .error err => .error err

/-- The update of `saveToDb` on the rows of `article`. -/
def updRows (lib : Lib) (a : Article) (id : Int) (rows : List ArticleRow) : List ArticleRow :=
  rows.map (fun x => if x.article_id = id then a.updatedRow lib x else x)

/-- The database after successful saves of the articles of `batch` in order. -/
def savedAll (lib : Lib) (batch : List Article) (db : Db) : Db :=
  batch.foldl (fun d a => a.savedDb lib d) db

/-- A row for the examples. -/
def sampleRow (id : Int) (slug : String) : ArticleRow :=
  { article_id := id, slug := slug, published := "2020-01-02 03:04:05", hidden := false,
    title := "old title", summary_html := "", full_html := "<p>old</p>", full_plain := "old" }

/-- A database holding the articles A, B and C, with one tag each. -/
def sampleDb : Db :=
  { article := [sampleRow 1 "A", sampleRow 2 "B", sampleRow 3 "C"],
    article_tag := [⟨1, "go"⟩, ⟨2, "go"⟩, ⟨3, "old"⟩],
    nextId := 4 }

/-- An article for the examples. -/
def sampleArticle (slug : String) (tags : List String) : Article :=
  { Slug := slug, Published := Time.zero, Hidden := false, Title := "new title",
    SummaryHtml := "", FullHtml := "<p>new &amp; <b>bold</b></p>", Tags := tags }

/-- A failure pattern in which the `UPDATE` of `updateDbDetails` fails. -/
def updateFails : Faults := { Faults.none with onUpdate := some "server has gone away" }

/-- A failure pattern in which the insertion of the tag `b` fails and the
rollback works. -/
def tagInsertFails : Faults :=
  { Faults.none with tagExec := fun t => if t = "b" then some "deadlock" else none }

/-- A second article with the slug `A`, as a file `drafts/A.md` next to
`posts/A.md` gives one: the slug is the base name of the file without its
extension. -/
def draftArticle : Article :=
  { sampleArticle "A" [] with Title := "draft title" }

/-! ## Readers and files -/

/-- An `io.Reader`: the text it yields and the error it ends with (`none` for
`io.EOF`), reported by a `Read` call of its own, as a file does. -/
structure Reader where
  data : String
  err : Option Error
  deriving DecidableEq, Repr

/-- Go `bufio.MaxScanTokenSize`. -/
def maxScanTokenSize : Nat := 64 * 1024

/-- The error `bufio.ErrTooLong`. -/
def ErrTooLong : Error := Error.ext "bufio.Scanner: token too long"

/-- The pieces `bufio.ScanLines` cuts the input into, before a carriage return
is dropped: the text between line feeds; text behind the last line feed is a
line of its own when it is not empty. -/
def rawLines : List Char → List (List Char)
  | [] => []
  | c :: cs =>
    if c = '\n' then [] :: rawLines cs
    else match rawLines cs with
      | l :: ls => (c :: l) :: ls
      | [] => [[c]]

/-- The `dropCR` of `bufio.ScanLines`: a carriage return at the end of a line
is dropped. -/
def dropCR (l : List Char) : List Char :=
  match l.getLast? with
  | some c => if c = '\r' then l.dropLast else l
  | none => l

/-- The line, with its line feed, has room in the buffer of the scanner. -/
def lineFits (l : List Char) : Bool :=
  (String.mk l).utf8ByteSize < maxScanTokenSize

/-- Go `bufio.NewScanner(r)` with the default split function `ScanLines`: the
lines up to the first one that is too long for the buffer, after which `Scan`
fails with `ErrTooLong`; without such a line the scanner ends with the error of
the reader, met with the last line when that line has no line feed. -/
def NewScanner (r : Reader) : Scanner :=
  let raw := rawLines r.data.data
  let fit := raw.takeWhile lineFits
  if fit.length < raw.length then
    { lines := fit.map (fun l => ⟨dropCR l⟩), readErr := some ErrTooLong,
      errWithLast := false, err := none }
  else
    { lines := raw.map (fun l => ⟨dropCR l⟩), readErr := r.err,
      errWithLast := decide (r.data.data.getLast? ≠ none ∧ r.data.data.getLast? ≠ some '\n'),
      err := none }

/-! ## parseText -/

/-- The class `\s` of Go regular expressions: tab, line feed, form feed,
carriage return and space. -/
def reSpace : RegularExpression Char :=
  RegularExpression.char '\t' + RegularExpression.char '\n' + RegularExpression.char '\x0c' +
    RegularExpression.char '\r' + RegularExpression.char ' '

/-- A letter under the flag `i`: the lower-case or the upper-case letter. -/
def reLetter (lower upper : Char) : RegularExpression Char :=
  RegularExpression.char lower + RegularExpression.char upper

/-- The expression `~~+`. -/
def reTildes : RegularExpression Char :=
  RegularExpression.char '~' * (RegularExpression.char '~' * (RegularExpression.char '~').star)

/-- Go `reMore`, the expression `^\s*~~+(?i:more)~~+\s*$`; the anchors `^` and
`$` make a match a match of the whole text. -/
def reMore : RegularExpression Char :=
  reSpace.star * reTildes *
    (reLetter 'm' 'M' * reLetter 'o' 'O' * reLetter 'r' 'R' * reLetter 'e' 'E') *
    reTildes * reSpace.star

/-- Go `reMore.MatchString(line)`. -/
def reMoreMatch (line : String) : Bool :=
  reMore.rmatch line.data

/-- Go `markdown.Parse`: the text goldmark writes, or the empty string and
the error of the conversion. -/
def markdownParse (lib : Lib) (s : String) : String × Option Error :=
  match lib.Convert s with
  | .ok html => (html, none)
  | .error err => ("", some err)

/-- The loop `for scanner.Scan() { ... }` of `parseText`: the scanner, the text
in `builder`, the article and the error the function returns from inside the
loop. Every turn takes a line from the scanner, so `fuel` above the number of
lines is never used up. -/
def parseTextLoop (lib : Lib) :
    Nat → Scanner → String → Article → Scanner × String × Article × Option Error
  | 0, sc, builder, article => (sc, builder, article, none)
  | fuel + 1, sc, builder, article =>
    match sc.Scan with
    | (none, sc1) => (sc1, builder, article, none)
    | (some line, sc1) =>
      if reMoreMatch line then
        match markdownParse lib builder with
        | (html, some err) => (sc1, builder, { article with SummaryHtml := html }, some err)
        | (html, none) => parseTextLoop lib fuel sc1 builder { article with SummaryHtml := html }
      else parseTextLoop lib fuel sc1 (builder ++ line ++ "\n") article

/-- Go `parseText`: the scanner after the call, the article behind the pointer
and the error returned. -/
def parseText (lib : Lib) (sc : Scanner) (article : Article) : Scanner × Article × Option Error :=
  match parseTextLoop lib (sc.lines.length + 1) sc "" article with
  | (sc1, _, article1, some err) => (sc1, article1, some err)
  | (sc1, builder, article1, none) =>
    match sc1.Err with
    | some err => (sc1, article1, some err)
    | none =>
      match markdownParse lib builder with
      | (html, some err) => (sc1, { article1 with FullHtml := html }, some err)
      | (html, none) => (sc1, { article1 with FullHtml := html }, none)

/-- The body of `ParseArticle` behind `bufio.NewScanner(r)`. -/
def parseArticleFrom (lib : Lib) (sc : Scanner) : Article × Option Error :=
  match parseHeader lib sc with
  | (_, _, some err) => (Article.empty, some err)
  | (sc1, article, none) =>
    match parseText lib sc1 article with
    | (_, _, some err) => (Article.empty, some err)
    | (_, article1, none) => (article1, none)

/-- Go `ParseArticle`. -/
def ParseArticle (lib : Lib) (r : Reader) : Article × Option Error :=
  parseArticleFrom lib (NewScanner r)

/-! ## LoadArticle -/

/-- What is left of a path once the slashes at its end are dropped. -/
def stripSlashes (cs : List Char) : List Char :=
  (cs.reverse.dropWhile (fun c => c = '/')).reverse

/-- The text behind the last slash; the text itself when it has no slash. -/
def afterLastSlash : List Char → List Char
  | [] => []
  | c :: cs =>
    if '/' ∈ c :: cs then afterLastSlash cs else c :: cs

/-- Go `path.Base`. -/
def Base (p : String) : String :=
  if p = "" then "."
  else
    let q := afterLastSlash (stripSlashes p.data)
    if q = [] then "/" else ⟨q⟩

/-- Go `strings.Split(s, ".")` on the characters of `s`. -/
def splitDot : List Char → List (List Char)
  | [] => [[]]
  | c :: cs =>
    if c = '.' then [] :: splitDot cs
    else match splitDot cs with
      | p :: ps => (c :: p) :: ps
      | [] => [[c]]

/-- Go `strings.Join(parts, ".")`. -/
def joinDot : List (List Char) → List Char
  | [] => []
  | [p] => p
  | p :: q :: ps => p ++ '.' :: joinDot (q :: ps)

/-- The slug `LoadArticle` derives from a file name:
`strings.Join(parts[:len(parts)-1], ".")` for
`parts := strings.Split(path.Base(filename), ".")`. -/
def slugOf (filename : String) : String :=
  ⟨joinDot (splitDot (Base filename).data).dropLast⟩

/-- Go `LoadArticle`; `fs` is the file system: what `os.Open` of a path gives,
a reader over the file or an error. -/
def LoadArticle (lib : Lib) (fs : String → Except Error Reader) (filename : String) :
    Article × Option Error :=
  let slug := slugOf filename
  match fs filename with
  | .error err => (Article.empty, some err)
  | .ok f =>
    match ParseArticle lib f with
    | (_, some err) => (Article.empty, some err)
    | (article, none) => ({ article with Slug := slug }, none)

/-! ## The definitions the theorems about the parser are stated with -/

/-- The text of a body: every line that is not a marker, followed by a line
feed, in the order of the input. -/
def bodyText : List String → String
  | [] => ""
  | line :: rest =>
    if reMoreMatch line then bodyText rest else line ++ "\n" ++ bodyText rest

/-- The loop body of `parseText` run over the lines of a body: the text in
`builder`, the article and the error the loop ends with. -/
def textFold (lib : Lib) : List String → String → Article → String × Article × Option Error
  | [], builder, article => (builder, article, none)
  | line :: rest, builder, article =>
    if reMoreMatch line then
      match markdownParse lib builder with
      | (html, some err) => (builder, { article with SummaryHtml := html }, some err)
      | (html, none) => textFold lib rest builder { article with SummaryHtml := html }
    else textFold lib rest (builder ++ line ++ "\n") article

/-- The white space of a marker line: the characters of the class `\s`. -/
def isReSpace (c : Char) : Prop :=
  c = '\t' ∨ c = '\n' ∨ c = '\x0c' ∨ c = '\r' ∨ c = ' '

/-- The marker line as the spec words it: white space, two or more tildes, the
letters m, o, r, e each in either case, two or more tildes, white space, and
nothing else. -/
def isMarkerLine (line : String) : Prop :=
  ∃ (ws1 : List Char) (n1 : Nat) (c1 c2 c3 c4 : Char) (n2 : Nat) (ws2 : List Char),
    line.data = ws1 ++ (List.replicate n1 '~' ++ ([c1, c2, c3, c4] ++
      (List.replicate n2 '~' ++ ws2))) ∧
    (∀ c ∈ ws1, isReSpace c) ∧ 2 ≤ n1 ∧
    (c1 = 'm' ∨ c1 = 'M') ∧ (c2 = 'o' ∨ c2 = 'O') ∧ (c3 = 'r' ∨ c3 = 'R') ∧
    (c4 = 'e' ∨ c4 = 'E') ∧
    2 ≤ n2 ∧ (∀ c ∈ ws2, isReSpace c)

/-- A tag as the spec wants it: not empty, no white space at either end, no
comma. -/
def cleanTag (t : String) : Prop :=
  t ≠ "" ∧ (∀ c, t.data.head? = some c → isSpace c = false) ∧
    (∀ c, t.data.getLast? = some c → isSpace c = false) ∧ ',' ∉ t.data

/-- The base name of a path is a stem, a dot that is not the first character,
and an extension without a dot. -/
def hasStem (filename : String) : Prop :=
  ∃ (stem ext : List Char), stem ≠ [] ∧ '.' ∉ ext ∧ (Base filename).data = stem ++ '.' :: ext

/-- A file system for the examples: the file `articles/README` and the file
`articles/2020-01-02.my-post.md` hold an article, the file
`articles/broken.md` has a header line without a colon, no other file
exists. -/
def sampleFs (path : String) : Except Error Reader :=
  if path = "articles/README" ∨ path = "articles/2020-01-02.my-post.md" then
    .ok ⟨"Title: Read me\ndate: 2020-01-02 03:04:05\n\nhello\n", none⟩
  else if path = "articles/broken.md" then
    .ok ⟨"Title: Broken\nnot-a-kv-pair\ndate: 2020-01-02 03:04:05\n\nhello\n", none⟩
  else .error (Error.ext "open: no such file or directory")

/-- An instance of `Lib` whose renderer refuses every text with the line
`bad`. -/
def Lib.strict : Lib :=
  { Lib.plain with
    Convert := fun s =>
      if s = "bad\n" then .error (Error.ext "goldmark: cannot render") else .ok s }

/-- Every marker of `lines` finds a text it can render: for each marker the
renderer accepts `builder` followed by the text of the lines before the
marker. -/
def markersRender (lib : Lib) (builder : String) (lines : List String) : Prop :=
  ∀ p m q, lines = p ++ m :: q → reMoreMatch m = true →
    ∃ html, lib.Convert (builder ++ bodyText p) = .ok html

/-! ## The steps of a save -/

/-- The first step of `saveToDb` for `a` on `tx` succeeds: the lookup by slug
reports no error, and the `UPDATE` of the row it finds, or else the `INSERT`
and its `LastInsertId`, succeed. -/
def RowStepOk (f : Faults) (a : Article) (tx : Db) : Prop :=
  f.onSelect = none ∧
    ((∃ r, tx.article.find? (fun r => r.slug = a.Slug) = some r ∧ f.onUpdate = none) ∨
      (tx.article.find? (fun r => r.slug = a.Slug) = none ∧ f.onInsert = none ∧
        f.onLastInsertId = none))

/-- A step of `saveToDb` for `a` on `tx` fails with the error `e`: the lookup
by slug, the update or the insert, the deletion of the old tag associations,
or the insertion of a tag (preparing the statement, or executing it for the
first tag that fails, in the order the tags are visited).  A step is reached
only when the steps before it succeeded. -/
inductive StepFails (f : Faults) (a : Article) (tx : Db) : Error → Prop
  | lookup (msg : String) (h : f.onSelect = some msg) : StepFails f a tx (sqlErr msg)
  | update (msg : String) (r : ArticleRow) (h1 : f.onSelect = none)
    (h2 : tx.article.find? (fun r => r.slug = a.Slug) = some r)
    (h3 : f.onUpdate = some msg) : StepFails f a tx (sqlErr msg)
  | insert (msg : String) (h1 : f.onSelect = none)
    (h2 : tx.article.find? (fun r => r.slug = a.Slug) = none)
    (h3 : f.onInsert = some msg) : StepFails f a tx (sqlErr msg)
  | lastInsertId (msg : String) (h1 : f.onSelect = none)
    (h2 : tx.article.find? (fun r => r.slug = a.Slug) = none)
    (h3 : f.onInsert = none) (h4 : f.onLastInsertId = some msg) : StepFails f a tx (sqlErr msg)
  | removeTags (msg : String) (h1 : RowStepOk f a tx) (h2 : f.onRemoveTags = some msg) :
    StepFails f a tx (sqlErr msg)
  | prepare (msg : String) (h1 : RowStepOk f a tx) (h2 : f.onRemoveTags = none)
    (h3 : f.onPrepare = some msg) : StepFails f a tx (sqlErr msg)
  | tag (msg : String) (pre : List String) (t : String) (post : List String)
    (h1 : RowStepOk f a tx) (h2 : f.onRemoveTags = none) (h3 : f.onPrepare = none)
    (h4 : a.Tags = pre ++ t :: post) (h5 : ∀ x ∈ pre, f.tagExec x = none)
    (h6 : f.tagExec t = some msg) : StepFails f a tx (sqlErr msg)

/-! ## Tag-like tokens -/

/-- One piece of the inside of a tag-like token: a character other than `>`
and the quotes, or an attribute value between two single or two double quotes
(the alternatives of the group in `reHtmlTag`; a run `[^>'"]+` is a sequence
of pieces of the first kind). -/
inductive TagPiece : List Char → Prop
  | char (c : Char) (h1 : c ≠ '>') (h2 : c ≠ Char.ofNat 39) (h3 : c ≠ Char.ofNat 34) :
    TagPiece [c]
  | quoted (q : Char) (hq : q = Char.ofNat 39 ∨ q = Char.ofNat 34) (v : List Char)
    (hv : q ∉ v) : TagPiece (q :: v ++ [q])

/-- A sequence of pieces: what stands between `<` and `>` in a tag-like token. -/
inductive TagBody : List Char → Prop
  | nil : TagBody []
  | cons (p b : List Char) (hp : TagPiece p) (hb : TagBody b) : TagBody (p ++ b)

/-- A tag-like token: `<`, a sequence of pieces, `>`; the language of
`reHtmlTag`. -/
def isTagToken (t : List Char) : Prop :=
  ∃ b, TagBody b ∧ t = '<' :: b ++ ['>']

/-- The string `s` is tag-free: no substring of it is a tag-like token. -/
def TagFree (s : String) : Prop :=
  ∀ pre tok post : List Char, s.data = pre ++ tok ++ post → ¬ isTagToken tok

/-- An instance of `Lib` whose `UnescapeString` decodes the entities `&lt;`,
`&gt;`, `&amp;` and `&quot;` as `html.UnescapeString` does and returns any
other argument as it is; the other fields are those of `Lib.plain`. -/
def Lib.html : Lib :=
  { Lib.plain with
    UnescapeString := fun s =>
      if s = "&lt;" then "<" else if s = "&gt;" then ">"
      else if s = "&amp;" then "&" else if s = "&quot;" then String.mk [Char.ofNat 34]
      else s }

/-- The characters that matter to the scan of a tag: `<`, `>` and the two
quotes. -/
def isTagChar (c : Char) : Bool :=
  c = '<' || c = '>' || c = Char.ofNat 39 || c = Char.ofNat 34

/-- The matches of `reHtmlEntity` in a text, from left to right: the strings
`ReplaceAllStringFunc` passes to `html.UnescapeString` in `stripTags`. -/
def entityMatches : Nat → List Char → List String
  | 0, _ => []
  | _ + 1, [] => []
  | fuel + 1, c :: cs =>
    if c = '&' then
      match throughSemicolon cs with
      | some (m, rest) => ⟨c :: m⟩ :: entityMatches fuel rest
      | none => entityMatches fuel cs
    else entityMatches fuel cs

/-- The entities `stripTags` decodes in `s`: the matches of `reHtmlEntity` in
what the removal of the tags leaves of `s`. -/
def entitiesLeft (s : String) : List String :=
  entityMatches (removeHtmlTags s.data.length s.data).length
    (removeHtmlTags s.data.length s.data)

/-- A text in which every `<` opens a tag-like token: a sequence of tag-like
tokens and of characters other than `<`, as rendered HTML is. -/
inductive Markup : List Char → Prop
  | nil : Markup []
  | text (c : Char) (rest : List Char) (h : c ≠ '<') (hr : Markup rest) : Markup (c :: rest)
  | tag (tok rest : List Char) (h : isTagToken tok) (hr : Markup rest) : Markup (tok ++ rest)

/-- A check for `Markup` by one pass over the text. -/
def isMarkup : Nat → List Char → Bool
  | _, [] => true
  | 0, _ :: _ => false
  | fuel + 1, c :: cs =>
    if c = '<' then
      match tagEnd none cs with
      | some rest => isMarkup fuel rest
      | none => false
    else isMarkup fuel cs

/-- A check for tag-like tokens: some `<` of the text opens one. -/
def hasTag : List Char → Bool
  | [] => false
  | c :: cs => (c = '<' && (tagEnd none cs).isSome) || hasTag cs

/-! ## The update handler of the server -/

/-- Go `config.Config`. -/
structure Config where
  ContentRoot : String
  DbDsn : String
  TemplatePath : String
  StaticPath : String
  HttpLaddr : String
  Secret : String
  UpdateUrl : String
  deriving DecidableEq, Repr

/-- Go `environment.Env`, as far as the server reads it: the configuration it
has cached (`none` for the nil pointer) and what `config.LoadConfig` returns
for its `configPath`. -/
structure Env where
  config : Option Config
  LoadConfig : Except Error Config

/-- Go `Env.Config`: the cached configuration, or the loaded one, which is
then cached. -/
def Env.Config (e : Env) : Env × Except Error Laria.Config :=
  match e.config with
  | some conf => (e, .ok conf)
  | none =>
    match e.LoadConfig with
    | .error err => (e, .error err)
    | .ok conf => ({ e with config := some conf }, .ok conf)

/-- What `update` reads from outside the program, and the library functions
it calls: `menu.LoadFromFile`, `readPages` and `LoadViews`, which read files,
`path.Join`, and `fmt.Errorf` with a message and the error it wraps.  `Menu`
and `Views` are the types of the loaded menu and templates. -/
structure Files (Menu Views : Type) where
  LoadFromFile : String → Except Error Menu
  readPages : String → Except Error (List (String × String))
  LoadViews : String → Except Error Views
  Join : String → String → String
  Errorf : String → Error → Error

/-- Go `serveContext`: the environment and the cached content (the lock is
left out, one request is handled at a time). -/
structure serveContext (Menu Views : Type) where
  env : Env
  pages : List (String × String)
  menu : Menu
  views : Views

/-- Go `serveContext.update`: loads the menu, the pages and the templates and
installs them in the context; on an error the cached content stays. -/
def serveContext.update {Menu Views : Type} (fs : Files Menu Views)
    (ctx : serveContext Menu Views) : serveContext Menu Views × Option Error :=
  match ctx.env.Config with
  | (env1, .error err) => ({ ctx with env := env1 }, some err)
  | (env1, .ok conf) =>
    let menuPath := fs.Join conf.ContentRoot "menu.json"
    match fs.LoadFromFile menuPath with
    | .error err =>
      ({ ctx with env := env1 }, some (fs.Errorf ("Failed loading menu " ++ menuPath) err))
    | .ok menu =>
      let pagesPath := fs.Join conf.ContentRoot "pages"
      match fs.readPages pagesPath with
      | .error err =>
        ({ ctx with env := env1 },
          some (fs.Errorf ("Failed loading pages from " ++ pagesPath) err))
      | .ok pages =>
        match fs.LoadViews conf.TemplatePath with
        | .error err =>
          ({ ctx with env := env1 }, some (fs.Errorf "Failed loading templates" err))
        | .ok views => ({ env := env1, pages := pages, menu := menu, views := views }, none)

/-- Go `url.Values.Get`: the first value of `key`, or the empty string. -/
def Get (values : List (String × List String)) (key : String) : String :=
  match values.find? (fun kv => kv.1 = key) with
  | some (_, v :: _) => v
  | _ => ""

/-- Go `http.Request`, as far as `handleUpdate` reads it: the method, and what
`r.ParseForm()` does: the error it returns, or the `r.PostForm` it fills in. -/
structure Request where
  Method : String
  ParseForm : Except Error (List (String × List String))

/-- Go `http.ResponseWriter`: the status codes passed to `WriteHeader`, in the
order of the calls. -/
structure ResponseWriter where
  codes : List Nat
  deriving DecidableEq, Repr

/-- Go `ResponseWriter.WriteHeader`. -/
def ResponseWriter.WriteHeader (w : ResponseWriter) (code : Nat) : ResponseWriter :=
  { codes := w.codes ++ [code] }

/-- The status the client gets: that of the first `WriteHeader` call (net/http
ignores the later ones as superfluous). -/
def ResponseWriter.status (w : ResponseWriter) : Option Nat :=
  w.codes.head?

/-- What a run of `handleUpdate` leaves: the context, the response writer, and
how many times it called `ctx.update`. -/
structure Handled (Menu Views : Type) where
  ctx : serveContext Menu Views
  w : ResponseWriter
  updates : Nat

/-- Go `serveContext.handleUpdate`; `.error err` is `panic(err)`.  The calls of
`log.Printf` are left out.  After `w.WriteHeader(401)` the source does not
return: the run goes on with `ctx.update()`. -/
def handleUpdate {Menu Views : Type} (fs : Files Menu Views) (ctx : serveContext Menu Views)
    (w : ResponseWriter) (r : Request) : Except Error (Handled Menu Views) :=
  match ctx.env.Config with
  | (_, .error err) => .error err
  | (env1, .ok conf) =>
    let ctx1 : serveContext Menu Views := { ctx with env := env1 }
    if r.Method ≠ "POST" then
      .ok { ctx := ctx1, w := w.WriteHeader 405, updates := 0 }
    else
      match r.ParseForm with
      | .error _ => .ok { ctx := ctx1, w := w.WriteHeader 500, updates := 0 }
      | .ok PostForm =>
        let w1 := if Get PostForm "secret" ≠ conf.Secret then w.WriteHeader 401 else w
        match ctx1.update fs with
        | (ctx2, some _) => .ok { ctx := ctx2, w := w1.WriteHeader 500, updates := 1 }
        | (ctx2, none) => .ok { ctx := ctx2, w := w1.WriteHeader 200, updates := 1 }

/-- A configuration for the examples. -/
def sampleConfig : Config :=
  { ContentRoot := "/srv/content", DbDsn := "", TemplatePath := "/srv/templates",
    StaticPath := "", HttpLaddr := ":8080", Secret := "s3cret",
    UpdateUrl := "http://localhost:8080/__update" }

/-- Files for the examples: every load succeeds with new content. -/
def sampleFiles : Files String String :=
  { LoadFromFile := fun _ => .ok "new menu",
    readPages := fun _ => .ok [("about", "<p>new</p>")],
    LoadViews := fun _ => .ok "new views",
    Join := fun a b => a ++ "/" ++ b,
    Errorf := fun msg _ => Error.ext msg }

/-- A running server for the examples, with the content of its last update. -/
def sampleContext : serveContext String String :=
  { env := { config := some sampleConfig, LoadConfig := .ok sampleConfig },
    pages := [("about", "<p>old</p>")], menu := "old menu", views := "old views" }

/-! ## Theorems

### What a successful save does -/

theorem setTagsLoop_ok (f : Faults) (id : Int) :
    ∀ (tags : List String) (tx tx1 : Db), setTagsLoop f id tags tx = (tx1, none) →
      tx1 = { tx with article_tag := tags.foldl (replaceTagRows id) tx.article_tag } := by
  intro tags
  induction tags with
  | nil => intro tx tx1 h; simp [setTagsLoop] at h; simp [h]
  | cons tag rest ih =>
    intro tx tx1 h
    simp only [setTagsLoop] at h
    cases hf : f.tagExec tag with
    | some m => simp [hf] at h
    | none =>
      simp only [hf] at h
      have := ih _ _ h
      simpa [replaceIntoArticleTag, replaceTagRows] using this

theorem setTagsLoop_none (f : Faults) (id : Int) (h : ∀ t, f.tagExec t = none) :
    ∀ (tags : List String) (tx : Db), setTagsLoop f id tags tx =
      ({ tx with article_tag := tags.foldl (replaceTagRows id) tx.article_tag }, none) := by
  intro tags
  induction tags with
  | nil => intro tx; simp [setTagsLoop]
  | cons tag rest ih =>
    intro tx
    simp [setTagsLoop, h, ih, replaceIntoArticleTag, replaceTagRows]

theorem upsert_ok {lib : Lib} {f : Faults} {a : Article} {tx tx1 : Db} {id : Int}
    (h : a.upsert lib f tx = (tx1, .ok id)) :
    (∃ r, tx.article.find? (fun r => r.slug = a.Slug) = some r ∧ id = r.article_id ∧
        tx1 = { tx with article :=
          tx.article.map (fun x => if x.article_id = id then a.updatedRow lib x else x) }) ∨
    (tx.article.find? (fun r => r.slug = a.Slug) = none ∧ id = tx.nextId ∧
        tx1 = { tx with article := tx.article ++ [a.newRow lib tx.nextId],
                        nextId := tx.nextId + 1 }) := by
  unfold Article.upsert selectIdBySlug at h
  cases hs : f.onSelect with
  | some m => simp [hs, sqlErr] at h
  | none =>
    simp only [hs] at h
    cases hfind : tx.article.find? (fun r => r.slug = a.Slug) with
    | some r =>
      left
      simp only [hfind, Article.updateDbDetails] at h
      cases hu : f.onUpdate with
      | some m => simp [hu] at h
      | none =>
        simp only [hu] at h
        simp only [Prod.mk.injEq, Except.ok.injEq] at h
        exact ⟨r, rfl, h.2.symm, by rw [← h.1, h.2]⟩
    | none =>
      right
      simp only [hfind, Article.createInDb] at h
      cases hi : f.onInsert with
      | some m => simp [hi] at h
      | none =>
        simp only [hi] at h
        have hany : slugTaken tx a.Slug = false := by
          rw [List.find?_eq_none] at hfind
          simpa [slugTaken, List.any_eq_false] using hfind
        simp only [hany] at h
        cases hl : f.onLastInsertId with
        | some m => simp [hl] at h
        | none =>
          simp [hl] at h
          exact ⟨rfl, h.2.symm, h.1.symm⟩



theorem saveToDb_ok {lib : Lib} {f : Faults} {a : Article} {tx tx3 : Db} {id : Int}
    (h : a.saveToDb lib f tx = (tx3, .ok id)) :
    ∃ tx1, a.upsert lib f tx = (tx1, .ok id) ∧
      tx3 = { tx1 with article_tag := tagRowsAfter id a.Tags tx1.article_tag } := by
  unfold Article.saveToDb at h
  rcases hu : a.upsert lib f tx with ⟨tx1, r⟩
  rw [hu] at h
  cases r with
  | error e => simp at h
  | ok id1 =>
    simp only [removeTags] at h
    cases hr : f.onRemoveTags with
    | some m => simp [hr] at h
    | none =>
      simp only [hr, setTags] at h
      cases hp : f.onPrepare with
      | some m => simp [hp] at h
      | none =>
        simp only [hp] at h
        rcases hl : setTagsLoop f id1 a.Tags
          { tx1 with article_tag := tx1.article_tag.filter (fun t => t.article_id ≠ id1) }
          with ⟨tx2, e⟩
        rw [hl] at h
        cases e with
        | some e => simp at h
        | none =>
          simp only [Prod.mk.injEq, Except.ok.injEq] at h
          obtain ⟨h1, h2⟩ := h
          subst h1 h2
          refine ⟨tx1, rfl, ?_⟩
          have := setTagsLoop_ok f id1 _ _ _ hl
          simpa [tagRowsAfter] using this

theorem SaveToDb_ok {lib : Lib} {f : Faults} {a : Article} {db db1 : Db} {id : Int}
    (h : a.SaveToDb lib f db = (db1, .ok id)) :
    a.saveToDb lib f db = (db1, .ok id) := by
  unfold Article.SaveToDb at h
  cases hb : f.onBegin with
  | some m => simp [hb] at h
  | none =>
    simp only [hb] at h
    rcases hs : a.saveToDb lib f db with ⟨tx, r⟩
    rw [hs] at h
    cases r with
    | error e =>
      simp only [errOf, TxCommitIfOk] at h
      cases hr : f.onRollback <;> simp [hr] at h
    | ok id1 =>
      simp only [errOf, TxCommitIfOk] at h
      cases hc : f.onCommit with
      | some m => simp [hc] at h
      | none => simpa [hc] using h

theorem SaveToDb_ok_eq {lib : Lib} {f : Faults} {a : Article} {db db1 : Db} {id : Int}
    (h : a.SaveToDb lib f db = (db1, .ok id)) :
    db1 = a.savedDb lib db ∧ id = (a.savedRows lib db).2 := by
  obtain ⟨tx1, hu, h3⟩ := saveToDb_ok (SaveToDb_ok h)
  rcases upsert_ok hu with ⟨r, hf, hid, h1⟩ | ⟨hf, hid, h1⟩
  · subst h3 h1
    simp [Article.savedDb, Article.savedRows, hf, hid]
  · subst h3 h1
    simp [Article.savedDb, Article.savedRows, hf, hid]

theorem SaveToDb_none (lib : Lib) (a : Article) (db : Db) :
    a.SaveToDb lib Faults.none db = (a.savedDb lib db, .ok (a.savedRows lib db).2) := by
  unfold Article.SaveToDb Article.saveToDb Article.upsert selectIdBySlug
  cases hf : db.article.find? (fun r => r.slug = a.Slug) with
  | some r =>
    simp [Faults.none, hf, Article.updateDbDetails, removeTags, setTags, setTagsLoop_none,
      TxCommitIfOk, errOf, Article.savedDb, Article.savedRows, tagRowsAfter]
  | none =>
    have hany : slugTaken db a.Slug = false := by
      rw [List.find?_eq_none] at hf
      simpa [slugTaken, List.any_eq_false] using hf
    simp [Faults.none, hf, hany, Article.createInDb, removeTags, setTags, setTagsLoop_none,
      TxCommitIfOk, errOf, Article.savedDb, Article.savedRows, tagRowsAfter]

/-! ### The rows of `article_tag` -/

theorem mem_tagsOf (db : Db) (id : Int) (t : String) :
    t ∈ db.tagsOf id ↔ (⟨id, t⟩ : TagRow) ∈ db.article_tag := by
  unfold Db.tagsOf
  constructor
  · intro h
    rcases List.mem_map.1 h with ⟨x, hx, rfl⟩
    rcases List.mem_filter.1 hx with ⟨hx1, hx2⟩
    have : x.article_id = id := by simpa using hx2
    cases x
    simp_all
  · intro h
    exact List.mem_map.2 ⟨⟨id, t⟩, List.mem_filter.2 ⟨h, by simp⟩, rfl⟩

theorem mem_foldl_replaceTagRows (id : Int) (x : TagRow) :
    ∀ (tags : List String) (rows : List TagRow),
      x ∈ tags.foldl (replaceTagRows id) rows ↔
        (x.article_id = id ∧ x.tag ∈ tags) ∨ x ∈ rows := by
  intro tags
  induction tags with
  | nil => intro rows; simp
  | cons tag rest ih =>
    intro rows
    rw [List.foldl_cons, ih]
    unfold replaceTagRows
    rcases x with ⟨xi, xt⟩
    simp only [List.mem_append, List.mem_filter, List.mem_singleton, List.mem_cons,
      TagRow.mk.injEq, decide_not, Bool.not_eq_true', decide_eq_false_iff_not]
    by_cases h1 : xi = id <;> by_cases h2 : xt = tag <;> simp [h1, h2]

theorem mem_tagRowsAfter (id : Int) (tags : List String) (rows : List TagRow) (x : TagRow) :
    x ∈ tagRowsAfter id tags rows ↔
      (x.article_id = id ∧ x.tag ∈ tags) ∨ (x.article_id ≠ id ∧ x ∈ rows) := by
  unfold tagRowsAfter
  rw [mem_foldl_replaceTagRows]
  simp only [List.mem_filter, ne_eq, decide_not, Bool.not_eq_true', decide_eq_false_iff_not]
  tauto

theorem count_foldl_replaceTagRows (id : Int) (x : TagRow) :
    ∀ (tags : List String) (rows : List TagRow),
      (tags.foldl (replaceTagRows id) rows).count x =
        if x.article_id = id ∧ x.tag ∈ tags then 1 else rows.count x := by
  intro tags
  induction tags with
  | nil => intro rows; simp
  | cons tag rest ih =>
    intro rows
    rw [List.foldl_cons, ih]
    by_cases h : x.article_id = id ∧ x.tag ∈ rest
    · have h2 : x.article_id = id ∧ x.tag ∈ tag :: rest := ⟨h.1, List.mem_cons_of_mem _ h.2⟩
      rw [if_pos h, if_pos h2]
    · rw [if_neg h]
      unfold replaceTagRows
      rw [List.count_append]
      by_cases hx : x.article_id = id ∧ x.tag = tag
      · have h2 : x.article_id = id ∧ x.tag ∈ tag :: rest := ⟨hx.1, by simp [hx.2]⟩
        rw [if_pos h2]
        have hx0 : x = ⟨id, tag⟩ := by cases x; simp_all
        subst hx0
        have : List.count (⟨id, tag⟩ : TagRow)
            (rows.filter (fun t => decide ¬(t.article_id = id ∧ t.tag = tag))) = 0 := by
          rw [List.count_eq_zero]
          intro hm
          have := (List.mem_filter.1 hm).2
          simp at this
        rw [this]
        simp
      · have h2 : ¬ (x.article_id = id ∧ x.tag ∈ tag :: rest) := by
          intro h3
          rcases List.mem_cons.1 h3.2 with h4 | h4
          · exact hx ⟨h3.1, h4⟩
          · exact h ⟨h3.1, h4⟩
        rw [if_neg h2]
        have hne : x ≠ ⟨id, tag⟩ := by
          intro h3; apply hx; subst h3; exact ⟨rfl, rfl⟩
        have h5 : List.count x [(⟨id, tag⟩ : TagRow)] = 0 := by
          rw [List.count_eq_zero]; simpa using hne
        rw [h5, Nat.add_zero]
        rw [List.count_filter]
        simp only [decide_not, Bool.not_eq_true', decide_eq_false_iff_not]
        exact hx

theorem filter_foldl_replaceTagRows (id : Int) :
    ∀ (tags : List String) (rs : List TagRow),
      (tags.foldl (replaceTagRows id) rs).filter (fun t => t.article_id ≠ id) =
        rs.filter (fun t => t.article_id ≠ id) := by
  intro tags
  induction tags with
  | nil => intro rs; rfl
  | cons tag rest ih =>
    intro rs
    rw [List.foldl_cons, ih]
    unfold replaceTagRows
    rw [List.filter_append, List.filter_filter]
    have : List.filter (fun t => decide (t.article_id ≠ id)) [(⟨id, tag⟩ : TagRow)] = [] := by
      simp
    rw [this, List.append_nil]
    apply List.filter_congr
    intro t _
    by_cases h : t.article_id = id <;> simp [h]

theorem filter_tagRowsAfter_ne (id : Int) (tags : List String) (rows : List TagRow) :
    (tagRowsAfter id tags rows).filter (fun t => t.article_id ≠ id) =
      rows.filter (fun t => t.article_id ≠ id) := by
  unfold tagRowsAfter
  rw [filter_foldl_replaceTagRows, List.filter_filter]
  simp

theorem tagRowsAfter_idem (id : Int) (tags : List String) (rows : List TagRow) :
    tagRowsAfter id tags (tagRowsAfter id tags rows) = tagRowsAfter id tags rows := by
  have h := filter_tagRowsAfter_ne id tags rows
  show List.foldl (replaceTagRows id)
      ((tagRowsAfter id tags rows).filter (fun t => t.article_id ≠ id)) tags = _
  rw [h]
  rfl

/-- Rows of another identity are kept in place by a save for `id`. -/
theorem filter_tagRowsAfter_other (id other : Int) (h : other ≠ id) (tags : List String)
    (rows : List TagRow) :
    (tagRowsAfter id tags rows).filter (fun t => t.article_id = other) =
      rows.filter (fun t => t.article_id = other) := by
  have h1 := congrArg (List.filter (fun t : TagRow => decide (t.article_id = other)))
    (filter_tagRowsAfter_ne id tags rows)
  rw [List.filter_filter, List.filter_filter] at h1
  have e : (fun a : TagRow => decide (a.article_id = other) && decide (a.article_id ≠ id)) =
      (fun t : TagRow => decide (t.article_id = other)) := by
    funext t
    by_cases h2 : t.article_id = other
    · simp [h2, h]
    · simp [h2]
  rw [e] at h1
  exact h1

/-! ### The rows of `article` -/

theorem updatedRow_id (lib : Lib) (a : Article) (r : ArticleRow) :
    (a.updatedRow lib r).article_id = r.article_id := rfl

theorem updatedRow_slug (lib : Lib) (a : Article) (r : ArticleRow) :
    (a.updatedRow lib r).slug = r.slug := rfl

theorem updatedRow_eq_newRow (lib : Lib) (a : Article) (r : ArticleRow) (h : r.slug = a.Slug) :
    a.updatedRow lib r = a.newRow lib r.article_id := by
  cases r
  simp_all [Article.updatedRow, Article.newRow]

theorem updatedRow_idem (lib : Lib) (a : Article) (r : ArticleRow) :
    a.updatedRow lib (a.updatedRow lib r) = a.updatedRow lib r := rfl

theorem updRows_ids (lib : Lib) (a : Article) (id : Int) (rows : List ArticleRow) :
    (updRows lib a id rows).map (fun r => r.article_id) = rows.map (fun r => r.article_id) := by
  unfold updRows
  rw [List.map_map]
  apply List.map_congr_left
  intro x _
  by_cases h : x.article_id = id <;> simp [h, updatedRow_id]

theorem updRows_slugs (lib : Lib) (a : Article) (id : Int) (rows : List ArticleRow) :
    (updRows lib a id rows).map (fun r => r.slug) = rows.map (fun r => r.slug) := by
  unfold updRows
  rw [List.map_map]
  apply List.map_congr_left
  intro x _
  by_cases h : x.article_id = id <;> simp [h, updatedRow_slug]

theorem savedRows_some {lib : Lib} {a : Article} {db : Db} {r : ArticleRow}
    (h : db.article.find? (fun r => r.slug = a.Slug) = some r) :
    a.savedRows lib db = (updRows lib a r.article_id db.article, r.article_id) := by
  simp [Article.savedRows, h, updRows]

theorem savedRows_none {lib : Lib} {a : Article} {db : Db}
    (h : db.article.find? (fun r => r.slug = a.Slug) = none) :
    a.savedRows lib db = (db.article ++ [a.newRow lib db.nextId], db.nextId) := by
  simp [Article.savedRows, h]

theorem find_slug_some {rows : List ArticleRow} {s : String} {r : ArticleRow}
    (h : rows.find? (fun r => r.slug = s) = some r) : r ∈ rows ∧ r.slug = s :=
  ⟨List.mem_of_find?_eq_some h, by simpa using List.find?_some h⟩

theorem find_slug_none {rows : List ArticleRow} {s : String}
    (h : rows.find? (fun r => r.slug = s) = none) : ∀ r ∈ rows, r.slug ≠ s := by
  intro r hr
  have := List.find?_eq_none.1 h r hr
  simpa using this

theorem savedDb_slugs (lib : Lib) (a : Article) (db : Db) (s : String) :
    s ∈ (a.savedDb lib db).slugs ↔ s ∈ db.slugs ∨ s = a.Slug := by
  unfold Article.savedDb Db.slugs
  cases h : db.article.find? (fun r => r.slug = a.Slug) with
  | some r =>
    simp only [savedRows_some h, updRows_slugs]
    constructor
    · exact Or.inl
    · rintro (h1 | h1)
      · exact h1
      · obtain ⟨hm, hs⟩ := find_slug_some h
        rw [h1, ← hs]
        exact List.mem_map.2 ⟨r, hm, rfl⟩
  | none =>
    simp [savedRows_none h, Article.newRow]

theorem savedDb_keysOk (lib : Lib) (a : Article) (db : Db) (h : db.KeysOk) :
    (a.savedDb lib db).KeysOk := by
  unfold Db.KeysOk Article.savedDb at *
  cases hf : db.article.find? (fun r => r.slug = a.Slug) with
  | some r =>
    simp only [savedRows_some hf, updRows_ids]
    refine ⟨h.1, ?_⟩
    intro x hx
    have : x.article_id ∈ (updRows lib a r.article_id db.article).map (fun r => r.article_id) :=
      List.mem_map.2 ⟨x, hx, rfl⟩
    rw [updRows_ids] at this
    rcases List.mem_map.1 this with ⟨y, hy, hyx⟩
    rw [← hyx]
    exact h.2 y hy
  | none =>
    simp only [savedRows_none hf]
    constructor
    · rw [List.map_append, List.nodup_append]
      refine ⟨h.1, by simp, ?_⟩
      intro i hi hi2
      rcases List.mem_map.1 hi with ⟨y, hy, rfl⟩
      have h3 : y.article_id = db.nextId := by simpa [Article.newRow] using hi2
      have := h.2 y hy
      omega
    · intro x hx
      rcases List.mem_append.1 hx with hx | hx
      · have := h.2 x hx
        omega
      · have : x.article_id = db.nextId := by
          have := List.mem_singleton.1 hx
          rw [this]; rfl
        omega

theorem savedDb_slugsUnique (lib : Lib) (a : Article) (db : Db) (h : db.SlugsUnique) :
    (a.savedDb lib db).SlugsUnique := by
  unfold Db.SlugsUnique Article.savedDb at *
  cases hf : db.article.find? (fun r => r.slug = a.Slug) with
  | some r =>
    simp only [savedRows_some hf, updRows_slugs]
    exact h
  | none =>
    simp only [savedRows_none hf]
    rw [List.map_append, List.nodup_append]
    refine ⟨h, by simp, ?_⟩
    intro s hs hs2
    rcases List.mem_map.1 hs with ⟨y, hy, rfl⟩
    have h3 : y.slug = a.Slug := by simpa [Article.newRow] using hs2
    exact find_slug_none hf y hy h3

/-- With distinct identities, the row with a given identity is one row. -/
theorem eq_of_id_eq {rows : List ArticleRow}
    (h : (rows.map (fun r => r.article_id)).Nodup) {x y : ArticleRow}
    (hx : x ∈ rows) (hy : y ∈ rows) (hxy : x.article_id = y.article_id) : x = y :=
  List.inj_on_of_nodup_map h hx hy hxy

theorem updRows_filter (lib : Lib) (a : Article) (rows : List ArticleRow) (r : ArticleRow)
    (hn : (rows.map (fun r => r.article_id)).Nodup) (hr : r ∈ rows)
    (p : ArticleRow → Bool) (hp : ∀ x, p (a.updatedRow lib x) = p x) (hpr : p r = false) :
    (updRows lib a r.article_id rows).filter p = rows.filter p := by
  unfold updRows
  rw [List.filter_map]
  have : ∀ x ∈ rows, (p ∘ fun x => if x.article_id = r.article_id then a.updatedRow lib x else x) x
      = p x := by
    intro x _
    by_cases h : x.article_id = r.article_id <;> simp [h, hp]
  rw [List.filter_congr this]
  conv_rhs => rw [← List.map_id (rows.filter p)]
  apply List.map_congr_left
  intro x hx
  have hx1 := (List.mem_filter.1 hx).1
  have hx2 := (List.mem_filter.1 hx).2
  by_cases h : x.article_id = r.article_id
  · have := eq_of_id_eq hn hx1 hr h
    subst this
    rw [hpr] at hx2
    exact absurd hx2 (by simp)
  · simp [h]

/-! ### Other records; a batch of saves -/

/-- Rows with a slug outside `S` are untouched by a save of an article whose slug is in `S`. -/
theorem savedDb_filter_notin (lib : Lib) (a : Article) (db : Db) (hk : db.KeysOk)
    (S : List String) (ha : a.Slug ∈ S) :
    (a.savedDb lib db).article.filter (fun r => r.slug ∉ S) =
      db.article.filter (fun r => r.slug ∉ S) := by
  unfold Article.savedDb
  cases hf : db.article.find? (fun r => r.slug = a.Slug) with
  | some r =>
    simp only [savedRows_some hf]
    obtain ⟨hm, hs⟩ := find_slug_some hf
    apply updRows_filter lib a db.article r hk.1 hm
    · intro x; rfl
    · simp [hs, ha]
  | none =>
    simp only [savedRows_none hf]
    rw [List.filter_append]
    simp [Article.newRow, ha]

/-- The tag rows of an identity other than the one saved are untouched. -/
theorem savedDb_tagsOf_other (lib : Lib) (a : Article) (db : Db) (other : Int)
    (h : other ≠ (a.savedRows lib db).2) :
    (a.savedDb lib db).tagsOf other = db.tagsOf other := by
  unfold Db.tagsOf Article.savedDb
  simp only
  rw [filter_tagRowsAfter_other _ _ h]

theorem savedDb_tagsOf_self (lib : Lib) (a : Article) (db : Db) (t : String) :
    t ∈ (a.savedDb lib db).tagsOf (a.savedRows lib db).2 ↔ t ∈ a.Tags := by
  rw [mem_tagsOf]
  unfold Article.savedDb
  simp only
  rw [mem_tagRowsAfter]
  simp

theorem savedDb_storedIn (lib : Lib) (a : Article) (db : Db) : a.StoredIn lib (a.savedDb lib db) := by
  unfold Article.StoredIn
  cases hf : db.article.find? (fun r => r.slug = a.Slug) with
  | some r =>
    obtain ⟨hm, hs⟩ := find_slug_some hf
    refine ⟨a.updatedRow lib r, ?_, ?_, ?_⟩
    · unfold Article.savedDb
      simp only [savedRows_some hf, updRows]
      exact List.mem_map.2 ⟨r, hm, by simp⟩
    · rw [updatedRow_id]; exact updatedRow_eq_newRow lib a r hs
    · intro t
      have := savedDb_tagsOf_self lib a db t
      rw [savedRows_some hf] at this
      exact this
  | none =>
    refine ⟨a.newRow lib db.nextId, ?_, rfl, ?_⟩
    · unfold Article.savedDb
      simp only [savedRows_none hf]
      simp
    · intro t
      have := savedDb_tagsOf_self lib a db t
      rw [savedRows_none hf] at this
      exact this

theorem savedDb_storedIn_other (lib : Lib) (a p : Article) (db : Db) (hk : db.KeysOk)
    (hne : p.Slug ≠ a.Slug) (hp : p.StoredIn lib db) : p.StoredIn lib (a.savedDb lib db) := by
  obtain ⟨r, hr, hrow, htags⟩ := hp
  have hrslug : r.slug = p.Slug := by rw [hrow]; rfl
  have hmem : r ∈ (a.savedDb lib db).article := by
    have h1 : r ∈ db.article.filter (fun r => r.slug ∉ [a.Slug]) :=
      List.mem_filter.2 ⟨hr, by simp [hrslug, hne]⟩
    rw [← savedDb_filter_notin lib a db hk [a.Slug] (by simp)] at h1
    exact (List.mem_filter.1 h1).1
  have hid : r.article_id ≠ (a.savedRows lib db).2 := by
    cases hf : db.article.find? (fun r => r.slug = a.Slug) with
    | some q =>
      rw [savedRows_some hf]
      obtain ⟨hm, hs⟩ := find_slug_some hf
      intro h
      have := eq_of_id_eq hk.1 hr hm h
      rw [this, hs] at hrslug
      exact hne hrslug.symm
    | none =>
      rw [savedRows_none hf]
      have := hk.2 r hr
      simp only
      omega
  refine ⟨r, hmem, hrow, ?_⟩
  intro t
  rw [savedDb_tagsOf_other lib a db _ hid]
  exact htags t

theorem saveArticles_ok (lib : Lib) (faults : Nat → Faults) :
    ∀ (batch : List Article) (i : Nat) (db db1 : Db) (slugs0 slugs : List String),
      saveArticles lib faults i batch db slugs0 = (db1, .ok slugs) →
        db1 = savedAll lib batch db ∧ slugs = slugs0 ++ batch.map (fun a => a.Slug) := by
  intro batch
  induction batch with
  | nil =>
    intro i db db1 slugs0 slugs h
    simp [saveArticles] at h
    simp [savedAll, h]
  | cons a rest ih =>
    intro i db db1 slugs0 slugs h
    simp only [saveArticles] at h
    rcases hs : a.SaveToDb lib (faults i) db with ⟨d, r⟩
    rw [hs] at h
    cases r with
    | error e => simp at h
    | ok id =>
      simp only at h
      obtain ⟨h1, h2⟩ := ih _ _ _ _ _ h
      obtain ⟨h3, _⟩ := SaveToDb_ok_eq hs
      subst h3
      exact ⟨by simpa [savedAll] using h1, by simpa using h2⟩

theorem saveArticles_none (lib : Lib) :
    ∀ (batch : List Article) (i : Nat) (db : Db) (slugs0 : List String),
      saveArticles lib (fun _ => Faults.none) i batch db slugs0 =
        (savedAll lib batch db, .ok (slugs0 ++ batch.map (fun a => a.Slug))) := by
  intro batch
  induction batch with
  | nil => intro i db slugs0; simp [saveArticles, savedAll]
  | cons a rest ih =>
    intro i db slugs0
    simp only [saveArticles, SaveToDb_none, ih]
    simp [savedAll]

theorem savedAll_slugs (lib : Lib) :
    ∀ (batch : List Article) (db : Db) (s : String),
      s ∈ (savedAll lib batch db).slugs ↔ s ∈ db.slugs ∨ s ∈ batch.map (fun a => a.Slug) := by
  intro batch
  induction batch with
  | nil => intro db s; simp [savedAll]
  | cons a rest ih =>
    intro db s
    have := ih (a.savedDb lib db) s
    simp only [savedAll, List.foldl_cons] at this ⊢
    rw [this, savedDb_slugs]
    simp only [List.map_cons, List.mem_cons]
    tauto

theorem savedAll_keysOk (lib : Lib) :
    ∀ (batch : List Article) (db : Db), db.KeysOk → (savedAll lib batch db).KeysOk := by
  intro batch
  induction batch with
  | nil => intro db h; exact h
  | cons a rest ih =>
    intro db h
    exact ih _ (savedDb_keysOk lib a db h)

theorem savedAll_filter_notin (lib : Lib) (S : List String) :
    ∀ (batch : List Article) (db : Db), db.KeysOk → (∀ a ∈ batch, a.Slug ∈ S) →
      (savedAll lib batch db).article.filter (fun r => r.slug ∉ S) =
        db.article.filter (fun r => r.slug ∉ S) := by
  intro batch
  induction batch with
  | nil => intro db _ _; rfl
  | cons a rest ih =>
    intro db hk hS
    have h1 := ih (a.savedDb lib db) (savedDb_keysOk lib a db hk)
      (fun x hx => hS x (List.mem_cons_of_mem _ hx))
    have h2 := savedDb_filter_notin lib a db hk S (hS a (List.mem_cons_self _ _))
    simp only [savedAll, List.foldl_cons] at h1 ⊢
    rw [h1, h2]

theorem savedAll_storedIn_other (lib : Lib) (p : Article) :
    ∀ (batch : List Article) (db : Db), db.KeysOk → (∀ a ∈ batch, p.Slug ≠ a.Slug) →
      p.StoredIn lib db → p.StoredIn lib (savedAll lib batch db) := by
  intro batch
  induction batch with
  | nil => intro db _ _ h; exact h
  | cons a rest ih =>
    intro db hk hne hp
    exact ih (a.savedDb lib db) (savedDb_keysOk lib a db hk)
      (fun x hx => hne x (List.mem_cons_of_mem _ hx))
      (savedDb_storedIn_other lib a p db hk (hne a (List.mem_cons_self _ _)) hp)

theorem savedAll_storedIn (lib : Lib) :
    ∀ (batch : List Article) (db : Db), db.KeysOk → (batch.map (fun a => a.Slug)).Nodup →
      ∀ p ∈ batch, p.StoredIn lib (savedAll lib batch db) := by
  intro batch
  induction batch with
  | nil => intro db _ _ p hp; simp at hp
  | cons a rest ih =>
    intro db hk hn p hp
    rw [List.map_cons, List.nodup_cons] at hn
    rcases List.mem_cons.1 hp with h | h
    · subst h
      apply savedAll_storedIn_other lib p rest _ (savedDb_keysOk lib p db hk)
      · intro x hx hxe
        exact hn.1 (List.mem_map.2 ⟨x, hx, hxe.symm⟩)
      · exact savedDb_storedIn lib p db
    · exact ih (a.savedDb lib db) (savedDb_keysOk lib a db hk) hn.2 p h

/-! ### Failed saves -/

theorem SaveToDb_fst_of_error {lib : Lib} {f : Faults} {a : Article} {db : Db} {e : Error}
    (h : (a.SaveToDb lib f db).2 = .error e) : (a.SaveToDb lib f db).1 = db := by
  unfold Article.SaveToDb at h ⊢
  cases hb : f.onBegin with
  | some m => simp [hb]
  | none =>
    simp only [hb] at h ⊢
    rcases hs : a.saveToDb lib f db with ⟨tx, r⟩
    rw [hs] at h
    cases r with
    | error e1 =>
      simp only [errOf, TxCommitIfOk]
      cases hr : f.onRollback <;> simp
    | ok id =>
      simp only [errOf, TxCommitIfOk] at h ⊢
      cases hc : f.onCommit with
      | some m => simp
      | none => simp [hc] at h

theorem saveArticles_append (lib : Lib) (faults : Nat → Faults) (rest : List Article) :
    ∀ (pre : List Article) (i : Nat) (db db1 : Db) (slugs0 slugs : List String),
      saveArticles lib faults i pre db slugs0 = (db1, .ok slugs) →
        saveArticles lib faults i (pre ++ rest) db slugs0 =
          saveArticles lib faults (i + pre.length) rest db1 slugs := by
  intro pre
  induction pre with
  | nil =>
    intro i db db1 slugs0 slugs h
    simp [saveArticles] at h
    simp [h]
  | cons a pre ih =>
    intro i db db1 slugs0 slugs h
    simp only [saveArticles, List.cons_append] at h ⊢
    rcases hs : a.SaveToDb lib (faults i) db with ⟨d, r⟩
    rw [hs] at h
    cases r with
    | error e => simp at h
    | ok id =>
      simp only at h ⊢
      have e := ih _ _ _ _ _ h
      have e2 : i + (a :: pre).length = i + 1 + pre.length := by
        simp only [List.length_cons]; omega
      rw [e2]
      exact e

theorem deletePlaceholders_eq (slugs : List String) (h : slugs.length ≠ 0) :
    deletePlaceholders slugs = slugs.length := by
  unfold deletePlaceholders
  rw [List.length_range']
  omega

theorem savedDb_other_record (lib : Lib) (a : Article) (db : Db) (hk : db.KeysOk)
    (r : ArticleRow) (hr : r ∈ db.article) (hne : r.slug ≠ a.Slug) :
    r ∈ (a.savedDb lib db).article ∧
      (a.savedDb lib db).article_tag.filter (fun t => t.article_id = r.article_id) =
        db.article_tag.filter (fun t => t.article_id = r.article_id) := by
  have hmem : r ∈ (a.savedDb lib db).article := by
    have h1 : r ∈ db.article.filter (fun r => r.slug ∉ [a.Slug]) :=
      List.mem_filter.2 ⟨hr, by simp [hne]⟩
    rw [← savedDb_filter_notin lib a db hk [a.Slug] (by simp)] at h1
    exact (List.mem_filter.1 h1).1
  have hid : r.article_id ≠ (a.savedRows lib db).2 := by
    cases hf : db.article.find? (fun r => r.slug = a.Slug) with
    | some q =>
      rw [savedRows_some hf]
      obtain ⟨hm, hs⟩ := find_slug_some hf
      intro h
      have := eq_of_id_eq hk.1 hr hm h
      rw [this] at hne
      exact hne hs
    | none =>
      rw [savedRows_none hf]
      have := hk.2 r hr
      simp only
      omega
  refine ⟨hmem, ?_⟩
  unfold Article.savedDb
  simp only
  exact filter_tagRowsAfter_other _ _ hid _ _

theorem savedAll_other_record (lib : Lib) (r : ArticleRow) :
    ∀ (batch : List Article) (db : Db), db.KeysOk → r ∈ db.article →
      (∀ a ∈ batch, r.slug ≠ a.Slug) →
      (savedAll lib batch db).article_tag.filter (fun t => t.article_id = r.article_id) =
        db.article_tag.filter (fun t => t.article_id = r.article_id) := by
  intro batch
  induction batch with
  | nil => intro db _ _ _; rfl
  | cons a rest ih =>
    intro db hk hr hne
    obtain ⟨h1, h2⟩ := savedDb_other_record lib a db hk r hr (hne a (List.mem_cons_self _ _))
    have := ih (a.savedDb lib db) (savedDb_keysOk lib a db hk) h1
      (fun x hx => hne x (List.mem_cons_of_mem _ hx))
    simp only [savedAll, List.foldl_cons] at this ⊢
    rw [this, h2]

/-! ### The claims about `updateArticles` -/

/-- C1: when every save of a non-empty batch succeeds and the delete statement is not
refused, `updateArticles` returns and the slugs stored afterwards are exactly the slugs of the
batch. -/
theorem updateArticles_stores_exactly_batch (lib : Lib) (faults : Nat → Faults)
    (cascade : Bool) (db db1 : Db) (batch : List Article) (slugs : List String)
    (hne : batch ≠ [])
    (hsave : saveArticles lib faults 0 batch db [] = (db1, .ok slugs)) :
    ∃ db2, updateArticles lib faults none cascade db batch = (db2, none) ∧
      ∀ s, s ∈ db2.article.map (fun r => r.slug) ↔ s ∈ batch.map (fun a => a.Slug) := by
  obtain ⟨h1, h2⟩ := saveArticles_ok lib faults batch 0 db db1 [] slugs hsave
  rw [List.nil_append] at h2
  have hlen : slugs.length ≠ 0 := by
    rw [h2, List.length_map]
    exact fun h => hne (List.length_eq_zero.1 h)
  refine ⟨{ db1 with
      article := db1.article.filter (fun r => r.slug ∈ slugs),
      article_tag :=
        if cascade then
          db1.article_tag.filter (fun t =>
            !((db1.article.filter (fun r => r.slug ∉ slugs)).any
              (fun r => r.article_id = t.article_id)))
        else db1.article_tag }, ?_, ?_⟩
  · unfold updateArticles
    rw [hsave]
    simp only [DeleteArticlesFromDbExcept, if_neg hlen, execDeleteNotIn,
      deletePlaceholders_eq slugs hlen, ne_eq, not_true_eq_false, if_false]
  · intro s
    have h3 := savedAll_slugs lib batch db s
    rw [← h1, ← h2] at h3
    unfold Db.slugs at h3
    rw [← h2]
    simp only [List.mem_map, List.mem_filter, decide_eq_true_eq] at h3 ⊢
    constructor
    · rintro ⟨r, ⟨_, hr2⟩, rfl⟩
      exact hr2
    · intro hs
      obtain ⟨r, hr, hrs⟩ := h3.2 (Or.inr hs)
      exact ⟨r, ⟨hr, by rw [hrs]; exact hs⟩, hrs⟩

theorem updateArticles_stores_exactly_batch_witness :
    (updateArticles Lib.plain (fun _ => Faults.none) none true sampleDb
        [sampleArticle "A" ["go"], sampleArticle "B" []]).1.article.map (fun r => r.slug) =
      ["A", "B"] ∧
    ∃ db2, updateArticles Lib.plain (fun _ => Faults.none) none true sampleDb
        [sampleArticle "A" ["go"], sampleArticle "B" []] = (db2, none) ∧
      ∀ s, s ∈ db2.article.map (fun r => r.slug) ↔
        s ∈ [sampleArticle "A" ["go"], sampleArticle "B" []].map (fun a => a.Slug) :=
  ⟨by decide,
    updateArticles_stores_exactly_batch Lib.plain (fun _ => Faults.none) true sampleDb
      (savedAll Lib.plain [sampleArticle "A" ["go"], sampleArticle "B" []] sampleDb)
      [sampleArticle "A" ["go"], sampleArticle "B" []] ["A", "B"] (by decide)
      (saveArticles_none Lib.plain _ 0 sampleDb [])⟩

/-- C2: with an empty slug list `DeleteArticlesFromDbExcept` returns `nil` and the database it
was given, whether or not the database would have refused a statement, and `updateArticles`
on an empty batch leaves the database as it was. -/
theorem updateArticles_empty_batch (lib : Lib) (faults : Nat → Faults)
    (onDelete : Option String) (cascade : Bool) (db : Db) :
    DeleteArticlesFromDbExcept onDelete cascade db [] = (db, none) ∧
      updateArticles lib faults onDelete cascade db [] = (db, none) :=
  ⟨rfl, rfl⟩

theorem savedAll_append (lib : Lib) (l1 l2 : List Article) (db : Db) :
    savedAll lib (l1 ++ l2) db = savedAll lib l2 (savedAll lib l1 db) := by
  simp [savedAll, List.foldl_append]

/-- An article that no later article of the batch shares its slug with is stored when the
batch has been saved. -/
theorem savedAll_storedIn_last (lib : Lib) (pre1 pre2 : List Article) (p : Article) (db : Db)
    (hk : db.KeysOk) (hne : ∀ q ∈ pre2, q.Slug ≠ p.Slug) :
    p.StoredIn lib (savedAll lib (pre1 ++ p :: pre2) db) := by
  have e : pre1 ++ p :: pre2 = (pre1 ++ [p]) ++ pre2 := by simp
  rw [e, savedAll_append, savedAll_append]
  apply savedAll_storedIn_other lib p pre2 _
  · exact savedAll_keysOk lib [p] _ (savedAll_keysOk lib pre1 db hk)
  · intro x hx hxe
    exact hne x hx hxe.symm
  · exact savedDb_storedIn lib p _

/-- C3, as stated, fails: in a batch whose first two articles have the slug `A` both saves
succeed and the save of the third article fails; `updateArticles` stops there, but the first
article is not stored with its fields: the second save rewrote its row. -/
theorem updateArticles_first_of_same_slug_lost :
    sampleDb.KeysOk ∧
    saveArticles Lib.plain (fun i => if i = 2 then updateFails else Faults.none) 0
        [draftArticle, sampleArticle "A" []] sampleDb [] =
      (savedAll Lib.plain [draftArticle, sampleArticle "A" []] sampleDb, .ok ["A", "A"]) ∧
    updateArticles Lib.plain (fun i => if i = 2 then updateFails else Faults.none) none true
        sampleDb [draftArticle, sampleArticle "A" [], sampleArticle "B" []] =
      (savedAll Lib.plain [draftArticle, sampleArticle "A" []] sampleDb,
        some (Error.ext "server has gone away")) ∧
    ¬ draftArticle.StoredIn Lib.plain
        (savedAll Lib.plain [draftArticle, sampleArticle "A" []] sampleDb) := by
  refine ⟨by decide, rfl, rfl, ?_⟩
  rintro ⟨r, hr, he, _⟩
  have hrows : (savedAll Lib.plain [draftArticle, sampleArticle "A" []] sampleDb).article =
      [(sampleArticle "A" []).newRow Lib.plain 1, sampleRow 2 "B", sampleRow 3 "C"] := by
    decide
  rw [hrows] at hr
  simp only [List.mem_cons, List.mem_singleton, List.not_mem_nil, or_false] at hr
  rcases hr with h | h | h <;> subst h <;> exact absurd he (by decide)

/-- C3, amended: when the articles `pre` have been saved and the save of the next article `a`
fails, `updateArticles` ends there with that error and the database the saves of `pre` left:
nothing was deleted. With the keys of the store in order, every row whose slug is not a slug
of `pre` is where it was and unchanged, with its tag rows, and every article of `pre` that no
later article of `pre` shares its slug with is stored with its fields and tags: all of them
when the slugs of `pre` are distinct, and of several articles with one slug the last. -/
theorem updateArticles_stops_at_failed_save (lib : Lib) (faults : Nat → Faults)
    (onDelete : Option String) (cascade : Bool) (db db1 : Db) (pre post : List Article)
    (a : Article) (slugs : List String) (e : Error)
    (hpre : saveArticles lib faults 0 pre db [] = (db1, .ok slugs))
    (hfail : (a.SaveToDb lib (faults pre.length) db1).2 = .error e) :
    updateArticles lib faults onDelete cascade db (pre ++ a :: post) = (db1, some e) ∧
    (db.KeysOk →
      db1.article.filter (fun r => r.slug ∉ pre.map (fun p => p.Slug)) =
        db.article.filter (fun r => r.slug ∉ pre.map (fun p => p.Slug)) ∧
      ∀ r ∈ db.article, r.slug ∉ pre.map (fun p => p.Slug) →
        db1.article_tag.filter (fun t => t.article_id = r.article_id) =
          db.article_tag.filter (fun t => t.article_id = r.article_id)) ∧
    (db.KeysOk → ∀ pre1 p pre2, pre = pre1 ++ p :: pre2 → (∀ q ∈ pre2, q.Slug ≠ p.Slug) →
      p.StoredIn lib db1) ∧
    (db.KeysOk → (pre.map (fun p => p.Slug)).Nodup → ∀ p ∈ pre, p.StoredIn lib db1) := by
  obtain ⟨h1, _⟩ := saveArticles_ok lib faults pre 0 db db1 [] slugs hpre
  refine ⟨?_, ?_, ?_, ?_⟩
  · unfold updateArticles
    rw [saveArticles_append lib faults (a :: post) pre 0 db db1 [] slugs hpre]
    simp only [saveArticles, Nat.zero_add]
    have h2 := SaveToDb_fst_of_error hfail
    rcases hs : a.SaveToDb lib (faults pre.length) db1 with ⟨d, r⟩
    rw [hs] at hfail h2
    simp only at hfail h2
    subst hfail h2
    rfl
  · intro hk
    subst h1
    refine ⟨savedAll_filter_notin lib _ pre db hk ?_, ?_⟩
    · intro x hx
      exact List.mem_map.2 ⟨x, hx, rfl⟩
    · intro r hr hns
      apply savedAll_other_record lib r pre db hk hr
      intro x hx hxe
      exact hns (List.mem_map.2 ⟨x, hx, hxe.symm⟩)
  · intro hk pre1 p pre2 hp hne
    subst h1 hp
    exact savedAll_storedIn_last lib pre1 pre2 p db hk hne
  · intro hk hn p hp
    subst h1
    exact savedAll_storedIn lib pre db hk hn p hp

theorem updateArticles_stops_at_failed_save_witness :
    sampleDb.KeysOk ∧
    updateArticles Lib.plain (fun i => if i = 2 then updateFails else Faults.none) none true
        sampleDb ([draftArticle, sampleArticle "A" ["x"]] ++
          sampleArticle "B" [] :: [sampleArticle "D" []]) =
      (savedAll Lib.plain [draftArticle, sampleArticle "A" ["x"]] sampleDb,
        some (Error.ext "server has gone away")) ∧
    (savedAll Lib.plain [draftArticle, sampleArticle "A" ["x"]] sampleDb).article.filter
        (fun r => r.slug ∉ [draftArticle, sampleArticle "A" ["x"]].map (fun p => p.Slug)) =
      sampleDb.article.filter
        (fun r => r.slug ∉ [draftArticle, sampleArticle "A" ["x"]].map (fun p => p.Slug)) ∧
    (sampleArticle "A" ["x"]).StoredIn Lib.plain
      (savedAll Lib.plain [draftArticle, sampleArticle "A" ["x"]] sampleDb) :=
  have h := updateArticles_stops_at_failed_save Lib.plain
    (fun i => if i = 2 then updateFails else Faults.none) none true sampleDb
    (savedAll Lib.plain [draftArticle, sampleArticle "A" ["x"]] sampleDb)
    [draftArticle, sampleArticle "A" ["x"]] [sampleArticle "D" []] (sampleArticle "B" [])
    ["A", "A"] (Error.ext "server has gone away") rfl rfl
  ⟨by decide, h.1, (h.2.1 (by decide)).1,
    h.2.2.1 (by decide) [draftArticle] (sampleArticle "A" ["x"]) [] rfl (by simp)⟩

/-! ### The claims about `SaveToDb` -/

theorem SaveToDb_of_saveToDb_error {lib : Lib} {f : Faults} {a : Article} {db tx : Db}
    {e : Error} (hb : f.onBegin = none) (h : a.saveToDb lib f db = (tx, .error e)) :
    a.SaveToDb lib f db =
      (db, .error (match f.onRollback with
        | some msg => Error.rollbackFailed (sqlErr msg) e
        | none => e)) := by
  unfold Article.SaveToDb
  simp only [hb, h, errOf, TxCommitIfOk]
  cases f.onRollback <;> rfl

/-- The loop of `setTags` stops at the first tag whose insertion fails. -/
theorem setTagsLoop_fails (f : Faults) (id : Int) (t : String) (post : List String)
    (msg : String) (ht : f.tagExec t = some msg) :
    ∀ (pre : List String) (tx : Db), (∀ x ∈ pre, f.tagExec x = none) →
      ∃ tx1, setTagsLoop f id (pre ++ t :: post) tx = (tx1, some (sqlErr msg)) := by
  intro pre
  induction pre with
  | nil => intro tx _; exact ⟨tx, by simp [setTagsLoop, ht]⟩
  | cons x xs ih =>
    intro tx h
    have hx : f.tagExec x = none := h x (List.mem_cons_self _ _)
    obtain ⟨tx1, h1⟩ := ih (replaceIntoArticleTag tx id x)
      (fun y hy => h y (List.mem_cons_of_mem _ hy))
    exact ⟨tx1, by simp [setTagsLoop, hx, h1]⟩

/-- An error of the loop of `setTags` is that of the first tag whose insertion fails. -/
theorem setTagsLoop_error (f : Faults) (id : Int) (e : Error) :
    ∀ (tags : List String) (tx tx1 : Db), setTagsLoop f id tags tx = (tx1, some e) →
      ∃ msg pre t post, tags = pre ++ t :: post ∧ (∀ x ∈ pre, f.tagExec x = none) ∧
        f.tagExec t = some msg ∧ e = sqlErr msg := by
  intro tags
  induction tags with
  | nil => intro tx tx1 h; simp [setTagsLoop] at h
  | cons x xs ih =>
    intro tx tx1 h
    simp only [setTagsLoop] at h
    cases hx : f.tagExec x with
    | some m =>
      simp only [hx, Prod.mk.injEq, Option.some.injEq] at h
      exact ⟨m, [], x, xs, rfl, by simp, hx, h.2.symm⟩
    | none =>
      simp only [hx] at h
      obtain ⟨msg, pre, t, post, h1, h2, h3, h4⟩ := ih _ _ h
      refine ⟨msg, x :: pre, t, post, by simp [h1], ?_, h3, h4⟩
      intro y hy
      rcases List.mem_cons.1 hy with e1 | e1
      · rw [e1]; exact hx
      · exact h2 y e1

theorem slugTaken_of_find_none {tx : Db} {slug : String}
    (h : tx.article.find? (fun r => r.slug = slug) = none) : slugTaken tx slug = false := by
  rw [List.find?_eq_none] at h
  simpa [slugTaken, List.any_eq_false] using h

/-- When its first step succeeds, `upsert` returns an identity. -/
theorem upsert_of_rowStepOk (lib : Lib) {f : Faults} {a : Article} {tx : Db}
    (h : RowStepOk f a tx) : ∃ tx1 id, a.upsert lib f tx = (tx1, .ok id) := by
  obtain ⟨hs, h1 | h1⟩ := h
  · obtain ⟨r, hf, hu⟩ := h1
    refine ⟨(a.upsert lib f tx).1, r.article_id, ?_⟩
    simp [Article.upsert, selectIdBySlug, hs, hf, Article.updateDbDetails, hu]
  · obtain ⟨hf, hi, hl⟩ := h1
    refine ⟨(a.upsert lib f tx).1, tx.nextId, ?_⟩
    simp [Article.upsert, selectIdBySlug, hs, hf, Article.createInDb, hi, hl,
      slugTaken_of_find_none hf]

/-- What `upsert` returns tells which of its steps failed, if one did. -/
theorem upsert_cases (lib : Lib) (f : Faults) (a : Article) (tx : Db) :
    (∃ tx1 id, a.upsert lib f tx = (tx1, .ok id) ∧ RowStepOk f a tx) ∨
    (∃ tx1 e, a.upsert lib f tx = (tx1, .error e) ∧ StepFails f a tx e) := by
  cases hs : f.onSelect with
  | some msg =>
    refine Or.inr ⟨(a.upsert lib f tx).1, sqlErr msg, ?_, StepFails.lookup msg hs⟩
    simp [Article.upsert, selectIdBySlug, hs, sqlErr]
  | none =>
    cases hf : tx.article.find? (fun r => r.slug = a.Slug) with
    | some r =>
      cases hu : f.onUpdate with
      | some msg =>
        refine Or.inr ⟨(a.upsert lib f tx).1, sqlErr msg, ?_, StepFails.update msg r hs hf hu⟩
        simp [Article.upsert, selectIdBySlug, hs, hf, Article.updateDbDetails, hu]
      | none =>
        refine Or.inl ⟨(a.upsert lib f tx).1, r.article_id, ?_, hs, Or.inl ⟨r, hf, hu⟩⟩
        simp [Article.upsert, selectIdBySlug, hs, hf, Article.updateDbDetails, hu]
    | none =>
      cases hi : f.onInsert with
      | some msg =>
        refine Or.inr ⟨(a.upsert lib f tx).1, sqlErr msg, ?_, StepFails.insert msg hs hf hi⟩
        simp [Article.upsert, selectIdBySlug, hs, hf, Article.createInDb, hi]
      | none =>
        cases hl : f.onLastInsertId with
        | some msg =>
          refine Or.inr ⟨(a.upsert lib f tx).1, sqlErr msg, ?_,
            StepFails.lastInsertId msg hs hf hi hl⟩
          simp [Article.upsert, selectIdBySlug, hs, hf, Article.createInDb, hi, hl,
            slugTaken_of_find_none hf]
        | none =>
          refine Or.inl ⟨(a.upsert lib f tx).1, tx.nextId, ?_, hs, Or.inr ⟨hf, hi, hl⟩⟩
          simp [Article.upsert, selectIdBySlug, hs, hf, Article.createInDb, hi, hl,
            slugTaken_of_find_none hf]

theorem removeTags_of_ok (f : Faults) (tx : Db) (id : Int) (h : f.onRemoveTags = none) :
    removeTags f tx id = ((removeTags f tx id).1, none) := by
  simp [removeTags, h]

/-- A tag whose insertion fails makes the loop of `setTags` fail. -/
theorem setTagsLoop_ok_all (f : Faults) (id : Int) :
    ∀ (tags : List String) (tx tx1 : Db), setTagsLoop f id tags tx = (tx1, none) →
      ∀ t ∈ tags, f.tagExec t = none := by
  intro tags
  induction tags with
  | nil => intro tx tx1 _ t ht; simp at ht
  | cons x xs ih =>
    intro tx tx1 h t ht
    simp only [setTagsLoop] at h
    cases hx : f.tagExec x with
    | some m => simp [hx] at h
    | none =>
      simp only [hx] at h
      rcases List.mem_cons.1 ht with e1 | e1
      · rw [e1]; exact hx
      · exact ih _ _ h t e1

/-- What `saveToDb` returns tells which of its steps failed, if one did. -/
theorem saveToDb_cases (lib : Lib) (f : Faults) (a : Article) (tx : Db) :
    (∃ tx1 id, a.saveToDb lib f tx = (tx1, .ok id) ∧ RowStepOk f a tx ∧
      f.onRemoveTags = none ∧ f.onPrepare = none ∧ ∀ t ∈ a.Tags, f.tagExec t = none) ∨
    (∃ tx1 e, a.saveToDb lib f tx = (tx1, .error e) ∧ StepFails f a tx e) := by
  rcases upsert_cases lib f a tx with ⟨tx1, id, hu, hok⟩ | ⟨tx1, e, hu, hf⟩
  · rcases hr : f.onRemoveTags with _ | msg
    · have hrm := removeTags_of_ok f tx1 id hr
      rcases hp : f.onPrepare with _ | msg
      · rcases hl : setTagsLoop f id a.Tags (removeTags f tx1 id).1 with ⟨tx3, _ | e⟩
        · refine Or.inl ⟨tx3, id, ?_, hok, rfl, rfl, setTagsLoop_ok_all f id _ _ _ hl⟩
          unfold Article.saveToDb
          rw [hu]
          simp only
          rw [hrm]
          simp only [setTags, hp, hl]
        · obtain ⟨msg, pre, t, post, h1, h2, h3, h4⟩ := setTagsLoop_error f id e _ _ _ hl
          subst h4
          refine Or.inr ⟨tx3, sqlErr msg, ?_, StepFails.tag msg pre t post hok hr hp h1 h2 h3⟩
          unfold Article.saveToDb
          rw [hu]
          simp only
          rw [hrm]
          simp only [setTags, hp, hl]
      · refine Or.inr ⟨(removeTags f tx1 id).1, sqlErr msg, ?_,
          StepFails.prepare msg hok hr hp⟩
        unfold Article.saveToDb
        rw [hu]
        simp only
        rw [hrm]
        simp only [setTags, hp]
    · refine Or.inr ⟨tx1, sqlErr msg, ?_, StepFails.removeTags msg hok hr⟩
      unfold Article.saveToDb
      rw [hu]
      simp [removeTags, hr]
  · exact Or.inr ⟨tx1, e, by simp [Article.saveToDb, hu], hf⟩

/-- A failing step makes `saveToDb` return its error. -/
theorem saveToDb_of_stepFails (lib : Lib) {f : Faults} {a : Article} {tx : Db} {e : Error}
    (h : StepFails f a tx e) : ∃ tx1, a.saveToDb lib f tx = (tx1, .error e) := by
  cases h with
  | lookup msg h =>
    refine ⟨tx, ?_⟩
    simp [Article.saveToDb, Article.upsert, selectIdBySlug, h, sqlErr]
  | update msg r h1 h2 h3 =>
    refine ⟨tx, ?_⟩
    simp [Article.saveToDb, Article.upsert, selectIdBySlug, h1, h2, Article.updateDbDetails, h3]
  | insert msg h1 h2 h3 =>
    refine ⟨tx, ?_⟩
    simp [Article.saveToDb, Article.upsert, selectIdBySlug, h1, h2, Article.createInDb, h3]
  | lastInsertId msg h1 h2 h3 h4 =>
    refine ⟨(a.saveToDb lib f tx).1, ?_⟩
    simp [Article.saveToDb, Article.upsert, selectIdBySlug, h1, h2, Article.createInDb, h3,
      h4, slugTaken_of_find_none h2]
  | removeTags msg h1 h2 =>
    obtain ⟨tx1, id, hu⟩ := upsert_of_rowStepOk lib h1
    refine ⟨tx1, ?_⟩
    unfold Article.saveToDb
    rw [hu]
    simp [Laria.removeTags, h2]
  | prepare msg h1 h2 h3 =>
    obtain ⟨tx1, id, hu⟩ := upsert_of_rowStepOk lib h1
    have hrm := removeTags_of_ok f tx1 id h2
    refine ⟨(Laria.removeTags f tx1 id).1, ?_⟩
    unfold Article.saveToDb
    rw [hu]
    simp only
    rw [hrm]
    simp only [setTags, h3]
  | tag msg pre t post h1 h2 h3 h4 h5 h6 =>
    obtain ⟨tx1, id, hu⟩ := upsert_of_rowStepOk lib h1
    obtain ⟨tx3, hl⟩ := setTagsLoop_fails f id t post msg h6 pre
      (Laria.removeTags f tx1 id).1 h5
    have hrm := removeTags_of_ok f tx1 id h2
    refine ⟨tx3, ?_⟩
    unfold Article.saveToDb
    rw [hu]
    simp only
    rw [hrm]
    simp only [setTags, h3, h4, hl]

/-- The errors of `saveToDb` are the failures of its steps. -/
theorem stepFails_of_saveToDb_error (lib : Lib) {f : Faults} {a : Article} {tx tx1 : Db}
    {e : Error} (h : a.saveToDb lib f tx = (tx1, .error e)) : StepFails f a tx e := by
  rcases saveToDb_cases lib f a tx with ⟨tx2, id, h2, _⟩ | ⟨tx2, e2, h2, hf⟩
  · rw [h2] at h; cases h
  · rw [h2] at h
    simp only [Prod.mk.injEq, Except.error.injEq] at h
    rw [← h.2]; exact hf

/-- C4: when a step of `saveToDb` fails with `e` (the lookup by slug, the update or insert,
the deletion of the old tag associations, or the insertion of a tag) in a transaction that was
begun, `saveToDb` returns `e`, and `SaveToDb` returns the database it was given and an error
that is `e` or wraps `e` (it is `e` when the rollback itself succeeds).  `saveToDb` returns no
other errors than those of its steps.  `SaveToDb` returns a result only when `saveToDb` did,
and the database differs from the one given only when no step of `saveToDb` failed and the
commit succeeded, in which case it is the state of the transaction. -/
theorem SaveToDb_rolls_back_on_failure (lib : Lib) (f : Faults) (a : Article) (db : Db) :
    (∀ e, f.onBegin = none → StepFails f a db e →
      (∃ tx, a.saveToDb lib f db = (tx, .error e)) ∧
      ∃ e1, a.SaveToDb lib f db = (db, .error e1) ∧ e1.carries e = true ∧
        (f.onRollback = none → e1 = e)) ∧
    (∀ tx e, a.saveToDb lib f db = (tx, .error e) → StepFails f a db e) ∧
    (∀ tx e, f.onBegin = none → a.saveToDb lib f db = (tx, .error e) →
      ∃ e1, a.SaveToDb lib f db = (db, .error e1) ∧ e1.carries e = true ∧
        (f.onRollback = none → e1 = e)) ∧
    (∀ db1 id, a.SaveToDb lib f db = (db1, .ok id) → a.saveToDb lib f db = (db1, .ok id)) ∧
    ((a.SaveToDb lib f db).1 ≠ db →
      f.onCommit = none ∧
        (∃ id, a.saveToDb lib f db = ((a.SaveToDb lib f db).1, .ok id)) ∧
        ∀ e, ¬ StepFails f a db e) := by
  have key : ∀ tx e, f.onBegin = none → a.saveToDb lib f db = (tx, .error e) →
      ∃ e1, a.SaveToDb lib f db = (db, .error e1) ∧ e1.carries e = true ∧
        (f.onRollback = none → e1 = e) := by
    intro tx e hb h
    rw [SaveToDb_of_saveToDb_error hb h]
    cases hr : f.onRollback with
    | some m =>
      exact ⟨_, rfl, by simp [Error.carries, Error.unwrap], by intro h2; cases h2⟩
    | none => exact ⟨_, rfl, by simp [Error.carries], fun _ => rfl⟩
  refine ⟨?_, ?_, key, ?_, ?_⟩
  · intro e hb hf
    obtain ⟨tx, h⟩ := saveToDb_of_stepFails lib hf
    exact ⟨⟨tx, h⟩, key tx e hb h⟩
  · intro tx e h
    exact stepFails_of_saveToDb_error lib h
  · intro db1 id h
    exact SaveToDb_ok h
  · intro hne
    rcases hs : a.SaveToDb lib f db with ⟨d, r⟩
    cases r with
    | error e =>
      exfalso
      apply hne
      exact SaveToDb_fst_of_error (by rw [hs] : (a.SaveToDb lib f db).2 = .error e)
    | ok id =>
      have h1 := SaveToDb_ok hs
      refine ⟨?_, ⟨id, h1⟩, ?_⟩
      · cases hc : f.onCommit with
        | none => rfl
        | some m =>
          exfalso
          unfold Article.SaveToDb at hs
          cases hb : f.onBegin with
          | some m2 => simp [hb] at hs
          | none =>
            simp only [hb, h1, errOf, TxCommitIfOk, hc] at hs
            simp at hs
      · intro e hf
        obtain ⟨tx, h⟩ := saveToDb_of_stepFails lib hf
        rw [h1] at h
        cases h

theorem SaveToDb_rolls_back_on_failure_witness :
    StepFails tagInsertFails (sampleArticle "A" ["a", "b"]) sampleDb (Error.ext "deadlock") ∧
    (sampleArticle "A" ["a", "b"]).saveToDb Lib.plain tagInsertFails sampleDb =
      ({ sampleDb with
          article := [(sampleArticle "A" ["a", "b"]).newRow Lib.plain 1, sampleRow 2 "B",
            sampleRow 3 "C"],
          article_tag := [⟨2, "go"⟩, ⟨3, "old"⟩, ⟨1, "a"⟩] },
        .error (Error.ext "deadlock")) ∧
    ∃ e1, (sampleArticle "A" ["a", "b"]).SaveToDb Lib.plain tagInsertFails sampleDb =
        (sampleDb, .error e1) ∧ e1.carries (Error.ext "deadlock") = true ∧
      (tagInsertFails.onRollback = none → e1 = Error.ext "deadlock") :=
  have hf : StepFails tagInsertFails (sampleArticle "A" ["a", "b"]) sampleDb
      (Error.ext "deadlock") :=
    StepFails.tag "deadlock" ["a"] "b" [] ⟨rfl, Or.inl ⟨sampleRow 1 "A", rfl, rfl⟩⟩ rfl rfl rfl
      (by decide) rfl
  ⟨hf, rfl, ((SaveToDb_rolls_back_on_failure Lib.plain tagInsertFails
    (sampleArticle "A" ["a", "b"]) sampleDb).1 _ rfl hf).2⟩

theorem find_slug_unique {rows : List ArticleRow} (hu : (rows.map (fun r => r.slug)).Nodup)
    {r : ArticleRow} (hr : r ∈ rows) :
    rows.find? (fun x => x.slug = r.slug) = some r := by
  cases hf : rows.find? (fun x => x.slug = r.slug) with
  | none => exact absurd rfl (find_slug_none hf r hr)
  | some q =>
    obtain ⟨hq, hqs⟩ := find_slug_some hf
    rw [List.inj_on_of_nodup_map hu hq hr hqs]

/-- C5: on a store with unique slugs a successful `SaveToDb` of `a` either finds the record
with the slug of `a`, returns its identity and puts in its place a row with the same identity
and slug and the six columns taken from `a`, the identities and slugs of all rows staying as
they were; or, when no record has the slug, appends exactly one row with the slug and the
columns of `a` under the next identity of the storage, which it returns. -/
theorem SaveToDb_updates_or_inserts (lib : Lib) (f : Faults) (a : Article) (db db1 : Db)
    (id : Int) (hu : db.SlugsUnique) (h : a.SaveToDb lib f db = (db1, .ok id)) :
    (∀ r ∈ db.article, r.slug = a.Slug →
      id = r.article_id ∧
      (∃ r1 ∈ db1.article, r1.article_id = r.article_id ∧ r1.slug = r.slug ∧
        r1.published = lib.timeFormat a.Published ∧ r1.hidden = a.Hidden ∧
        r1.title = a.Title ∧ r1.summary_html = a.SummaryHtml ∧ r1.full_html = a.FullHtml ∧
        r1.full_plain = stripTags lib a.FullHtml) ∧
      db1.article.map (fun x => x.article_id) = db.article.map (fun x => x.article_id) ∧
      db1.article.map (fun x => x.slug) = db.article.map (fun x => x.slug) ∧
      db1.article.length = db.article.length) ∧
    ((∀ r ∈ db.article, r.slug ≠ a.Slug) →
      id = db.nextId ∧
      db1.article = db.article ++
        [{ article_id := id, slug := a.Slug, published := lib.timeFormat a.Published,
           hidden := a.Hidden, title := a.Title, summary_html := a.SummaryHtml,
           full_html := a.FullHtml, full_plain := stripTags lib a.FullHtml }]) := by
  obtain ⟨h1, h2⟩ := SaveToDb_ok_eq h
  subst h1 h2
  constructor
  · intro r hr hs
    have hf : db.article.find? (fun x => x.slug = a.Slug) = some r := by
      rw [← hs]; exact find_slug_unique hu hr
    have hrows : (a.savedDb lib db).article = updRows lib a r.article_id db.article := by
      unfold Article.savedDb
      rw [savedRows_some hf]
    rw [hrows, savedRows_some hf, updRows_ids, updRows_slugs]
    refine ⟨rfl, ⟨a.updatedRow lib r, ?_, rfl, rfl, rfl, rfl, rfl, rfl, rfl, rfl⟩, rfl, rfl, ?_⟩
    · exact List.mem_map.2 ⟨r, hr, by simp⟩
    · simp [updRows]
  · intro hno
    have hf : db.article.find? (fun x => x.slug = a.Slug) = none := by
      rw [List.find?_eq_none]
      intro x hx
      simpa using hno x hx
    have hrows : (a.savedDb lib db).article = db.article ++ [a.newRow lib db.nextId] := by
      unfold Article.savedDb
      rw [savedRows_none hf]
    rw [hrows, savedRows_none hf]
    exact ⟨rfl, rfl⟩

theorem SaveToDb_updates_or_inserts_witness :
    sampleDb.SlugsUnique ∧
    (sampleArticle "B" ["x"]).SaveToDb Lib.plain Faults.none sampleDb =
      ((sampleArticle "B" ["x"]).savedDb Lib.plain sampleDb, .ok 2) ∧
    (∀ r ∈ sampleDb.article, r.slug = (sampleArticle "B" ["x"]).Slug →
      (2 : Int) = r.article_id ∧
      (∃ r1 ∈ ((sampleArticle "B" ["x"]).savedDb Lib.plain sampleDb).article,
        r1.article_id = r.article_id ∧ r1.slug = r.slug ∧
        r1.published = Lib.plain.timeFormat (sampleArticle "B" ["x"]).Published ∧
        r1.hidden = (sampleArticle "B" ["x"]).Hidden ∧
        r1.title = (sampleArticle "B" ["x"]).Title ∧
        r1.summary_html = (sampleArticle "B" ["x"]).SummaryHtml ∧
        r1.full_html = (sampleArticle "B" ["x"]).FullHtml ∧
        r1.full_plain = stripTags Lib.plain (sampleArticle "B" ["x"]).FullHtml) ∧
      ((sampleArticle "B" ["x"]).savedDb Lib.plain sampleDb).article.map (fun x => x.article_id) =
        sampleDb.article.map (fun x => x.article_id) ∧
      ((sampleArticle "B" ["x"]).savedDb Lib.plain sampleDb).article.map (fun x => x.slug) =
        sampleDb.article.map (fun x => x.slug) ∧
      ((sampleArticle "B" ["x"]).savedDb Lib.plain sampleDb).article.length =
        sampleDb.article.length) :=
  ⟨by decide, rfl,
    (SaveToDb_updates_or_inserts Lib.plain Faults.none (sampleArticle "B" ["x"]) sampleDb
      ((sampleArticle "B" ["x"]).savedDb Lib.plain sampleDb) 2 (by decide) rfl).1⟩

/-- C6: after a successful `SaveToDb` of `a` that returned `id`, a row (`id`, `t`) is in
`article_tag` exactly when `t` is a tag of `a`; in particular a tag stored for `id` before
that is not a tag of `a` is gone. -/
theorem SaveToDb_replaces_tags (lib : Lib) (f : Faults) (a : Article) (db db1 : Db) (id : Int)
    (h : a.SaveToDb lib f db = (db1, .ok id)) :
    (∀ t, (⟨id, t⟩ : TagRow) ∈ db1.article_tag ↔ t ∈ a.Tags) ∧
    (∀ t, (⟨id, t⟩ : TagRow) ∈ db.article_tag → t ∉ a.Tags →
      (⟨id, t⟩ : TagRow) ∉ db1.article_tag) := by
  obtain ⟨h1, h2⟩ := SaveToDb_ok_eq h
  have key : ∀ t, (⟨id, t⟩ : TagRow) ∈ db1.article_tag ↔ t ∈ a.Tags := by
    intro t
    subst h1 h2
    unfold Article.savedDb
    simp only
    rw [mem_tagRowsAfter]
    simp
  exact ⟨key, fun t _ hn hm => hn ((key t).1 hm)⟩

theorem SaveToDb_replaces_tags_witness :
    (∀ t, (⟨1, t⟩ : TagRow) ∈ ((sampleArticle "A" ["x", "y"]).savedDb Lib.plain
        sampleDb).article_tag ↔ t ∈ (sampleArticle "A" ["x", "y"]).Tags) ∧
    (∀ t, (⟨1, t⟩ : TagRow) ∈ sampleDb.article_tag → t ∉ (sampleArticle "A" ["x", "y"]).Tags →
      (⟨1, t⟩ : TagRow) ∉ ((sampleArticle "A" ["x", "y"]).savedDb Lib.plain
        sampleDb).article_tag) :=
  SaveToDb_replaces_tags Lib.plain Faults.none (sampleArticle "A" ["x", "y"]) sampleDb
    ((sampleArticle "A" ["x", "y"]).savedDb Lib.plain sampleDb) 1 rfl

theorem updRows_idem (lib : Lib) (a : Article) (id : Int) (rows : List ArticleRow) :
    updRows lib a id (updRows lib a id rows) = updRows lib a id rows := by
  unfold updRows
  rw [List.map_map]
  apply List.map_congr_left
  intro x _
  by_cases h : x.article_id = id
  · simp [h, updatedRow_id, updatedRow_idem]
  · simp [h]

theorem updRows_of_ne (lib : Lib) (a : Article) (id : Int) (rows : List ArticleRow)
    (h : ∀ r ∈ rows, r.article_id ≠ id) : updRows lib a id rows = rows := by
  unfold updRows
  conv_rhs => rw [← List.map_id rows]
  apply List.map_congr_left
  intro x hx
  simp [h x hx]

theorem find_updRows (lib : Lib) (a : Article) (id : Int) (rows : List ArticleRow) (s : String) :
    (updRows lib a id rows).find? (fun r => r.slug = s) =
      (rows.find? (fun r => r.slug = s)).map
        (fun x => if x.article_id = id then a.updatedRow lib x else x) := by
  unfold updRows
  rw [List.find?_map]
  have e : ((fun r : ArticleRow => decide (r.slug = s)) ∘
      fun x => if x.article_id = id then a.updatedRow lib x else x) =
      (fun r : ArticleRow => decide (r.slug = s)) := by
    funext x
    by_cases h : x.article_id = id <;> simp [h, updatedRow_slug]
  rw [e]

theorem savedDb_article (lib : Lib) (a : Article) (db : Db) :
    (a.savedDb lib db).article = (a.savedRows lib db).1 := rfl

theorem savedDb_article_tag (lib : Lib) (a : Article) (db : Db) :
    (a.savedDb lib db).article_tag = tagRowsAfter (a.savedRows lib db).2 a.Tags db.article_tag :=
  rfl

theorem savedDb_nextId_some {lib : Lib} {a : Article} {db : Db} {r : ArticleRow}
    (h : db.article.find? (fun r => r.slug = a.Slug) = some r) :
    (a.savedDb lib db).nextId = db.nextId := by
  unfold Article.savedDb
  simp only [h]

/-- Saving twice is saving once, when no stored identity is the next auto-increment value. -/
theorem savedDb_idem (lib : Lib) (a : Article) (db : Db)
    (hfresh : ∀ r ∈ db.article, r.article_id < db.nextId) :
    a.savedDb lib (a.savedDb lib db) = a.savedDb lib db ∧
      (a.savedRows lib (a.savedDb lib db)).2 = (a.savedRows lib db).2 := by
  cases hf : db.article.find? (fun r => r.slug = a.Slug) with
  | some r =>
    have hrows : (a.savedDb lib db).article = updRows lib a r.article_id db.article := by
      rw [savedDb_article, savedRows_some hf]
    have hf1 : (a.savedDb lib db).article.find? (fun r => r.slug = a.Slug) =
        some (a.updatedRow lib r) := by
      rw [hrows, find_updRows, hf]
      simp
    have hid : (a.savedRows lib (a.savedDb lib db)).2 = (a.savedRows lib db).2 := by
      rw [savedRows_some hf1, savedRows_some hf]
      rfl
    refine ⟨?_, hid⟩
    have e1 : (a.savedDb lib (a.savedDb lib db)).article = (a.savedDb lib db).article := by
      rw [savedDb_article, savedRows_some hf1, updatedRow_id, hrows, updRows_idem]
    have e2 : (a.savedDb lib (a.savedDb lib db)).article_tag = (a.savedDb lib db).article_tag := by
      rw [savedDb_article_tag, hid, savedDb_article_tag, tagRowsAfter_idem]
    have e3 : (a.savedDb lib (a.savedDb lib db)).nextId = (a.savedDb lib db).nextId := by
      exact savedDb_nextId_some hf1
    rcases hd : a.savedDb lib (a.savedDb lib db) with ⟨x1, x2, x3⟩
    rcases hd1 : a.savedDb lib db with ⟨y1, y2, y3⟩
    rw [hd, hd1] at e1 e2 e3
    simp only at e1 e2 e3
    rw [e1, e2, e3]
  | none =>
    have hrows : (a.savedDb lib db).article = db.article ++ [a.newRow lib db.nextId] := by
      rw [savedDb_article, savedRows_none hf]
    have hnext : (a.savedDb lib db).nextId = db.nextId + 1 := by
      unfold Article.savedDb
      simp only [hf]
    have hf1 : (a.savedDb lib db).article.find? (fun r => r.slug = a.Slug) =
        some (a.newRow lib db.nextId) := by
      rw [hrows, List.find?_append, hf]
      simp [Article.newRow]
    have hid : (a.savedRows lib (a.savedDb lib db)).2 = (a.savedRows lib db).2 := by
      rw [savedRows_some hf1, savedRows_none hf]
      rfl
    refine ⟨?_, hid⟩
    have e1 : (a.savedDb lib (a.savedDb lib db)).article = (a.savedDb lib db).article := by
      rw [savedDb_article, savedRows_some hf1, hrows]
      show updRows lib a db.nextId (db.article ++ [a.newRow lib db.nextId]) = _
      unfold updRows
      rw [List.map_append]
      congr 1
      · exact updRows_of_ne lib a db.nextId db.article
          (fun r hr => by have := hfresh r hr; omega)
      · simp [Article.newRow, Article.updatedRow]
    have e2 : (a.savedDb lib (a.savedDb lib db)).article_tag = (a.savedDb lib db).article_tag := by
      rw [savedDb_article_tag, hid, savedDb_article_tag, tagRowsAfter_idem]
    have e3 : (a.savedDb lib (a.savedDb lib db)).nextId = (a.savedDb lib db).nextId := by
      exact savedDb_nextId_some hf1
    rcases hd : a.savedDb lib (a.savedDb lib db) with ⟨x1, x2, x3⟩
    rcases hd1 : a.savedDb lib db with ⟨y1, y2, y3⟩
    rw [hd, hd1] at e1 e2 e3
    simp only at e1 e2 e3
    rw [e1, e2, e3]

theorem count_tagRowsAfter (id : Int) (tags : List String) (rows : List TagRow) (x : TagRow) :
    (tagRowsAfter id tags rows).count x =
      if x.article_id = id ∧ x.tag ∈ tags then 1
      else (rows.filter (fun t => t.article_id ≠ id)).count x := by
  unfold tagRowsAfter
  exact count_foldl_replaceTagRows id x tags _

theorem tagRowsAfter_perm (id : Int) (ts1 ts2 : List String) (rows : List TagRow)
    (h : ts1.Perm ts2) : (tagRowsAfter id ts1 rows).Perm (tagRowsAfter id ts2 rows) := by
  rw [List.perm_iff_count]
  intro x
  rw [count_tagRowsAfter, count_tagRowsAfter]
  by_cases hx : x.article_id = id ∧ x.tag ∈ ts1
  · rw [if_pos hx, if_pos ⟨hx.1, h.mem_iff.1 hx.2⟩]
  · rw [if_neg hx, if_neg (fun h2 => hx ⟨h2.1, h.mem_iff.2 h2.2⟩)]

/-- C7: saving `a` a second time changes nothing. On a store in which no identity in use is
the next auto-increment value, let a first `SaveToDb` of `a` succeed and a second one follow,
which may visit the keys of the tag map in another order `order2`. The second call returns the
identity of the first and leaves the rows of `article` and the counter as they were; the rows
of `article_tag` are the same rows, in the same order when the keys are visited in the same
order, so that the database is then the same value. Afterwards `article_tag` holds exactly one
row for the identity and each tag of `a`, and no other row for the identity. -/
theorem SaveToDb_idempotent (lib : Lib) (f1 f2 : Faults) (a : Article) (order2 : List String)
    (db db1 db2 : Db) (id1 id2 : Int)
    (hfresh : ∀ r ∈ db.article, r.article_id < db.nextId)
    (horder : order2.Perm a.Tags)
    (h1 : a.SaveToDb lib f1 db = (db1, .ok id1))
    (h2 : ({ a with Tags := order2 } : Article).SaveToDb lib f2 db1 = (db2, .ok id2)) :
    id2 = id1 ∧ db2.article = db1.article ∧ db2.nextId = db1.nextId ∧
    db2.article_tag.Perm db1.article_tag ∧
    (order2 = a.Tags → db2 = db1) ∧
    (∀ t ∈ a.Tags, db2.article_tag.count ⟨id1, t⟩ = 1) ∧
    (∀ t, (⟨id1, t⟩ : TagRow) ∈ db2.article_tag → t ∈ a.Tags) := by
  obtain ⟨e1, i1⟩ := SaveToDb_ok_eq h1
  obtain ⟨e2, i2⟩ := SaveToDb_ok_eq h2
  obtain ⟨hidem, hid⟩ := savedDb_idem lib a db hfresh
  rw [← e1] at hidem hid
  rw [← i1] at hid
  have hrows2 : (({ a with Tags := order2 } : Article).savedRows lib db1) = a.savedRows lib db1 :=
    rfl
  have hid2 : id2 = id1 := by rw [i2, hrows2, hid]
  have ha : db2.article = db1.article := by
    rw [e2]
    show (a.savedDb lib db1).article = _
    rw [hidem]
  have hn : db2.nextId = db1.nextId := by
    rw [e2]
    show (a.savedDb lib db1).nextId = _
    rw [hidem]
  have ht : db2.article_tag = tagRowsAfter id1 order2 db1.article_tag := by
    rw [e2]
    show tagRowsAfter (a.savedRows lib db1).2 order2 db1.article_tag = _
    rw [hid]
  have ht1 : db1.article_tag = tagRowsAfter id1 a.Tags db1.article_tag := by
    conv_lhs => rw [← hidem]
    rw [savedDb_article_tag, hid]
  refine ⟨hid2, ha, hn, ?_, ?_, ?_, ?_⟩
  · rw [ht]
    conv_rhs => rw [ht1]
    exact tagRowsAfter_perm id1 order2 a.Tags _ horder
  · intro ho
    rw [ho, ← ht1] at ht
    rcases db2 with ⟨x1, x2, x3⟩
    rcases db1 with ⟨y1, y2, y3⟩
    simp only at ha hn ht
    rw [ha, hn, ht]
  · intro t htag
    rw [ht, count_tagRowsAfter, if_pos ⟨rfl, horder.mem_iff.2 htag⟩]
  · intro t hm
    rw [ht, mem_tagRowsAfter] at hm
    rcases hm with hm | hm
    · exact horder.mem_iff.1 hm.2
    · exact absurd rfl hm.1

theorem SaveToDb_idempotent_witness :
    (∀ r ∈ sampleDb.article, r.article_id < sampleDb.nextId) ∧
    (sampleArticle "D" ["x", "y"]).SaveToDb Lib.plain Faults.none sampleDb =
      ((sampleArticle "D" ["x", "y"]).savedDb Lib.plain sampleDb, .ok 4) ∧
    (sampleArticle "D" ["y", "x"]).SaveToDb Lib.plain Faults.none
        ((sampleArticle "D" ["x", "y"]).savedDb Lib.plain sampleDb) =
      ((sampleArticle "D" ["y", "x"]).savedDb Lib.plain
        ((sampleArticle "D" ["x", "y"]).savedDb Lib.plain sampleDb), .ok 4) ∧
    ((sampleArticle "D" ["y", "x"]).savedDb Lib.plain
        ((sampleArticle "D" ["x", "y"]).savedDb Lib.plain sampleDb)).article =
      ((sampleArticle "D" ["x", "y"]).savedDb Lib.plain sampleDb).article ∧
    ((sampleArticle "D" ["y", "x"]).savedDb Lib.plain
        ((sampleArticle "D" ["x", "y"]).savedDb Lib.plain sampleDb)).article_tag.Perm
      ((sampleArticle "D" ["x", "y"]).savedDb Lib.plain sampleDb).article_tag ∧
    (∀ t ∈ (sampleArticle "D" ["x", "y"]).Tags,
      ((sampleArticle "D" ["y", "x"]).savedDb Lib.plain
        ((sampleArticle "D" ["x", "y"]).savedDb Lib.plain sampleDb)).article_tag.count
          ⟨4, t⟩ = 1) :=
  have h := SaveToDb_idempotent Lib.plain Faults.none Faults.none
    (sampleArticle "D" ["x", "y"]) ["y", "x"] sampleDb
    ((sampleArticle "D" ["x", "y"]).savedDb Lib.plain sampleDb)
    ((sampleArticle "D" ["y", "x"]).savedDb Lib.plain
      ((sampleArticle "D" ["x", "y"]).savedDb Lib.plain sampleDb)) 4 4 (by decide)
    (List.Perm.swap "x" "y" []) rfl rfl
  ⟨by decide, rfl, rfl, h.2.1, h.2.2.2.1, h.2.2.2.2.2.1⟩

/-- C8: after a successful `SaveToDb` of `a`, whether it updated a row or inserted one, the row
with the returned identity has the slug of `a`, `full_html = a.FullHtml` and
`full_plain = stripTags full_html`; on a store with unique slugs this holds for every row with
the slug of `a`, whatever `full_plain` held before. -/
theorem SaveToDb_full_plain (lib : Lib) (f : Faults) (a : Article) (db db1 : Db) (id : Int)
    (h : a.SaveToDb lib f db = (db1, .ok id)) :
    (∃ r ∈ db1.article, r.article_id = id ∧ r.slug = a.Slug ∧ r.full_html = a.FullHtml ∧
      r.full_plain = stripTags lib r.full_html) ∧
    (db.SlugsUnique → ∀ r ∈ db1.article, r.slug = a.Slug →
      r.article_id = id ∧ r.full_html = a.FullHtml ∧
        r.full_plain = stripTags lib r.full_html) := by
  obtain ⟨e1, i1⟩ := SaveToDb_ok_eq h
  subst e1 i1
  cases hf : db.article.find? (fun r => r.slug = a.Slug) with
  | some q =>
    obtain ⟨hq, hqs⟩ := find_slug_some hf
    have hrows : (a.savedDb lib db).article = updRows lib a q.article_id db.article := by
      rw [savedDb_article, savedRows_some hf]
    rw [hrows, savedRows_some hf]
    constructor
    · exact ⟨a.updatedRow lib q, List.mem_map.2 ⟨q, hq, by simp⟩, rfl, hqs, rfl, rfl⟩
    · intro hu r hr hrs
      unfold updRows at hr
      obtain ⟨x, hx, hxr⟩ := List.mem_map.1 hr
      have hxs : x.slug = a.Slug := by
        rw [← hrs, ← hxr]
        by_cases hc : x.article_id = q.article_id <;> simp [hc, updatedRow_slug]
      have hxq : x = q := List.inj_on_of_nodup_map hu hx hq (hxs.trans hqs.symm)
      subst hxq
      simp only [if_true] at hxr
      subst hxr
      exact ⟨rfl, rfl, rfl⟩
  | none =>
    have hrows : (a.savedDb lib db).article = db.article ++ [a.newRow lib db.nextId] := by
      rw [savedDb_article, savedRows_none hf]
    rw [hrows, savedRows_none hf]
    constructor
    · exact ⟨a.newRow lib db.nextId, by simp, rfl, rfl, rfl, rfl⟩
    · intro _ r hr hrs
      rcases List.mem_append.1 hr with hr | hr
      · exact absurd hrs (find_slug_none hf r hr)
      · rw [List.mem_singleton.1 hr]
        exact ⟨rfl, rfl, rfl⟩

theorem SaveToDb_full_plain_witness :
    (∃ r ∈ ((sampleArticle "D" []).savedDb Lib.plain sampleDb).article,
      r.article_id = 4 ∧ r.slug = (sampleArticle "D" []).Slug ∧
      r.full_html = (sampleArticle "D" []).FullHtml ∧
      r.full_plain = stripTags Lib.plain r.full_html) ∧
    ∀ r ∈ ((sampleArticle "D" []).savedDb Lib.plain sampleDb).article,
      r.slug = (sampleArticle "D" []).Slug →
      r.article_id = 4 ∧ r.full_html = (sampleArticle "D" []).FullHtml ∧
        r.full_plain = stripTags Lib.plain r.full_html :=
  have h := SaveToDb_full_plain Lib.plain Faults.none (sampleArticle "D" []) sampleDb
    ((sampleArticle "D" []).savedDb Lib.plain sampleDb) 4 rfl
  ⟨h.1, h.2 (by decide)⟩

/-! ### The loop of `parseHeader` -/

theorem Scan_cons (sc : Scanner) (l : String) (rest : List String) (h : sc.lines = l :: rest) :
    ∃ sc1, sc.Scan = (some l, sc1) ∧ sc1.lines = rest ∧ sc1.readErr = sc.readErr ∧
      (sc.err = none → sc.readErr = none → sc1.err = none) := by
  unfold Scanner.Scan
  rw [h]
  cases rest with
  | nil =>
    refine ⟨_, rfl, rfl, rfl, ?_⟩
    intro h1 h2
    simp [h1, h2, Option.orElse]
  | cons x xs => exact ⟨_, rfl, rfl, rfl, fun h1 _ => h1⟩

theorem Scan_nil (sc : Scanner) (h : sc.lines = []) :
    ∃ sc1, sc.Scan = (none, sc1) ∧ sc1.lines = [] ∧
      (sc.err = none → sc.readErr = none → sc1.err = none) := by
  unfold Scanner.Scan
  rw [h]
  refine ⟨_, rfl, rfl, ?_⟩
  intro h1 h2
  simp [h1, h2, Option.orElse]

/-- The loop of `parseHeader` computes `foldSteps` over the header block. -/
theorem parseHeaderLoop_result (lib : Lib) :
    ∀ (lines : List String) (fuel : Nat) (sc : Scanner) (st : HeaderState),
      sc.lines = lines → lines.length < fuel →
        (parseHeaderLoop lib fuel sc st).2 = foldSteps lib (headerBlock lines) st ∧
        (sc.err = none → sc.readErr = none → (parseHeaderLoop lib fuel sc st).1.err = none) := by
  intro lines
  induction lines with
  | nil =>
    intro fuel sc st hl hf
    cases fuel with
    | zero => simp at hf
    | succ n =>
      obtain ⟨sc1, h1, _, h3⟩ := Scan_nil sc hl
      simp only [parseHeaderLoop, h1, headerBlock, List.takeWhile_nil, foldSteps]
      exact ⟨trivial, h3⟩
  | cons l rest ih =>
    intro fuel sc st hl hf
    cases fuel with
    | zero => simp at hf
    | succ n =>
      obtain ⟨sc1, h1, h2, h3, h4⟩ := Scan_cons sc l rest hl
      simp only [parseHeaderLoop, h1]
      by_cases hb : TrimSpace l = ""
      · simp only [hb, if_true, headerBlock]
        rw [List.takeWhile_cons]
        simp only [hb, ne_eq, not_true_eq_false, decide_False, foldSteps]
        exact ⟨by simp, h4⟩
      · simp only [hb, if_false, headerBlock]
        rw [List.takeWhile_cons]
        simp only [hb, ne_eq, not_false_eq_true, decide_True, if_true, foldSteps]
        cases hs : headerStep lib st (TrimSpace l) with
        | error e => exact ⟨rfl, h4⟩
        | ok st1 =>
          simp only
          have := ih n sc1 st1 h2 (by simp only [List.length_cons] at hf; omega)
          refine ⟨this.1, ?_⟩
          intro he hr
          exact this.2 (h4 he hr) (by rw [h3]; exact hr)

theorem foldSteps_append (lib : Lib) (l2 : List String) :
    ∀ (l1 : List String) (st : HeaderState),
      foldSteps lib (l1 ++ l2) st =
        match foldSteps lib l1 st with
        | .ok st1 => foldSteps lib l2 st1
        | .error err => .error err := by
  intro l1
  induction l1 with
  | nil => intro st; rfl
  | cons x xs ih =>
    intro st
    simp only [List.cons_append, foldSteps]
    cases headerStep lib st (TrimSpace x) with
    | error e => rfl
    | ok st1 => exact ih st1

theorem splitFirstColon_none {cs : List Char} : splitFirstColon cs = none ↔ ':' ∉ cs := by
  induction cs with
  | nil => simp [splitFirstColon]
  | cons c cs ih =>
    unfold splitFirstColon
    by_cases h : c = ':'
    · simp [h]
    · simp only [h, if_false]
      have hne : ¬ (':' = c) := fun h2 => h h2.symm
      cases hs : splitFirstColon cs with
      | none => simp [hne, ih.1 hs]
      | some p =>
        have : ¬ (':' ∉ cs) := by
          intro h3
          rw [ih.2 h3] at hs
          cases hs
        simp only [List.mem_cons, hne, false_or]
        simp [this]

theorem splitFirstColon_append (k v : List Char) (h : ':' ∉ k) :
    splitFirstColon (k ++ ':' :: v) = some (k, v) := by
  induction k with
  | nil => simp [splitFirstColon]
  | cons c cs ih =>
    have hc : c ≠ ':' := fun h2 => h (by simp [h2])
    have hcs : ':' ∉ cs := fun h2 => h (List.mem_cons_of_mem _ h2)
    simp [splitFirstColon, hc, ih hcs]

theorem headerStep_noColon (lib : Lib) (st : HeaderState) (text : String)
    (h : hasColon text = false) :
    headerStep lib st (TrimSpace text) = .error Error.ErrBrokenHeader := by
  unfold hasColon at h
  have h1 : splitFirstColon (TrimSpace text).data = none :=
    splitFirstColon_none.2 (by simpa using h)
  unfold headerStep SplitN
  rw [h1]

/-- The result of the loop body on a line with a colon, by key. -/
theorem headerStep_colon (lib : Lib) (st : HeaderState) (text : String) (k v : List Char)
    (h : splitFirstColon (TrimSpace text).data = some (k, v)) :
    headerKey lib text = some (lib.ToLower (TrimSpace ⟨k⟩)) ∧
    headerValue text = some (TrimSpace ⟨v⟩) ∧
    headerStep lib st (TrimSpace text) =
      (if lib.ToLower (TrimSpace ⟨k⟩) = "title" then
        .ok { st with article := { st.article with Title := TrimSpace ⟨v⟩ }, seenTitle := true }
      else if lib.ToLower (TrimSpace ⟨k⟩) = "tags" then
        .ok { st with article := { st.article with Tags := splitTags (TrimSpace ⟨v⟩) } }
      else if lib.ToLower (TrimSpace ⟨k⟩) = "date" then
        match parseDate lib (TrimSpace ⟨v⟩) with
        | .ok t => .ok { st with article := { st.article with Published := t },
                                 seenPublished := true }
        | .error err => .error err
      else if lib.ToLower (TrimSpace ⟨k⟩) = "hidden" then
        .ok { st with article :=
          { st.article with Hidden := lib.ToLower (TrimSpace ⟨v⟩) = "yes" } }
      else .ok st) := by
  refine ⟨?_, ?_, ?_⟩
  · unfold headerKey; rw [h]
  · unfold headerValue; rw [h]
  · unfold headerStep SplitN
    rw [h]
    try rfl

theorem hasColon_split {text : String} (h : hasColon text = true) :
    ∃ k v, splitFirstColon (TrimSpace text).data = some (k, v) := by
  unfold hasColon at h
  cases hs : splitFirstColon (TrimSpace text).data with
  | none =>
    have := splitFirstColon_none.1 hs
    simp at h
    exact absurd h this
  | some p => exact ⟨p.1, p.2, rfl⟩

/-- On a block whose lines all have a colon and whose dates parse the loop body never fails,
and the two flags record whether a title line and a date line were met. -/
theorem foldSteps_flags (lib : Lib) :
    ∀ (block : List String) (st : HeaderState),
      (∀ l ∈ block, hasColon l = true) → (∀ l ∈ block, badDate lib l = false) →
      ∃ st1, foldSteps lib block st = .ok st1 ∧
        st1.seenTitle = (st.seenTitle || block.any (fun l => headerKey lib l = some "title")) ∧
        st1.seenPublished =
          (st.seenPublished || block.any (fun l => headerKey lib l = some "date")) := by
  intro block
  induction block with
  | nil => intro st _ _; exact ⟨st, rfl, by simp, by simp⟩
  | cons text rest ih =>
    intro st hc hd
    obtain ⟨k, v, hs⟩ := hasColon_split (hc text (List.mem_cons_self _ _))
    obtain ⟨hk, hv, hstep⟩ := headerStep_colon lib st text k v hs
    have hbd := hd text (List.mem_cons_self _ _)
    have hc1 : ∀ l ∈ rest, hasColon l = true := fun l hl => hc l (List.mem_cons_of_mem _ hl)
    have hd1 : ∀ l ∈ rest, badDate lib l = false := fun l hl => hd l (List.mem_cons_of_mem _ hl)
    simp only [foldSteps, List.any_cons, hk, Option.some.injEq]
    by_cases h1 : lib.ToLower (TrimSpace ⟨k⟩) = "title"
    · rw [hstep, if_pos h1]
      obtain ⟨st1, e1, e2, e3⟩ := ih _ hc1 hd1
      refine ⟨st1, e1, ?_, ?_⟩
      · rw [e2]; simp [h1]
      · rw [e3]; simp [h1]
    · by_cases h2 : lib.ToLower (TrimSpace ⟨k⟩) = "tags"
      · rw [hstep, if_neg h1, if_pos h2]
        obtain ⟨st1, e1, e2, e3⟩ := ih _ hc1 hd1
        refine ⟨st1, e1, ?_, ?_⟩
        · rw [e2]; simp [h1]
        · rw [e3]; simp [h2]
      · by_cases h3 : lib.ToLower (TrimSpace ⟨k⟩) = "date"
        · rw [hstep, if_neg h1, if_neg h2, if_pos h3]
          unfold badDate at hbd
          rw [hk, hv] at hbd
          cases hp : parseDate lib (TrimSpace ⟨v⟩) with
          | error e => simp [hp, h3] at hbd
          | ok t =>
            obtain ⟨st1, e1, e2, e3⟩ := ih _ hc1 hd1
            refine ⟨st1, e1, ?_, ?_⟩
            · rw [e2]; simp [h1]
            · rw [e3]; simp [h3]
        · by_cases h4 : lib.ToLower (TrimSpace ⟨k⟩) = "hidden"
          · rw [hstep, if_neg h1, if_neg h2, if_neg h3, if_pos h4]
            obtain ⟨st1, e1, e2, e3⟩ := ih _ hc1 hd1
            refine ⟨st1, e1, ?_, ?_⟩
            · rw [e2]; simp [h1]
            · rw [e3]; simp [h3]
          · rw [hstep, if_neg h1, if_neg h2, if_neg h3, if_neg h4]
            obtain ⟨st1, e1, e2, e3⟩ := ih _ hc1 hd1
            refine ⟨st1, e1, ?_, ?_⟩
            · rw [e2]; simp [h1]
            · rw [e3]; simp [h3]

theorem parseHeader_eq (lib : Lib) (sc : Scanner) :
    (parseHeader lib sc).2 =
      match foldSteps lib (headerBlock sc.lines) HeaderState.init with
      | .error err => (Article.empty, some err)
      | .ok st =>
        match (parseHeaderLoop lib (sc.lines.length + 1) sc HeaderState.init).1.Err with
        | some err => (Article.empty, some err)
        | none =>
          if !st.seenTitle || !st.seenPublished then
            (Article.empty, some Error.ErrMissingMandatoryHeaders)
          else (st.article, none) := by
  obtain ⟨h1, _⟩ := parseHeaderLoop_result lib sc.lines (sc.lines.length + 1) sc
    HeaderState.init rfl (Nat.lt_succ_self _)
  unfold parseHeader
  rcases hl : parseHeaderLoop lib (sc.lines.length + 1) sc HeaderState.init with ⟨sc1, r⟩
  rw [hl] at h1
  simp only at h1
  rw [← h1]
  cases r with
  | error e => rfl
  | ok st =>
    simp only
    cases sc1.Err with
    | some e => rfl
    | none =>
      simp only
      split <;> rfl

/-! ### The claims about `parseHeader` -/

theorem any_key_iff (lib : Lib) (block : List String) (key : String) :
    block.any (fun l => headerKey lib l = some key) = true ↔
      ∃ l ∈ block, headerKey lib l = some key := by
  simp [List.any_eq_true]

/-- C9: for an input read without error whose header block has a colon in every line and no
date that fails to parse, `parseHeader` succeeds exactly when the block has a line with key
`title` and a line with key `date`, wherever they stand and whatever other lines the block
has; otherwise it returns the empty article and `ErrMissingMandatoryHeaders`. -/
theorem parseHeader_mandatory_headers (lib : Lib) (sc : Scanner)
    (hread : sc.err = none ∧ sc.readErr = none)
    (hcolon : ∀ l ∈ headerBlock sc.lines, hasColon l = true)
    (hdate : ∀ l ∈ headerBlock sc.lines, badDate lib l = false) :
    ((parseHeader lib sc).2.2 = none ↔
      (∃ l ∈ headerBlock sc.lines, headerKey lib l = some "title") ∧
      (∃ l ∈ headerBlock sc.lines, headerKey lib l = some "date")) ∧
    ((parseHeader lib sc).2.2 ≠ none →
      (parseHeader lib sc).2 = (Article.empty, some Error.ErrMissingMandatoryHeaders)) := by
  obtain ⟨st1, e1, e2, e3⟩ := foldSteps_flags lib (headerBlock sc.lines) HeaderState.init
    hcolon hdate
  have herr := (parseHeaderLoop_result lib sc.lines (sc.lines.length + 1) sc
    HeaderState.init rfl (Nat.lt_succ_self _)).2 hread.1 hread.2
  have hE : (parseHeaderLoop lib (sc.lines.length + 1) sc HeaderState.init).1.Err = none := herr
  rw [parseHeader_eq, e1]
  simp only [hE]
  rw [← any_key_iff, ← any_key_iff]
  simp only [HeaderState.init, Bool.false_or] at e2 e3
  rw [← e2, ← e3]
  cases h1 : st1.seenTitle <;> cases h2 : st1.seenPublished <;> simp

theorem parseHeader_mandatory_headers_witness :
    (parseHeader Lib.plain (Scanner.ofLines
        ["X-Other: 1", " DATE : 2020-01-02 03:04:05", "Title: a", "", "body"])).2.2 = none ∧
    ((parseHeader Lib.plain (Scanner.ofLines
        ["X-Other: 1", " DATE : 2020-01-02 03:04:05", "Title: a", "", "body"])).2.2 = none ↔
      (∃ l ∈ headerBlock (Scanner.ofLines
        ["X-Other: 1", " DATE : 2020-01-02 03:04:05", "Title: a", "", "body"]).lines,
          headerKey Lib.plain l = some "title") ∧
      (∃ l ∈ headerBlock (Scanner.ofLines
        ["X-Other: 1", " DATE : 2020-01-02 03:04:05", "Title: a", "", "body"]).lines,
          headerKey Lib.plain l = some "date")) ∧
    ((parseHeader Lib.plain (Scanner.ofLines ["X-Other: 1", "Title: a", "", "body"])).2.2 ≠
        none →
      (parseHeader Lib.plain (Scanner.ofLines ["X-Other: 1", "Title: a", "", "body"])).2 =
        (Article.empty, some Error.ErrMissingMandatoryHeaders)) :=
  ⟨rfl,
    (parseHeader_mandatory_headers Lib.plain
      (Scanner.ofLines ["X-Other: 1", " DATE : 2020-01-02 03:04:05", "Title: a", "", "body"])
      ⟨rfl, rfl⟩ (by decide) (by decide)).1,
    (parseHeader_mandatory_headers Lib.plain
      (Scanner.ofLines ["X-Other: 1", "Title: a", "", "body"])
      ⟨rfl, rfl⟩ (by decide) (by decide)).2⟩

/-- Before a line without a colon, lines whose dates parse cannot end the loop with another
error. -/
theorem foldSteps_broken (lib : Lib) (bad : String) (post : List String)
    (hbad : hasColon bad = false) :
    ∀ (pre : List String) (st : HeaderState), (∀ l ∈ pre, badDate lib l = false) →
      foldSteps lib (pre ++ bad :: post) st = .error Error.ErrBrokenHeader := by
  intro pre
  induction pre with
  | nil =>
    intro st _
    simp only [List.nil_append, foldSteps, headerStep_noColon lib st bad hbad]
  | cons text rest ih =>
    intro st hd
    have hd1 : ∀ l ∈ rest, badDate lib l = false := fun l hl => hd l (List.mem_cons_of_mem _ hl)
    have hbd := hd text (List.mem_cons_self _ _)
    simp only [List.cons_append, foldSteps]
    cases hc : hasColon text with
    | false => rw [headerStep_noColon lib st text hc]
    | true =>
      obtain ⟨k, v, hs⟩ := hasColon_split hc
      obtain ⟨hk, hv, hstep⟩ := headerStep_colon lib st text k v hs
      rw [hstep]
      by_cases h1 : lib.ToLower (TrimSpace ⟨k⟩) = "title"
      · rw [if_pos h1]; exact ih _ hd1
      · by_cases h2 : lib.ToLower (TrimSpace ⟨k⟩) = "tags"
        · rw [if_neg h1, if_pos h2]; exact ih _ hd1
        · by_cases h3 : lib.ToLower (TrimSpace ⟨k⟩) = "date"
          · rw [if_neg h1, if_neg h2, if_pos h3]
            unfold badDate at hbd
            rw [hk, hv] at hbd
            cases hp : parseDate lib (TrimSpace ⟨v⟩) with
            | error e => simp [hp, h3] at hbd
            | ok t => exact ih _ hd1
          · by_cases h4 : lib.ToLower (TrimSpace ⟨k⟩) = "hidden"
            · rw [if_neg h1, if_neg h2, if_neg h3, if_pos h4]; exact ih _ hd1
            · rw [if_neg h1, if_neg h2, if_neg h3, if_neg h4]; exact ih _ hd1

/-- A line whose key is not `title` leaves the title alone. -/
theorem headerStep_title_other (lib : Lib) (st st1 : HeaderState) (text : String)
    (hk : headerKey lib text ≠ some "title")
    (h : headerStep lib st (TrimSpace text) = .ok st1) :
    st1.article.Title = st.article.Title := by
  cases hc : hasColon text with
  | false => rw [headerStep_noColon lib st text hc] at h; cases h
  | true =>
    obtain ⟨k, v, hs⟩ := hasColon_split hc
    obtain ⟨hk1, _, hstep⟩ := headerStep_colon lib st text k v hs
    rw [hk1] at hk
    have h1 : ¬ lib.ToLower (TrimSpace ⟨k⟩) = "title" := fun h2 => hk (by rw [h2])
    rw [hstep, if_neg h1] at h
    by_cases h2 : lib.ToLower (TrimSpace ⟨k⟩) = "tags"
    · rw [if_pos h2] at h; cases h; rfl
    · by_cases h3 : lib.ToLower (TrimSpace ⟨k⟩) = "date"
      · rw [if_neg h2, if_pos h3] at h
        cases hp : parseDate lib (TrimSpace ⟨v⟩) with
        | error e => rw [hp] at h; cases h
        | ok t => rw [hp] at h; cases h; rfl
      · by_cases h4 : lib.ToLower (TrimSpace ⟨k⟩) = "hidden"
        · rw [if_neg h2, if_neg h3, if_pos h4] at h; cases h; rfl
        · rw [if_neg h2, if_neg h3, if_neg h4] at h; cases h; rfl

theorem foldSteps_title_other (lib : Lib) :
    ∀ (block : List String) (st st1 : HeaderState),
      (∀ l ∈ block, headerKey lib l ≠ some "title") → foldSteps lib block st = .ok st1 →
      st1.article.Title = st.article.Title := by
  intro block
  induction block with
  | nil => intro st st1 _ h; simp only [foldSteps] at h; cases h; rfl
  | cons text rest ih =>
    intro st st1 hk h
    simp only [foldSteps] at h
    cases hs : headerStep lib st (TrimSpace text) with
    | error e => rw [hs] at h; cases h
    | ok st2 =>
      rw [hs] at h
      rw [ih st2 st1 (fun l hl => hk l (List.mem_cons_of_mem _ hl)) h]
      exact headerStep_title_other lib st st2 text (hk text (List.mem_cons_self _ _)) hs

theorem parseHeader_ok_fold {lib : Lib} {sc : Scanner} (h : (parseHeader lib sc).2.2 = none) :
    ∃ st, foldSteps lib (headerBlock sc.lines) HeaderState.init = .ok st ∧
      (parseHeader lib sc).2.1 = st.article := by
  rw [parseHeader_eq] at h ⊢
  cases hf : foldSteps lib (headerBlock sc.lines) HeaderState.init with
  | error e => rw [hf] at h; simp at h
  | ok st =>
    rw [hf] at h
    refine ⟨st, rfl, ?_⟩
    simp only at h ⊢
    cases hE : (parseHeaderLoop lib (sc.lines.length + 1) sc HeaderState.init).1.Err with
    | some e => rw [hE] at h; simp at h
    | none =>
      rw [hE] at h
      simp only at h ⊢
      by_cases hc : (!st.seenTitle || !st.seenPublished) = true
      · rw [if_pos hc] at h; simp at h
      · rw [if_neg hc]

/-- C10: when the header block has a line without a colon and no date line before it fails to
parse, `parseHeader` returns the empty article and `ErrBrokenHeader`, whatever other lines the
block has. A line is split at its first colon only: `SplitN` of `k:v` with no colon in `k` is
`k` and the whole of `v`, and when `parseHeader` succeeds the title is the trimmed whole rest
behind the first colon of the last title line. -/
theorem parseHeader_broken_header (lib : Lib) (sc : Scanner) :
    (∀ pre bad post, headerBlock sc.lines = pre ++ bad :: post → hasColon bad = false →
      (∀ l ∈ pre, badDate lib l = false) →
      (parseHeader lib sc).2 = (Article.empty, some Error.ErrBrokenHeader)) ∧
    (∀ k v : String, ':' ∉ k.data → SplitN (k ++ ":" ++ v) = [k, v]) ∧
    (∀ pre text post (k v : String), headerBlock sc.lines = pre ++ text :: post →
      TrimSpace text = k ++ ":" ++ v → ':' ∉ k.data →
      lib.ToLower (TrimSpace k) = "title" →
      (∀ l ∈ post, headerKey lib l ≠ some "title") →
      (parseHeader lib sc).2.2 = none →
      (parseHeader lib sc).2.1.Title = TrimSpace v) := by
  have hsplit : ∀ k v : String, ':' ∉ k.data →
      splitFirstColon (k ++ ":" ++ v).data = some (k.data, v.data) := by
    intro k v hk
    have : (k ++ ":" ++ v).data = k.data ++ ':' :: v.data := by
      simp [String.data_append]
    rw [this]
    exact splitFirstColon_append k.data v.data hk
  refine ⟨?_, ?_, ?_⟩
  · intro pre bad post hb hbad hd
    rw [parseHeader_eq, hb, foldSteps_broken lib bad post hbad pre _ hd]
  · intro k v hk
    unfold SplitN
    rw [hsplit k v hk]
  · intro pre text post k v hb ht hk hkey hpost hok
    obtain ⟨st, hf, hart⟩ := parseHeader_ok_fold hok
    rw [hart]
    rw [hb, foldSteps_append] at hf
    cases h1 : foldSteps lib pre HeaderState.init with
    | error e => rw [h1] at hf; cases hf
    | ok st1 =>
      rw [h1] at hf
      simp only [foldSteps] at hf
      have hs : splitFirstColon (TrimSpace text).data = some (k.data, v.data) := by
        rw [ht]; exact hsplit k v hk
      obtain ⟨_, _, hstep⟩ := headerStep_colon lib st1 text k.data v.data hs
      rw [hstep, if_pos hkey] at hf
      simp only at hf
      rw [foldSteps_title_other lib post _ st hpost hf]

theorem parseHeader_broken_header_witness :
    (parseHeader Lib.plain (Scanner.ofLines
      ["title: a", "date: 2020-01-02 03:04:05", "not-a-kv-pair", "tags: x"])).2 =
        (Article.empty, some Error.ErrBrokenHeader) ∧
    (parseHeader Lib.plain (Scanner.ofLines
      ["date: 2020-01-02 03:04:05", " Title : 12:30: a story ", "", "x"])).2.1.Title =
        TrimSpace " 12:30: a story" :=
  ⟨(parseHeader_broken_header Lib.plain (Scanner.ofLines
      ["title: a", "date: 2020-01-02 03:04:05", "not-a-kv-pair", "tags: x"])).1
      ["title: a", "date: 2020-01-02 03:04:05"] "not-a-kv-pair" ["tags: x"]
      (by decide) (by decide) (by decide),
   (parseHeader_broken_header Lib.plain (Scanner.ofLines
      ["date: 2020-01-02 03:04:05", " Title : 12:30: a story ", "", "x"])).2.2
      ["date: 2020-01-02 03:04:05"] " Title : 12:30: a story " [] "Title " " 12:30: a story"
      (by decide) (by decide) (by decide) (by decide) (by decide) (by decide)⟩

/-! ### Where the header ends -/

theorem headerBlock_append (block : List String) (blank : String) (body : List String)
    (hblock : ∀ l ∈ block, TrimSpace l ≠ "") (hblank : TrimSpace blank = "") :
    headerBlock (block ++ blank :: body) = block := by
  unfold headerBlock
  induction block with
  | nil => simp [List.takeWhile_cons, hblank]
  | cons l rest ih =>
    have h1 := hblock l (List.mem_cons_self _ _)
    rw [List.cons_append, List.takeWhile_cons]
    simp only [h1, ne_eq, not_false_eq_true, decide_True, if_true]
    rw [ih (fun x hx => hblock x (List.mem_cons_of_mem _ hx))]

theorem headerBlock_all (lines : List String) (h : ∀ l ∈ lines, TrimSpace l ≠ "") :
    headerBlock lines = lines := by
  unfold headerBlock
  rw [List.takeWhile_eq_self_iff]
  intro l hl
  simpa using h l hl

theorem Scan_cons_cons (sc : Scanner) (l x : String) (xs : List String)
    (h : sc.lines = l :: x :: xs) : sc.Scan = (some l, { sc with lines := x :: xs }) := by
  unfold Scanner.Scan
  rw [h]

/-- The scanner the loop of `parseHeader` leaves when it ends at a blank line. -/
theorem parseHeaderLoop_at_blank (lib : Lib) (blank : String) (body : List String)
    (hblank : TrimSpace blank = "") :
    ∀ (block : List String) (fuel : Nat) (sc : Scanner) (st st1 : HeaderState),
      sc.lines = block ++ blank :: body → (block ++ blank :: body).length < fuel →
      (∀ l ∈ block, TrimSpace l ≠ "") → foldSteps lib block st = .ok st1 →
      (parseHeaderLoop lib fuel sc st).1.lines = body ∧
      (parseHeaderLoop lib fuel sc st).1.readErr = sc.readErr ∧
      (parseHeaderLoop lib fuel sc st).1.errWithLast = sc.errWithLast ∧
      (sc.err = none → (body ≠ [] ∨ sc.errWithLast = false ∨ sc.readErr = none) →
        (parseHeaderLoop lib fuel sc st).1.err = none) := by
  intro block
  induction block with
  | nil =>
    intro fuel sc st st1 hl hf _ _
    cases fuel with
    | zero => simp at hf
    | succ n =>
      rw [List.nil_append] at hl
      unfold parseHeaderLoop Scanner.Scan
      rw [hl]
      cases body with
      | nil =>
        simp only [hblank, if_true]
        refine ⟨trivial, trivial, trivial, ?_⟩
        intro he hc
        rcases hc with hc | hc | hc
        · exact absurd rfl hc
        · simp [hc, he]
        · simp [hc, he, Option.orElse]
      | cons b bs =>
        simp only [hblank, if_true]
        exact ⟨trivial, trivial, trivial, fun he _ => he⟩
  | cons l rest ih =>
    intro fuel sc st st1 hl hf hb hfold
    cases fuel with
    | zero => simp at hf
    | succ n =>
      have hl1 := hb l (List.mem_cons_self _ _)
      simp only [foldSteps] at hfold
      cases hs : headerStep lib st (TrimSpace l) with
      | error e => rw [hs] at hfold; cases hfold
      | ok st2 =>
        rw [hs] at hfold
        obtain ⟨sc1, h1, h2, h3, h4⟩ := Scan_cons sc l (rest ++ blank :: body) hl
        have h5 : sc1.errWithLast = sc.errWithLast ∧ (sc.err = none → sc1.err = none) := by
          have : sc.Scan = (some l, { sc with lines := rest ++ blank :: body }) := by
            cases hr : rest ++ blank :: body with
            | nil => simp at hr
            | cons x xs =>
              rw [List.cons_append, hr] at hl
              exact Scan_cons_cons sc l x xs hl
          rw [this] at h1
          simp only [Prod.mk.injEq, true_and] at h1
          rw [← h1]
          exact ⟨rfl, fun he => he⟩
        have := ih n sc1 st2 st1 h2
          (by simp only [List.cons_append, List.length_cons] at hf; omega)
          (fun x hx => hb x (List.mem_cons_of_mem _ hx)) hfold
        simp only [parseHeaderLoop, h1, hl1, if_false, hs]
        refine ⟨this.1, by rw [this.2.1, h3], by rw [this.2.2.1, h5.1], ?_⟩
        intro he hc
        apply this.2.2.2 (h5.2 he)
        rw [h5.1, h3]
        exact hc

/-- The scanner the loop of `parseHeader` leaves when the input has no blank line. -/
theorem parseHeaderLoop_no_blank (lib : Lib) :
    ∀ (lines : List String) (fuel : Nat) (sc : Scanner) (st st1 : HeaderState),
      sc.lines = lines → lines.length < fuel →
      (∀ l ∈ lines, TrimSpace l ≠ "") → foldSteps lib lines st = .ok st1 →
      (parseHeaderLoop lib fuel sc st).1.lines = [] := by
  intro lines
  induction lines with
  | nil =>
    intro fuel sc st st1 hl hf _ _
    cases fuel with
    | zero => simp at hf
    | succ n =>
      obtain ⟨sc1, h1, h2, _⟩ := Scan_nil sc hl
      simp only [parseHeaderLoop, h1]
      exact h2
  | cons l rest ih =>
    intro fuel sc st st1 hl hf hb hfold
    cases fuel with
    | zero => simp at hf
    | succ n =>
      have hl1 := hb l (List.mem_cons_self _ _)
      simp only [foldSteps] at hfold
      cases hs : headerStep lib st (TrimSpace l) with
      | error e => rw [hs] at hfold; cases hfold
      | ok st2 =>
        rw [hs] at hfold
        obtain ⟨sc1, h1, h2, _, _⟩ := Scan_cons sc l rest hl
        simp only [parseHeaderLoop, h1, hl1, if_false, hs]
        exact ih n sc1 st2 st1 h2 (by simp only [List.length_cons] at hf; omega)
          (fun x hx => hb x (List.mem_cons_of_mem _ hx)) hfold

theorem parseHeader_fst (lib : Lib) (sc : Scanner) :
    (parseHeader lib sc).1 = (parseHeaderLoop lib (sc.lines.length + 1) sc HeaderState.init).1 := by
  unfold parseHeader
  rcases parseHeaderLoop lib (sc.lines.length + 1) sc HeaderState.init with ⟨sc1, r⟩
  cases r with
  | error e => rfl
  | ok st =>
    simp only
    cases sc1.Err with
    | some e => rfl
    | none =>
      simp only
      split <;> rfl

/-- What a successful `parseHeader` went through. -/
theorem parseHeader_ok_inv {lib : Lib} {sc : Scanner} (h : (parseHeader lib sc).2.2 = none) :
    ∃ st, foldSteps lib (headerBlock sc.lines) HeaderState.init = .ok st ∧
      (parseHeaderLoop lib (sc.lines.length + 1) sc HeaderState.init).1.Err = none ∧
      st.seenTitle = true ∧ st.seenPublished = true ∧
      (parseHeader lib sc).2.1 = st.article := by
  obtain ⟨st, hf, hart⟩ := parseHeader_ok_fold h
  rw [parseHeader_eq, hf] at h
  simp only at h
  cases hE : (parseHeaderLoop lib (sc.lines.length + 1) sc HeaderState.init).1.Err with
  | some e => rw [hE] at h; simp at h
  | none =>
    rw [hE] at h
    simp only at h
    by_cases hc : (!st.seenTitle || !st.seenPublished) = true
    · rw [if_pos hc] at h; simp at h
    · refine ⟨st, hf, rfl, ?_, ?_, hart⟩
      · cases h1 : st.seenTitle <;> simp [h1] at hc ⊢
      · cases h1 : st.seenPublished <;> simp [h1] at hc ⊢

/-- The result of `parseHeader` when the loop ends without an error of the scanner. -/
theorem parseHeader_of_fold {lib : Lib} {sc : Scanner}
    (hE : (parseHeaderLoop lib (sc.lines.length + 1) sc HeaderState.init).1.Err = none) :
    (parseHeader lib sc).2 =
      match foldSteps lib (headerBlock sc.lines) HeaderState.init with
      | .error err => (Article.empty, some err)
      | .ok st =>
        if !st.seenTitle || !st.seenPublished then
          (Article.empty, some Error.ErrMissingMandatoryHeaders)
        else (st.article, none) := by
  rw [parseHeader_eq]
  cases foldSteps lib (headerBlock sc.lines) HeaderState.init with
  | error e => rfl
  | ok st => simp only [hE]

theorem ofLines_loop_err (lib : Lib) (lines : List String) :
    (parseHeaderLoop lib ((Scanner.ofLines lines).lines.length + 1) (Scanner.ofLines lines)
      HeaderState.init).1.Err = none :=
  (parseHeaderLoop_result lib (Scanner.ofLines lines).lines _ (Scanner.ofLines lines)
    HeaderState.init rfl (Nat.lt_succ_self _)).2 rfl rfl

/-- C11: when the lines of the input are a block of lines that are not empty once trimmed, a
line that is, and a body, the header block is that block; `parseHeader` returns what it
returns for the block alone, whatever the body holds (given that no read error is met with the
blank line), and on success leaves the scanner at the first line of the body, the blank line
consumed; `parseText` then reads exactly the body. With no blank line every line is header and
the scanner is left at the end. -/
theorem parseHeader_ends_at_first_blank (lib : Lib) (sc : Scanner) :
    (∀ block blank body, sc.lines = block ++ blank :: body →
      (∀ l ∈ block, TrimSpace l ≠ "") → TrimSpace blank = "" →
      headerBlock sc.lines = block ∧
      (sc.err = none → (body ≠ [] ∨ sc.errWithLast = false ∨ sc.readErr = none) →
        (parseHeader lib sc).2 = (parseHeader lib (Scanner.ofLines block)).2) ∧
      ((parseHeader lib sc).2.2 = none →
        (parseHeader lib sc).2 = (parseHeader lib (Scanner.ofLines block)).2 ∧
        (parseHeader lib sc).1 = { sc with lines := body, err := none } ∧
        parseArticleFrom lib sc =
          match parseText lib { sc with lines := body, err := none }
              (parseHeader lib (Scanner.ofLines block)).2.1 with
          | (_, _, some err) => (Article.empty, some err)
          | (_, article, none) => (article, none))) ∧
    ((∀ l ∈ sc.lines, TrimSpace l ≠ "") →
      headerBlock sc.lines = sc.lines ∧
      ((parseHeader lib sc).2.2 = none → (parseHeader lib sc).1.lines = [])) := by
  constructor
  · intro block blank body hl hblock hblank
    have hhb : headerBlock sc.lines = block := by
      rw [hl]; exact headerBlock_append block blank body hblock hblank
    have hhb2 : headerBlock (Scanner.ofLines block).lines = block :=
      headerBlock_all block hblock
    have hof := parseHeader_of_fold (ofLines_loop_err lib block)
    rw [hhb2] at hof
    refine ⟨hhb, ?_, ?_⟩
    · intro he hc
      rw [hof, parseHeader_eq, hhb]
      cases hf : foldSteps lib block HeaderState.init with
      | error e => rfl
      | ok st =>
        have hloop := parseHeaderLoop_at_blank lib blank body hblank block
          (sc.lines.length + 1) sc HeaderState.init st hl
          (by rw [← hl]; exact Nat.lt_succ_self _) hblock hf
        have hE : (parseHeaderLoop lib (sc.lines.length + 1) sc HeaderState.init).1.Err = none :=
          hloop.2.2.2 he hc
        simp only [hE]
    · intro hok
      obtain ⟨st, hf, hE, _, _, _⟩ := parseHeader_ok_inv hok
      rw [hhb] at hf
      have hloop := parseHeaderLoop_at_blank lib blank body hblank block
        (sc.lines.length + 1) sc HeaderState.init st hl
        (by rw [← hl]; exact Nat.lt_succ_self _) hblock hf
      have heq : (parseHeader lib sc).2 = (parseHeader lib (Scanner.ofLines block)).2 := by
        rw [hof, parseHeader_of_fold hE, hhb]
      have hsc : (parseHeader lib sc).1 = { sc with lines := body, err := none } := by
        rw [parseHeader_fst]
        rcases hd : (parseHeaderLoop lib (sc.lines.length + 1) sc HeaderState.init).1 with
          ⟨x1, x2, x3, x4⟩
        rw [hd] at hloop hE
        simp only [Scanner.Err] at hloop hE
        rw [hloop.1, hloop.2.1, hloop.2.2.1, hE]
      refine ⟨heq, hsc, ?_⟩
      unfold parseArticleFrom
      rcases hp : parseHeader lib sc with ⟨p1, p2, p3⟩
      rw [hp] at hok hsc heq
      simp only at hok hsc heq
      subst hok
      simp only
      rw [hsc, ← heq]
  · intro hall
    refine ⟨headerBlock_all sc.lines hall, ?_⟩
    intro hok
    obtain ⟨st, hf, _, _, _, _⟩ := parseHeader_ok_inv hok
    rw [headerBlock_all sc.lines hall] at hf
    rw [parseHeader_fst]
    exact parseHeaderLoop_no_blank lib sc.lines _ sc HeaderState.init st rfl
      (Nat.lt_succ_self _) hall hf

/-! ### The loop of `parseText` -/

theorem orElse_orElse (x r : Option Error) :
    (x.orElse fun _ => r).orElse (fun _ => r) = x.orElse fun _ => r := by
  cases x <;> cases r <;> rfl

/-- The loop of `parseText` computes `textFold` over the lines of the scanner; when it ends
without an error the scanner has met the end of the input. -/
theorem parseTextLoop_result (lib : Lib) :
    ∀ (lines : List String) (fuel : Nat) (sc : Scanner) (b : String) (a : Article),
      sc.lines = lines → lines.length < fuel →
        (parseTextLoop lib fuel sc b a).2 = textFold lib lines b a ∧
        ((parseTextLoop lib fuel sc b a).2.2.2 = none →
          (parseTextLoop lib fuel sc b a).1.Err = sc.err.orElse fun _ => sc.readErr) := by
  intro lines
  induction lines with
  | nil =>
    intro fuel sc b a hl hf
    cases fuel with
    | zero => simp at hf
    | succ n =>
      unfold parseTextLoop Scanner.Scan
      rw [hl]
      exact ⟨rfl, fun _ => rfl⟩
  | cons l rest ih =>
    intro fuel sc b a hl hf
    cases fuel with
    | zero => simp at hf
    | succ n =>
      have hn : rest.length < n := by simp only [List.length_cons] at hf; omega
      have hscan : ∃ sc1, sc.Scan = (some l, sc1) ∧ sc1.lines = rest ∧
          (sc1.err.orElse fun _ => sc1.readErr) = sc.err.orElse fun _ => sc.readErr := by
        unfold Scanner.Scan
        rw [hl]
        cases rest with
        | nil =>
          refine ⟨_, rfl, rfl, ?_⟩
          simp only
          by_cases hw : sc.errWithLast = true
          · rw [if_pos hw]; exact orElse_orElse _ _
          · rw [if_neg hw]
        | cons x xs => exact ⟨_, rfl, rfl, rfl⟩
      obtain ⟨sc1, h1, h2, h3⟩ := hscan
      simp only [parseTextLoop, h1, textFold]
      cases hm : reMoreMatch l with
      | true =>
        simp only [if_true]
        rcases hp : markdownParse lib b with ⟨html, e⟩
        cases e with
        | some e => exact ⟨rfl, fun h => by simp at h⟩
        | none =>
          simp only
          have := ih n sc1 b { a with SummaryHtml := html } h2 hn
          exact ⟨this.1, fun h => by rw [this.2 h, h3]⟩
      | false =>
        simp only [Bool.false_eq_true, if_false]
        have := ih n sc1 (b ++ l ++ "\n") a h2 hn
        exact ⟨this.1, fun h => by rw [this.2 h, h3]⟩

theorem parseText_eq (lib : Lib) (sc : Scanner) (a : Article) :
    (parseText lib sc a).2 =
      match textFold lib sc.lines "" a with
      | (_, a1, some err) => (a1, some err)
      | (b, a1, none) =>
        match sc.err.orElse fun _ => sc.readErr with
        | some err => (a1, some err)
        | none =>
          match markdownParse lib b with
          | (html, some err) => ({ a1 with FullHtml := html }, some err)
          | (html, none) => ({ a1 with FullHtml := html }, none) := by
  obtain ⟨h1, h2⟩ := parseTextLoop_result lib sc.lines (sc.lines.length + 1) sc "" a rfl
    (Nat.lt_succ_self _)
  unfold parseText
  rcases hl : parseTextLoop lib (sc.lines.length + 1) sc "" a with ⟨sc1, b, a1, e⟩
  rw [hl] at h1 h2
  simp only at h1 h2
  rw [← h1]
  cases e with
  | some e => rfl
  | none =>
    simp only
    rw [← h2 rfl]
    cases sc1.Err with
    | some e => rfl
    | none =>
      simp only
      rcases markdownParse lib b with ⟨html, e2⟩
      cases e2 <;> rfl

/-- When the loop body of `parseText` ends without an error, the builder holds the text of
the lines, and the article is changed in `SummaryHtml` only. -/
theorem textFold_ok (lib : Lib) :
    ∀ (lines : List String) (b b1 : String) (a a1 : Article),
      textFold lib lines b a = (b1, a1, none) →
        b1 = b ++ bodyText lines ∧ a1 = { a with SummaryHtml := a1.SummaryHtml } := by
  intro lines
  induction lines with
  | nil =>
    intro b b1 a a1 h
    simp only [textFold, Prod.mk.injEq, and_true] at h
    rw [← h.1, ← h.2]
    exact ⟨(String.append_empty b).symm, rfl⟩
  | cons l rest ih =>
    intro b b1 a a1 h
    simp only [textFold, bodyText] at h ⊢
    cases hm : reMoreMatch l with
    | true =>
      simp only [hm, if_true] at h ⊢
      rcases hp : markdownParse lib b with ⟨html, e⟩
      rw [hp] at h
      cases e with
      | some e => simp at h
      | none =>
        simp only at h
        obtain ⟨h1, h2⟩ := ih _ _ _ _ h
        refine ⟨h1, ?_⟩
        rw [h2]
    | false =>
      simp only [hm, Bool.false_eq_true, if_false] at h ⊢
      obtain ⟨h1, h2⟩ := ih _ _ _ _ h
      refine ⟨?_, h2⟩
      rw [h1, String.append_assoc, String.append_assoc, String.append_assoc]

theorem textFold_append (lib : Lib) (l2 : List String) :
    ∀ (l1 : List String) (b : String) (a : Article),
      textFold lib (l1 ++ l2) b a =
        match textFold lib l1 b a with
        | (b1, a1, none) => textFold lib l2 b1 a1
        | (b1, a1, some err) => (b1, a1, some err) := by
  intro l1
  induction l1 with
  | nil => intro b a; rfl
  | cons l rest ih =>
    intro b a
    simp only [List.cons_append, textFold]
    cases hm : reMoreMatch l with
    | true =>
      simp only [if_true]
      rcases hp : markdownParse lib b with ⟨html, e⟩
      cases e with
      | some e => rfl
      | none => exact ih _ _
    | false =>
      simp only [Bool.false_eq_true, if_false]
      exact ih _ _

theorem textFold_no_marker (lib : Lib) :
    ∀ (lines : List String) (b : String) (a : Article),
      (∀ l ∈ lines, reMoreMatch l = false) →
        textFold lib lines b a = (b ++ bodyText lines, a, none) := by
  intro lines
  induction lines with
  | nil => intro b a _; simp only [textFold, bodyText, String.append_empty]
  | cons l rest ih =>
    intro b a h
    have hl := h l (List.mem_cons_self _ _)
    simp only [textFold, bodyText, hl, Bool.false_eq_true, if_false]
    rw [ih _ _ (fun x hx => h x (List.mem_cons_of_mem _ hx))]
    rw [String.append_assoc, String.append_assoc, String.append_assoc]

theorem bodyText_append (l2 : List String) :
    ∀ l1 : List String, bodyText (l1 ++ l2) = bodyText l1 ++ bodyText l2 := by
  intro l1
  induction l1 with
  | nil => simp only [List.nil_append, bodyText, String.empty_append]
  | cons l rest ih =>
    simp only [List.cons_append, bodyText]
    cases hm : reMoreMatch l with
    | true => simp only [if_true]; exact ih
    | false =>
      simp only [Bool.false_eq_true, if_false]
      have ih2 : bodyText (rest.append l2) = bodyText rest ++ bodyText l2 := ih
      rw [ih2, String.append_assoc, String.append_assoc, String.append_assoc]

theorem markdownParse_ok {lib : Lib} {s html : String}
    (h : markdownParse lib s = (html, none)) : lib.Convert s = .ok html := by
  unfold markdownParse at h
  cases hc : lib.Convert s with
  | error e => rw [hc] at h; simp at h
  | ok x => rw [hc] at h; simp only [Prod.mk.injEq, and_true] at h; rw [h]

/-- What a successful `parseText` went through. -/
theorem parseText_ok_inv {lib : Lib} {sc sc1 : Scanner} {a a1 : Article}
    (h : parseText lib sc a = (sc1, a1, none)) :
    ∃ a2, textFold lib sc.lines "" a = (bodyText sc.lines, a2, none) ∧
      lib.Convert (bodyText sc.lines) = .ok a1.FullHtml ∧
      a1 = { a2 with FullHtml := a1.FullHtml } := by
  have h1 := parseText_eq lib sc a
  rw [h] at h1
  simp only at h1
  rcases hf : textFold lib sc.lines "" a with ⟨b, a2, e⟩
  rw [hf] at h1
  cases e with
  | some e => simp at h1
  | none =>
    obtain ⟨hb, _⟩ := textFold_ok lib sc.lines "" b a a2 hf
    rw [String.empty_append] at hb
    subst hb
    simp only at h1
    cases he : sc.err.orElse (fun _ => sc.readErr) with
    | some e => rw [he] at h1; simp at h1
    | none =>
      rw [he] at h1
      simp only at h1
      rcases hp : markdownParse lib (bodyText sc.lines) with ⟨html, e2⟩
      rw [hp] at h1
      cases e2 with
      | some e => simp at h1
      | none =>
        simp only [Prod.mk.injEq, and_true] at h1
        refine ⟨a2, rfl, ?_, ?_⟩
        · rw [h1]; exact markdownParse_ok hp
        · rw [h1]

theorem parseArticleFrom_ok_inv {lib : Lib} {sc : Scanner} {art : Article}
    (h : parseArticleFrom lib sc = (art, none)) :
    (parseHeader lib sc).2.2 = none ∧
      ∃ sc2, parseText lib (parseHeader lib sc).1 (parseHeader lib sc).2.1 = (sc2, art, none) := by
  unfold parseArticleFrom at h
  rcases hp : parseHeader lib sc with ⟨p1, p2, p3⟩
  rw [hp] at h
  cases p3 with
  | some e => simp at h
  | none =>
    simp only at h ⊢
    rcases ht : parseText lib p1 p2 with ⟨t1, t2, t3⟩
    rw [ht] at h
    cases t3 with
    | some e => simp at h
    | none =>
      simp only [Prod.mk.injEq, and_true] at h
      exact ⟨trivial, t1, by rw [h]⟩

/-! ### The claims about `parseText` -/

/-- C12: on success of `parseText` the field `FullHtml` is the rendering of the text of the
body: the lines the scanner holds that are not markers, each followed by a line feed, in
order; a marker adds nothing to that text and the text before it stays in it. The same holds
for `ParseArticle` with the lines `parseHeader` left. -/
theorem parseText_full_html (lib : Lib) (sc sc1 : Scanner) (a a1 : Article)
    (h : parseText lib sc a = (sc1, a1, none)) :
    lib.Convert (bodyText sc.lines) = .ok a1.FullHtml ∧
    (∀ pre m post, reMoreMatch m = true →
      bodyText (pre ++ m :: post) = bodyText pre ++ bodyText post) ∧
    (∀ pre l post, reMoreMatch l = false →
      bodyText (pre ++ l :: post) = bodyText pre ++ (l ++ "\n" ++ bodyText post)) ∧
    (∀ sc0 art, parseArticleFrom lib sc0 = (art, none) →
      lib.Convert (bodyText (parseHeader lib sc0).1.lines) = .ok art.FullHtml) := by
  refine ⟨?_, ?_, ?_, ?_⟩
  · obtain ⟨_, _, h2, _⟩ := parseText_ok_inv h
    exact h2
  · intro pre m post hm
    rw [bodyText_append]
    simp only [bodyText, hm, if_true]
  · intro pre l post hl
    rw [bodyText_append]
    simp only [bodyText, hl, Bool.false_eq_true, if_false]
  · intro sc0 art h0
    obtain ⟨_, sc2, h2⟩ := parseArticleFrom_ok_inv h0
    obtain ⟨_, _, h3, _⟩ := parseText_ok_inv h2
    exact h3

/-- The loop body of `parseHeader` leaves the slug and the two rendered texts alone. -/
theorem headerStep_frame {lib : Lib} {st st1 : HeaderState} {line : String}
    (h : headerStep lib st line = .ok st1) :
    st1.article.Slug = st.article.Slug ∧ st1.article.SummaryHtml = st.article.SummaryHtml ∧
      st1.article.FullHtml = st.article.FullHtml := by
  unfold headerStep at h
  split at h
  · simp only at h
    split at h
    · cases h; exact ⟨rfl, rfl, rfl⟩
    · split at h
      · cases h; exact ⟨rfl, rfl, rfl⟩
      · split at h
        · split at h
          · cases h; exact ⟨rfl, rfl, rfl⟩
          · cases h
        · split at h
          · cases h; exact ⟨rfl, rfl, rfl⟩
          · cases h; exact ⟨rfl, rfl, rfl⟩
  · cases h

theorem foldSteps_frame (lib : Lib) :
    ∀ (block : List String) (st st1 : HeaderState), foldSteps lib block st = .ok st1 →
      st1.article.Slug = st.article.Slug ∧ st1.article.SummaryHtml = st.article.SummaryHtml ∧
        st1.article.FullHtml = st.article.FullHtml := by
  intro block
  induction block with
  | nil => intro st st1 h; simp only [foldSteps] at h; cases h; exact ⟨rfl, rfl, rfl⟩
  | cons l rest ih =>
    intro st st1 h
    simp only [foldSteps] at h
    cases hs : headerStep lib st (TrimSpace l) with
    | error e => rw [hs] at h; cases h
    | ok st2 =>
      rw [hs] at h
      obtain ⟨h1, h2, h3⟩ := ih st2 st1 h
      obtain ⟨g1, g2, g3⟩ := headerStep_frame hs
      exact ⟨h1.trans g1, h2.trans g2, h3.trans g3⟩

theorem parseHeader_ok_frame {lib : Lib} {sc : Scanner} (h : (parseHeader lib sc).2.2 = none) :
    (parseHeader lib sc).2.1.Slug = "" ∧ (parseHeader lib sc).2.1.SummaryHtml = "" ∧
      (parseHeader lib sc).2.1.FullHtml = "" := by
  obtain ⟨st, hf, hart⟩ := parseHeader_ok_fold h
  rw [hart]
  exact foldSteps_frame lib _ _ _ hf

/-- The summary after a body whose last marker stands behind the lines `p`. -/
theorem textFold_summary (lib : Lib) (p : List String) (m : String) (post : List String)
    (hm : reMoreMatch m = true) (hpost : ∀ l ∈ post, reMoreMatch l = false)
    (b b1 : String) (a a1 : Article)
    (h : textFold lib (p ++ m :: post) b a = (b1, a1, none)) :
    lib.Convert (b ++ bodyText p) = .ok a1.SummaryHtml := by
  rw [textFold_append] at h
  rcases hp : textFold lib p b a with ⟨b2, a2, e⟩
  rw [hp] at h
  cases e with
  | some e => simp at h
  | none =>
    obtain ⟨hb, _⟩ := textFold_ok lib p b b2 a a2 hp
    simp only [textFold, hm, if_true] at h
    rcases hmd : markdownParse lib b2 with ⟨html, e2⟩
    rw [hmd] at h
    cases e2 with
    | some e => simp at h
    | none =>
      simp only at h
      rw [textFold_no_marker lib post b2 _ hpost] at h
      simp only [Prod.mk.injEq, and_true] at h
      rw [← hb, ← h.2]
      exact markdownParse_ok hmd

/-- C13: on success of `parseText`, `SummaryHtml` is left as it was when no line of the body
is a marker, and otherwise is the rendering of the text of the lines before the last marker
(a marker with no marker behind it), earlier markers adding nothing to that text. A parsed
article therefore has an empty `SummaryHtml` when its body has no marker. -/
theorem parseText_summary_html (lib : Lib) (sc sc1 : Scanner) (a a1 : Article)
    (h : parseText lib sc a = (sc1, a1, none)) :
    ((∀ l ∈ sc.lines, reMoreMatch l = false) → a1.SummaryHtml = a.SummaryHtml) ∧
    (∀ p m post, sc.lines = p ++ m :: post → reMoreMatch m = true →
      (∀ l ∈ post, reMoreMatch l = false) →
      lib.Convert (bodyText p) = .ok a1.SummaryHtml) ∧
    (∀ sc0 art, parseArticleFrom lib sc0 = (art, none) →
      ((∀ l ∈ (parseHeader lib sc0).1.lines, reMoreMatch l = false) → art.SummaryHtml = "") ∧
      (∀ p m post, (parseHeader lib sc0).1.lines = p ++ m :: post → reMoreMatch m = true →
        (∀ l ∈ post, reMoreMatch l = false) →
        lib.Convert (bodyText p) = .ok art.SummaryHtml)) := by
  have key : ∀ (s s1 : Scanner) (x x1 : Article), parseText lib s x = (s1, x1, none) →
      ((∀ l ∈ s.lines, reMoreMatch l = false) → x1.SummaryHtml = x.SummaryHtml) ∧
      (∀ p m post, s.lines = p ++ m :: post → reMoreMatch m = true →
        (∀ l ∈ post, reMoreMatch l = false) →
        lib.Convert (bodyText p) = .ok x1.SummaryHtml) := by
    intro s s1 x x1 hx
    obtain ⟨a2, hf, _, ha1⟩ := parseText_ok_inv hx
    have hs : x1.SummaryHtml = a2.SummaryHtml := by rw [ha1]
    constructor
    · intro hno
      rw [textFold_no_marker lib s.lines "" x hno] at hf
      simp only [Prod.mk.injEq, and_true] at hf
      rw [hs, ← hf.2]
    · intro p m post hl hm hpost
      rw [hl] at hf
      have := textFold_summary lib p m post hm hpost "" _ x a2 hf
      rw [String.empty_append] at this
      rw [hs]
      exact this
  refine ⟨(key sc sc1 a a1 h).1, (key sc sc1 a a1 h).2, ?_⟩
  intro sc0 art h0
  obtain ⟨hok, sc2, h2⟩ := parseArticleFrom_ok_inv h0
  obtain ⟨_, hsum, _⟩ := parseHeader_ok_frame hok
  refine ⟨?_, (key _ _ _ _ h2).2⟩
  intro hno
  rw [(key _ _ _ _ h2).1 hno, hsum]

theorem parseHeader_ends_at_first_blank_witness :
    headerBlock (NewScanner ⟨"Title: a\ndate: 2020-01-02 03:04:05\n \t\ntitle: x\nno colon\n",
        none⟩).lines = ["Title: a", "date: 2020-01-02 03:04:05"] ∧
    (parseHeader Lib.plain (NewScanner
        ⟨"Title: a\ndate: 2020-01-02 03:04:05\n \t\ntitle: x\nno colon\n", none⟩)).2 =
      ({ Article.empty with Title := "a" }, none) ∧
    (parseHeader Lib.plain (NewScanner
        ⟨"Title: a\ndate: 2020-01-02 03:04:05\n \t\ntitle: x\nno colon\n", none⟩)).1 =
      { NewScanner ⟨"Title: a\ndate: 2020-01-02 03:04:05\n \t\ntitle: x\nno colon\n", none⟩ with
        lines := ["title: x", "no colon"], err := none } :=
  have h := (parseHeader_ends_at_first_blank Lib.plain (NewScanner
    ⟨"Title: a\ndate: 2020-01-02 03:04:05\n \t\ntitle: x\nno colon\n", none⟩)).1
    ["Title: a", "date: 2020-01-02 03:04:05"] " \t" ["title: x", "no colon"]
    (by decide) (by decide) (by decide)
  ⟨h.1, by decide, (h.2.2 (by decide)).2.1⟩

theorem parseText_full_html_witness :
    Lib.plain.Convert (bodyText (NewScanner ⟨"before\n~~~more~~~\nafter\n", none⟩).lines) =
      .ok "before\nafter\n" :=
  (parseText_full_html Lib.plain (NewScanner ⟨"before\n~~~more~~~\nafter\n", none⟩)
    { NewScanner ⟨"before\n~~~more~~~\nafter\n", none⟩ with lines := [] }
    Article.empty
    { Article.empty with SummaryHtml := "before\n", FullHtml := "before\nafter\n" } rfl).1

theorem parseText_summary_html_witness :
    parseText Lib.plain (NewScanner ⟨"a\n~~more~~\nb\n~~more~~\nc\n", none⟩) Article.empty =
      ({ NewScanner ⟨"a\n~~more~~\nb\n~~more~~\nc\n", none⟩ with lines := [] },
        { Article.empty with SummaryHtml := "a\nb\n", FullHtml := "a\nb\nc\n" }, none) ∧
    Lib.plain.Convert (bodyText ["a", "~~more~~", "b"]) = .ok "a\nb\n" :=
  ⟨rfl,
    (parseText_summary_html Lib.plain (NewScanner ⟨"a\n~~more~~\nb\n~~more~~\nc\n", none⟩)
      { NewScanner ⟨"a\n~~more~~\nb\n~~more~~\nc\n", none⟩ with lines := [] }
      Article.empty
      { Article.empty with SummaryHtml := "a\nb\n", FullHtml := "a\nb\nc\n" } rfl).2.1
      ["a", "~~more~~", "b"] "~~more~~" ["c"] rfl (by decide) (by decide)⟩

/-! ### The marker pattern -/

theorem mem_char (a : Char) (x : List Char) : x ∈ (RegularExpression.char a).matches' ↔ x = [a] := by
  rw [RegularExpression.matches'_char]
  exact Set.mem_singleton_iff

theorem mem_reSpace (x : List Char) :
    x ∈ reSpace.matches' ↔ ∃ c, x = [c] ∧ isReSpace c := by
  unfold reSpace isReSpace
  simp only [RegularExpression.matches'_add, Language.mem_add, mem_char]
  constructor
  · intro h
    rcases h with (((h | h) | h) | h) | h <;> subst h <;> exact ⟨_, rfl, by simp⟩
  · rintro ⟨c, rfl, h⟩
    rcases h with h | h | h | h | h <;> subst h <;> simp

theorem mem_reLetter (a b : Char) (x : List Char) :
    x ∈ (reLetter a b).matches' ↔ ∃ c, x = [c] ∧ (c = a ∨ c = b) := by
  unfold reLetter
  simp only [RegularExpression.matches'_add, Language.mem_add, mem_char]
  constructor
  · intro h
    rcases h with h | h <;> subst h <;> exact ⟨_, rfl, by simp⟩
  · rintro ⟨c, rfl, h⟩
    rcases h with h | h <;> subst h <;> simp

/-- The star of a class of characters holds the texts made of characters of the class. -/
theorem mem_star_class (P : RegularExpression Char) (p : Char → Prop)
    (hP : ∀ x, x ∈ P.matches' ↔ ∃ c, x = [c] ∧ p c) (x : List Char) :
    x ∈ P.star.matches' ↔ ∀ c ∈ x, p c := by
  rw [RegularExpression.matches'_star, Language.mem_kstar]
  constructor
  · rintro ⟨L, rfl, hL⟩ c hc
    rw [List.mem_flatten] at hc
    obtain ⟨y, hy, hcy⟩ := hc
    obtain ⟨d, rfl, hd⟩ := (hP y).1 (hL y hy)
    rw [List.mem_singleton] at hcy
    rw [hcy]; exact hd
  · intro h
    refine ⟨x.map (fun c => [c]), ?_, ?_⟩
    · induction x with
      | nil => rfl
      | cons c cs ih =>
        simp only [List.map_cons, List.flatten_cons, List.singleton_append]
        rw [← ih (fun d hd => h d (List.mem_cons_of_mem _ hd))]
    · intro y hy
      obtain ⟨c, hc, rfl⟩ := List.mem_map.1 hy
      exact (hP _).2 ⟨c, rfl, h c hc⟩

theorem mem_reTildes (x : List Char) :
    x ∈ reTildes.matches' ↔ ∃ n, 2 ≤ n ∧ x = List.replicate n '~' := by
  unfold reTildes
  simp only [RegularExpression.matches'_mul, Language.mem_mul, mem_char]
  have hs : ∀ y : List Char, y ∈ (RegularExpression.char '~').star.matches' ↔ ∀ c ∈ y, c = '~' :=
    mem_star_class (RegularExpression.char '~') (fun c => c = '~')
      (fun y => by
        rw [mem_char]
        constructor
        · intro h; exact ⟨'~', h, rfl⟩
        · rintro ⟨c, rfl, rfl⟩; rfl)
  constructor
  · rintro ⟨a, rfl, b, ⟨c, rfl, d, hd, rfl⟩, rfl⟩
    refine ⟨d.length + 2, by omega, ?_⟩
    have : d = List.replicate d.length '~' := List.eq_replicate_iff.2 ⟨rfl, (hs d).1 hd⟩
    conv_lhs => rw [this]
    simp [List.replicate_succ]
  · rintro ⟨n, hn, rfl⟩
    obtain ⟨k, rfl⟩ : ∃ k, n = k + 2 := ⟨n - 2, by omega⟩
    refine ⟨['~'], rfl, '~' :: List.replicate k '~', ⟨['~'], rfl, List.replicate k '~', ?_, rfl⟩,
      by simp [List.replicate_succ]⟩
    rw [hs]
    intro c hc
    exact List.eq_of_mem_replicate hc

theorem mem_reMore (x : List Char) :
    x ∈ reMore.matches' ↔
      ∃ (ws1 : List Char) (n1 : Nat) (c1 c2 c3 c4 : Char) (n2 : Nat) (ws2 : List Char),
        x = ws1 ++ (List.replicate n1 '~' ++ ([c1, c2, c3, c4] ++
          (List.replicate n2 '~' ++ ws2))) ∧
        (∀ c ∈ ws1, isReSpace c) ∧ 2 ≤ n1 ∧
        (c1 = 'm' ∨ c1 = 'M') ∧ (c2 = 'o' ∨ c2 = 'O') ∧ (c3 = 'r' ∨ c3 = 'R') ∧
        (c4 = 'e' ∨ c4 = 'E') ∧
        2 ≤ n2 ∧ (∀ c ∈ ws2, isReSpace c) := by
  have hsp := mem_star_class reSpace isReSpace mem_reSpace
  unfold reMore
  simp only [RegularExpression.matches'_mul, Language.mem_mul, mem_reLetter, mem_reTildes, hsp]
  constructor
  · rintro ⟨_, ⟨_, ⟨_, ⟨ws1, hws1, _, ⟨n1, hn1, rfl⟩, rfl⟩, _,
      ⟨_, ⟨_, ⟨_, ⟨c1, rfl, h1⟩, _, ⟨c2, rfl, h2⟩, rfl⟩, _, ⟨c3, rfl, h3⟩, rfl⟩, _,
        ⟨c4, rfl, h4⟩, rfl⟩, rfl⟩, _, ⟨n2, hn2, rfl⟩, rfl⟩, ws2, hws2, rfl⟩
    exact ⟨ws1, n1, c1, c2, c3, c4, n2, ws2, by simp [List.append_assoc], hws1, hn1, h1, h2, h3,
      h4, hn2, hws2⟩
  · rintro ⟨ws1, n1, c1, c2, c3, c4, n2, ws2, rfl, hws1, hn1, h1, h2, h3, h4, hn2, hws2⟩
    refine ⟨ws1 ++ List.replicate n1 '~' ++ [c1, c2, c3, c4] ++ List.replicate n2 '~',
      ⟨ws1 ++ List.replicate n1 '~' ++ [c1, c2, c3, c4],
        ⟨ws1 ++ List.replicate n1 '~', ⟨ws1, hws1, _, ⟨n1, hn1, rfl⟩, rfl⟩, [c1, c2, c3, c4],
          ⟨[c1, c2, c3], ⟨[c1, c2], ⟨[c1], ⟨c1, rfl, h1⟩, [c2], ⟨c2, rfl, h2⟩, rfl⟩, [c3],
            ⟨c3, rfl, h3⟩, rfl⟩, [c4], ⟨c4, rfl, h4⟩, rfl⟩, rfl⟩,
        _, ⟨n2, hn2, rfl⟩, rfl⟩, ws2, hws2, by simp [List.append_assoc]⟩

/-- C14: `reMore` matches a line exactly when the line is white space of the class `\s`, two
or more tildes, the letters m, o, r, e each in either case, two or more tildes and white
space of that class, with nothing else; the lines `~~MoRe~~~` and `  ~~more~~ ` are markers,
the lines `~more~`, `~~more`, `~~ more ~~` and `x ~~more~~` are not. -/
theorem reMore_matches_iff (line : String) :
    (reMoreMatch line = true ↔ isMarkerLine line) ∧
    reMoreMatch "~~MoRe~~~" = true ∧ reMoreMatch "  ~~more~~ " = true ∧
    reMoreMatch "~more~" = false ∧ reMoreMatch "~~more" = false ∧
    reMoreMatch "~~ more ~~" = false ∧ reMoreMatch "x ~~more~~" = false := by
  refine ⟨?_, by decide, by decide, by decide, by decide, by decide, by decide⟩
  unfold reMoreMatch isMarkerLine
  rw [RegularExpression.rmatch_iff_matches', mem_reMore]

/-! ### Tags -/

theorem dropWhile_head (p : Char → Bool) :
    ∀ l : List Char, ∀ c, (l.dropWhile p).head? = some c → p c = false := by
  intro l
  induction l with
  | nil => intro c h; simp at h
  | cons x xs ih =>
    intro c h
    rw [List.dropWhile_cons] at h
    by_cases hx : p x = true
    · rw [if_pos hx] at h; exact ih c h
    · rw [if_neg hx] at h
      simp only [List.head?_cons, Option.some.injEq] at h
      rw [← h]; simpa using hx

/-- A text is what `trimRight` leaves of it, followed by white space. -/
theorem trimRight_append (l : List Char) :
    ∃ t, l = trimRight l ++ t ∧ ∀ c ∈ t, isSpace c = true := by
  refine ⟨(l.reverse.takeWhile isSpace).reverse, ?_, ?_⟩
  · unfold trimRight
    rw [← List.reverse_append, List.takeWhile_append_dropWhile, List.reverse_reverse]
  · intro c hc
    rw [List.mem_reverse] at hc
    exact List.mem_takeWhile_imp hc

theorem trimRight_last (l : List Char) :
    ∀ c, (trimRight l).getLast? = some c → isSpace c = false := by
  intro c h
  unfold trimRight at h
  rw [List.getLast?_reverse] at h
  exact dropWhile_head isSpace _ c h

theorem trimRight_head (l : List Char) (c : Char) (h : (trimRight l).head? = some c) :
    l.head? = some c := by
  obtain ⟨t, ht, _⟩ := trimRight_append l
  cases hr : trimRight l with
  | nil => rw [hr] at h; simp at h
  | cons x xs =>
    rw [hr] at h ht
    rw [ht]
    simpa using h

theorem mem_trimRight {l : List Char} {c : Char} (h : c ∈ trimRight l) : c ∈ l := by
  obtain ⟨t, ht, _⟩ := trimRight_append l
  rw [ht]
  exact List.mem_append_left _ h

theorem mem_TrimSpace {s : String} {c : Char} (h : c ∈ (TrimSpace s).data) : c ∈ s.data := by
  unfold TrimSpace at h
  exact (List.dropWhile_sublist _).subset (mem_trimRight h)

theorem TrimSpace_head (s : String) (c : Char) (h : (TrimSpace s).data.head? = some c) :
    isSpace c = false := by
  unfold TrimSpace at h
  exact dropWhile_head isSpace s.data c (trimRight_head _ c h)

theorem TrimSpace_last (s : String) (c : Char) (h : (TrimSpace s).data.getLast? = some c) :
    isSpace c = false := by
  unfold TrimSpace at h
  exact trimRight_last _ c h

theorem splitComma_no_comma : ∀ (cs : List Char), ∀ p ∈ splitComma cs, ',' ∉ p := by
  intro cs
  induction cs with
  | nil => intro p hp; simp [splitComma] at hp; simp [hp]
  | cons c rest ih =>
    intro p hp
    unfold splitComma at hp
    by_cases hc : c = ','
    · rw [if_pos hc] at hp
      rcases List.mem_cons.1 hp with h | h
      · simp [h]
      · exact ih p h
    · rw [if_neg hc] at hp
      cases hs : splitComma rest with
      | nil =>
        rw [hs] at hp
        simp only [List.mem_singleton] at hp
        rw [hp]
        simpa using fun h : ',' = c => hc h.symm
      | cons q qs =>
        rw [hs] at hp
        simp only at hp
        rcases List.mem_cons.1 hp with h | h
        · rw [h]
          have hq := ih q (by rw [hs]; exact List.mem_cons_self _ _)
          intro hm
          rcases List.mem_cons.1 hm with h2 | h2
          · exact hc h2.symm
          · exact hq h2
        · exact ih p (by rw [hs]; exact List.mem_cons_of_mem _ h)

theorem mem_addTags :
    ∀ (parts : List (List Char)) (acc : List String) (t : String),
      t ∈ addTags acc parts ↔ t ∈ acc ∨ (t ≠ "" ∧ ∃ p ∈ parts, t = TrimSpace ⟨p⟩) := by
  intro parts
  induction parts with
  | nil => intro acc t; simp [addTags]
  | cons q qs ih =>
    intro acc t
    simp only [addTags]
    by_cases hq : TrimSpace ⟨q⟩ = ""
    · simp only [hq, ne_eq, not_true_eq_false, if_false]
      rw [ih]
      constructor
      · rintro (h | ⟨h1, p, hp, h2⟩)
        · exact Or.inl h
        · exact Or.inr ⟨h1, p, List.mem_cons_of_mem _ hp, h2⟩
      · rintro (h | ⟨h1, p, hp, h2⟩)
        · exact Or.inl h
        · rcases List.mem_cons.1 hp with h3 | h3
          · rw [h3, hq] at h2; exact absurd h2 h1
          · exact Or.inr ⟨h1, p, h3, h2⟩
    · simp only [hq, ne_eq, not_false_eq_true, if_true]
      rw [ih]
      by_cases hm : TrimSpace ⟨q⟩ ∈ acc
      · rw [if_pos hm]
        constructor
        · rintro (h | ⟨h1, p, hp, h2⟩)
          · exact Or.inl h
          · exact Or.inr ⟨h1, p, List.mem_cons_of_mem _ hp, h2⟩
        · rintro (h | ⟨h1, p, hp, h2⟩)
          · exact Or.inl h
          · rcases List.mem_cons.1 hp with h3 | h3
            · rw [h3] at h2; rw [h2]; exact Or.inl hm
            · exact Or.inr ⟨h1, p, h3, h2⟩
      · rw [if_neg hm]
        constructor
        · rintro (h | ⟨h1, p, hp, h2⟩)
          · rcases List.mem_append.1 h with h3 | h3
            · exact Or.inl h3
            · rw [List.mem_singleton] at h3
              exact Or.inr ⟨by rw [h3]; exact hq, q, List.mem_cons_self _ _, h3⟩
          · exact Or.inr ⟨h1, p, List.mem_cons_of_mem _ hp, h2⟩
        · rintro (h | ⟨h1, p, hp, h2⟩)
          · exact Or.inl (List.mem_append_left _ h)
          · rcases List.mem_cons.1 hp with h3 | h3
            · rw [h3] at h2
              exact Or.inl (List.mem_append_right _ (by simp [h2]))
            · exact Or.inr ⟨h1, p, h3, h2⟩

theorem nodup_addTags :
    ∀ (parts : List (List Char)) (acc : List String), acc.Nodup → (addTags acc parts).Nodup := by
  intro parts
  induction parts with
  | nil => intro acc h; exact h
  | cons q qs ih =>
    intro acc h
    simp only [addTags]
    by_cases hq : TrimSpace ⟨q⟩ = ""
    · simp only [hq, ne_eq, not_true_eq_false, if_false]
      exact ih acc h
    · simp only [hq, ne_eq, not_false_eq_true, if_true]
      apply ih
      by_cases hm : TrimSpace ⟨q⟩ ∈ acc
      · rw [if_pos hm]; exact h
      · rw [if_neg hm]
        rw [List.nodup_append]
        refine ⟨h, List.nodup_singleton _, ?_⟩
        intro x hx hx2
        rw [List.mem_singleton] at hx2
        rw [hx2] at hx
        exact hm hx

theorem splitTags_clean (s t : String) (h : t ∈ splitTags s) : cleanTag t := by
  unfold splitTags at h
  rw [mem_addTags] at h
  rcases h with h | ⟨h1, p, hp, h2⟩
  · simp at h
  · refine ⟨h1, ?_, ?_, ?_⟩
    · rw [h2]; exact TrimSpace_head _
    · rw [h2]; exact TrimSpace_last _
    · rw [h2]
      intro hc
      exact splitComma_no_comma s.data p hp (mem_TrimSpace hc)

/-- The tags a header leaves are the empty map or the result of `splitTags`. -/
theorem headerStep_tags {lib : Lib} {st st1 : HeaderState} {line : String}
    (h : headerStep lib st line = .ok st1) :
    st1.article.Tags = st.article.Tags ∨ ∃ v, st1.article.Tags = splitTags v := by
  unfold headerStep at h
  split at h
  · simp only at h
    split at h
    · cases h; exact Or.inl rfl
    · split at h
      · cases h; exact Or.inr ⟨_, rfl⟩
      · split at h
        · split at h
          · cases h; exact Or.inl rfl
          · cases h
        · split at h
          · cases h; exact Or.inl rfl
          · cases h; exact Or.inl rfl
  · cases h

theorem foldSteps_tags (lib : Lib) :
    ∀ (block : List String) (st st1 : HeaderState), foldSteps lib block st = .ok st1 →
      st1.article.Tags = st.article.Tags ∨ ∃ v, st1.article.Tags = splitTags v := by
  intro block
  induction block with
  | nil => intro st st1 h; simp only [foldSteps] at h; cases h; exact Or.inl rfl
  | cons l rest ih =>
    intro st st1 h
    simp only [foldSteps] at h
    cases hs : headerStep lib st (TrimSpace l) with
    | error e => rw [hs] at h; cases h
    | ok st2 =>
      rw [hs] at h
      rcases ih st2 st1 h with h1 | h1
      · rcases headerStep_tags hs with h2 | h2
        · exact Or.inl (h1.trans h2)
        · obtain ⟨v, hv⟩ := h2
          exact Or.inr ⟨v, h1.trans hv⟩
      · exact Or.inr h1

/-- `parseText` changes the two rendered texts only. -/
theorem parseText_fields {lib : Lib} {sc sc1 : Scanner} {a a1 : Article}
    (h : parseText lib sc a = (sc1, a1, none)) :
    a1.Slug = a.Slug ∧ a1.Published = a.Published ∧ a1.Hidden = a.Hidden ∧
      a1.Title = a.Title ∧ a1.Tags = a.Tags := by
  obtain ⟨a2, hf, _, ha1⟩ := parseText_ok_inv h
  obtain ⟨_, ha2⟩ := textFold_ok lib _ _ _ _ _ hf
  rw [ha1, ha2]
  exact ⟨rfl, rfl, rfl, rfl, rfl⟩

/-- The header fields of a parsed article are those `parseHeader` returned. -/
theorem parseArticleFrom_fields {lib : Lib} {sc : Scanner} {art : Article}
    (h : parseArticleFrom lib sc = (art, none)) :
    (parseHeader lib sc).2.2 = none ∧
      art.Published = (parseHeader lib sc).2.1.Published ∧
      art.Hidden = (parseHeader lib sc).2.1.Hidden ∧
      art.Title = (parseHeader lib sc).2.1.Title ∧
      art.Tags = (parseHeader lib sc).2.1.Tags ∧ art.Slug = "" := by
  obtain ⟨hok, sc2, h2⟩ := parseArticleFrom_ok_inv h
  obtain ⟨h3, h4, h5, h6, h7⟩ := parseText_fields h2
  obtain ⟨h8, _, _⟩ := parseHeader_ok_frame hok
  exact ⟨hok, h4, h5, h6, h7, h3.trans h8⟩

/-- C15: `splitTags` returns exactly the non-empty results of trimming the pieces of its
argument between commas, each once; so a tag is never empty, has no white space at either end
and no comma, and the tags of every parsed article are such tags, each once. -/
theorem splitTags_trimmed_pieces (s : String) :
    (∀ t, t ∈ splitTags s ↔ t ≠ "" ∧ ∃ p ∈ splitComma s.data, t = TrimSpace ⟨p⟩) ∧
    (splitTags s).Nodup ∧
    (∀ t ∈ splitTags s, cleanTag t) ∧
    splitTags "a, b ,a,, c" = ["a", "b", "c"] ∧
    (∀ lib sc art, parseArticleFrom lib sc = (art, none) →
      art.Tags.Nodup ∧ ∀ t ∈ art.Tags, cleanTag t) := by
  refine ⟨?_, ?_, ?_, by decide, ?_⟩
  · intro t
    unfold splitTags
    rw [mem_addTags]
    simp
  · exact nodup_addTags _ [] List.nodup_nil
  · exact fun t ht => splitTags_clean s t ht
  · intro lib sc art h
    obtain ⟨hok, _, _, _, htags, _⟩ := parseArticleFrom_fields h
    obtain ⟨st, hf, hart⟩ := parseHeader_ok_fold hok
    rw [htags, hart]
    rcases foldSteps_tags lib _ _ _ hf with h1 | ⟨v, h1⟩
    · rw [h1]
      exact ⟨List.nodup_nil, fun t ht => by simp [HeaderState.init, Article.empty] at ht⟩
    · rw [h1]
      exact ⟨nodup_addTags _ [] List.nodup_nil, fun t ht => splitTags_clean v t ht⟩

theorem splitTags_trimmed_pieces_witness :
    parseArticleFrom Lib.plain (NewScanner
        ⟨"title: t\ndate: 2020-01-02 03:04:05\ntags: a, b ,a,, c\n\nx\n", none⟩) =
      ({ Article.empty with Title := "t", Tags := ["a", "b", "c"], FullHtml := "x\n" }, none) ∧
    ["a", "b", "c"].Nodup ∧ ∀ t ∈ ["a", "b", "c"], cleanTag t :=
  ⟨rfl, (splitTags_trimmed_pieces "").2.2.2.2 Lib.plain (NewScanner
      ⟨"title: t\ndate: 2020-01-02 03:04:05\ntags: a, b ,a,, c\n\nx\n", none⟩)
      { Article.empty with Title := "t", Tags := ["a", "b", "c"], FullHtml := "x\n" } rfl⟩

/-! ### The slug -/

theorem splitDot_ne_nil : ∀ cs : List Char, splitDot cs ≠ [] := by
  intro cs
  cases cs with
  | nil => simp [splitDot]
  | cons c rest =>
    unfold splitDot
    by_cases hc : c = '.'
    · rw [if_pos hc]; simp
    · rw [if_neg hc]
      cases splitDot rest <;> simp

theorem joinDot_cons_cons (c : Char) (p : List Char) (ps : List (List Char)) :
    joinDot ((c :: p) :: ps) = c :: joinDot (p :: ps) := by
  cases ps with
  | nil => rfl
  | cons q qs => rfl

theorem joinDot_splitDot : ∀ cs : List Char, joinDot (splitDot cs) = cs := by
  intro cs
  induction cs with
  | nil => rfl
  | cons c rest ih =>
    unfold splitDot
    by_cases hc : c = '.'
    · rw [if_pos hc]
      cases hs : splitDot rest with
      | nil => exact absurd hs (splitDot_ne_nil rest)
      | cons q qs =>
        rw [hs] at ih
        simp only [joinDot, List.nil_append, ih, hc]
    · rw [if_neg hc]
      cases hs : splitDot rest with
      | nil => exact absurd hs (splitDot_ne_nil rest)
      | cons q qs =>
        rw [hs] at ih
        simp only
        rw [joinDot_cons_cons, ih]

theorem splitDot_no_dot : ∀ (cs : List Char), ∀ p ∈ splitDot cs, '.' ∉ p := by
  intro cs
  induction cs with
  | nil => intro p hp; simp [splitDot] at hp; simp [hp]
  | cons c rest ih =>
    intro p hp
    unfold splitDot at hp
    by_cases hc : c = '.'
    · rw [if_pos hc] at hp
      rcases List.mem_cons.1 hp with h | h
      · simp [h]
      · exact ih p h
    · rw [if_neg hc] at hp
      cases hs : splitDot rest with
      | nil => exact absurd hs (splitDot_ne_nil rest)
      | cons q qs =>
        rw [hs] at hp
        simp only at hp
        rcases List.mem_cons.1 hp with h | h
        · rw [h]
          have hq := ih q (by rw [hs]; exact List.mem_cons_self _ _)
          intro hm
          rcases List.mem_cons.1 hm with h2 | h2
          · exact hc h2.symm
          · exact hq h2
        · exact ih p (by rw [hs]; exact List.mem_cons_of_mem _ h)

theorem splitDot_of_no_dot : ∀ cs : List Char, '.' ∉ cs → splitDot cs = [cs] := by
  intro cs
  induction cs with
  | nil => intro _; rfl
  | cons c rest ih =>
    intro h
    have hc : c ≠ '.' := fun h2 => h (by simp [h2])
    have hr : '.' ∉ rest := fun h2 => h (List.mem_cons_of_mem _ h2)
    unfold splitDot
    rw [if_neg hc, ih hr]

theorem splitDot_length : ∀ cs : List Char, '.' ∈ cs → 2 ≤ (splitDot cs).length := by
  intro cs
  induction cs with
  | nil => intro h; simp at h
  | cons c rest ih =>
    intro h
    unfold splitDot
    by_cases hc : c = '.'
    · rw [if_pos hc]
      have := List.length_pos.2 (splitDot_ne_nil rest)
      simp only [List.length_cons]
      omega
    · rw [if_neg hc]
      have hr : '.' ∈ rest := by
        rcases List.mem_cons.1 h with h2 | h2
        · exact absurd h2.symm hc
        · exact h2
      have := ih hr
      cases hs : splitDot rest with
      | nil => exact absurd hs (splitDot_ne_nil rest)
      | cons q qs =>
        rw [hs] at this
        simpa using this

theorem joinDot_append_last :
    ∀ (xs : List (List Char)) (e : List Char), xs ≠ [] →
      joinDot (xs ++ [e]) = joinDot xs ++ '.' :: e := by
  intro xs
  induction xs with
  | nil => intro e h; exact absurd rfl h
  | cons x rest ih =>
    intro e _
    cases rest with
    | nil => simp [joinDot]
    | cons y ys =>
      have h1 := ih e (by simp)
      show x ++ '.' :: joinDot ((y :: ys) ++ [e]) = (x ++ '.' :: joinDot (y :: ys)) ++ '.' :: e
      rw [h1]
      simp

/-- A text with a dot is the join of all its pieces but the last, a dot, and the last piece,
which has no dot. -/
theorem split_at_last_dot (cs : List Char) (h : '.' ∈ cs) :
    ∃ ext, '.' ∉ ext ∧ cs = joinDot (splitDot cs).dropLast ++ '.' :: ext := by
  have hne := splitDot_ne_nil cs
  have hlen := splitDot_length cs h
  refine ⟨(splitDot cs).getLast hne, splitDot_no_dot cs _ (List.getLast_mem hne), ?_⟩
  have hd : (splitDot cs).dropLast ≠ [] := by
    intro h0
    have := congrArg List.length h0
    rw [List.length_dropLast] at this
    simp at this
    omega
  rw [← joinDot_append_last _ _ hd, List.dropLast_append_getLast hne, joinDot_splitDot]

/-- The place of the last dot of a text is determined. -/
theorem last_dot_unique {l1 l2 e1 e2 : List Char} (h1 : '.' ∉ e1) (h2 : '.' ∉ e2)
    (h : l1 ++ '.' :: e1 = l2 ++ '.' :: e2) : l1 = l2 := by
  rw [List.append_eq_append_iff] at h
  rcases h with ⟨a, ha, hb⟩ | ⟨a, ha, hb⟩
  · cases a with
    | nil => simp at ha; exact ha.symm
    | cons x xs =>
      simp only [List.cons_append, List.cons.injEq] at hb
      exfalso
      apply h1
      rw [hb.2]
      simp
  · cases a with
    | nil => simp at ha; exact ha
    | cons x xs =>
      simp only [List.cons_append, List.cons.injEq] at hb
      exfalso
      apply h2
      rw [hb.2]
      simp

theorem afterLastSlash_no_slash : ∀ cs : List Char, '/' ∉ afterLastSlash cs := by
  intro cs
  induction cs with
  | nil => simp [afterLastSlash]
  | cons c rest ih =>
    unfold afterLastSlash
    by_cases h : '/' ∈ c :: rest
    · rw [if_pos h]; exact ih
    · rw [if_neg h]; exact h

theorem Base_no_slash (filename : String) (h : '.' ∈ (Base filename).data) :
    '/' ∉ (Base filename).data := by
  unfold Base at h ⊢
  by_cases h1 : filename = ""
  · rw [if_pos h1]; decide
  · rw [if_neg h1] at h ⊢
    simp only at h ⊢
    by_cases h2 : afterLastSlash (stripSlashes filename.data) = []
    · rw [if_pos h2] at h
      exact absurd h (by decide)
    · rw [if_neg h2]
      exact afterLastSlash_no_slash _

theorem LoadArticle_ok_inv {lib : Lib} {fs : String → Except Error Reader} {filename : String}
    {art : Article} (h : LoadArticle lib fs filename = (art, none)) :
    ∃ f a, fs filename = .ok f ∧ ParseArticle lib f = (a, none) ∧
      art = { a with Slug := slugOf filename } := by
  unfold LoadArticle at h
  simp only at h
  cases hf : fs filename with
  | error e => rw [hf] at h; simp at h
  | ok f =>
    rw [hf] at h
    simp only at h
    rcases hp : ParseArticle lib f with ⟨a, e⟩
    rw [hp] at h
    cases e with
    | some e => simp at h
    | none =>
      simp only [Prod.mk.injEq, and_true] at h
      exact ⟨f, a, rfl, hp, h.symm⟩

/-- C16: when the base name of the path has a dot, the slug `LoadArticle` derives is the base
name up to its last dot: the base name is the slug, a dot and an extension without a dot, so
earlier dots are in the slug; the slug has no slash, and a successful `LoadArticle` returns
it. -/
theorem slugOf_drops_last_extension (filename : String) (h : '.' ∈ (Base filename).data) :
    (∃ ext, '.' ∉ ext ∧ (Base filename).data = (slugOf filename).data ++ '.' :: ext) ∧
    '/' ∉ (slugOf filename).data ∧
    (∀ lib fs art, LoadArticle lib fs filename = (art, none) → art.Slug = slugOf filename) ∧
    slugOf "2020-01-02.my-post.md" = "2020-01-02.my-post" := by
  obtain ⟨ext, he, hb⟩ := split_at_last_dot (Base filename).data h
  refine ⟨⟨ext, he, hb⟩, ?_, ?_, by decide⟩
  · intro hs
    apply Base_no_slash filename h
    rw [hb]
    exact List.mem_append_left _ hs
  · intro lib fs art hl
    obtain ⟨f, a, _, _, ha⟩ := LoadArticle_ok_inv hl
    rw [ha]

theorem slugOf_drops_last_extension_witness :
    (∃ ext, '.' ∉ ext ∧ (Base "articles/2020-01-02.my-post.md").data =
      (slugOf "articles/2020-01-02.my-post.md").data ++ '.' :: ext) ∧
    '/' ∉ (slugOf "articles/2020-01-02.my-post.md").data ∧
    (LoadArticle Lib.plain sampleFs "articles/2020-01-02.my-post.md").1.Slug =
      "2020-01-02.my-post" :=
  have h := slugOf_drops_last_extension "articles/2020-01-02.my-post.md" (by decide)
  ⟨h.1, h.2.1, h.2.2.1 Lib.plain sampleFs
    (LoadArticle Lib.plain sampleFs "articles/2020-01-02.my-post.md").1 rfl⟩

/-- C17, the claim as stated fails: the file `articles/README` loads, and its slug is
empty. -/
theorem LoadArticle_empty_slug :
    (LoadArticle Lib.plain sampleFs "articles/README").2 = none ∧
      (LoadArticle Lib.plain sampleFs "articles/README").1.Slug = "" := by
  decide

/-- C17, amended: on success `LoadArticle` returns the slug derived from the path, and that
slug is not empty exactly when the base name of the path is a non-empty stem, a dot and an
extension without a dot. -/
theorem LoadArticle_slug_nonempty_iff (lib : Lib) (fs : String → Except Error Reader)
    (filename : String) (art : Article) (h : LoadArticle lib fs filename = (art, none)) :
    art.Slug = slugOf filename ∧ (art.Slug ≠ "" ↔ hasStem filename) := by
  obtain ⟨f, a, _, _, ha⟩ := LoadArticle_ok_inv h
  have hs : art.Slug = slugOf filename := by rw [ha]
  refine ⟨hs, ?_⟩
  rw [hs]
  unfold hasStem
  constructor
  · intro hne
    by_cases hd : '.' ∈ (Base filename).data
    · obtain ⟨ext, he, hb⟩ := split_at_last_dot _ hd
      refine ⟨(slugOf filename).data, ext, ?_, he, hb⟩
      intro h0
      apply hne
      cases hsl : slugOf filename
      rw [hsl] at h0
      simp only at h0
      rw [h0]
    · exfalso
      apply hne
      unfold slugOf
      rw [splitDot_of_no_dot _ hd]
      rfl
  · rintro ⟨stem, ext, hst, he, hb⟩ h0
    have hd : '.' ∈ (Base filename).data := by rw [hb]; simp
    obtain ⟨ext2, he2, hb2⟩ := split_at_last_dot _ hd
    have h1 : (slugOf filename).data = [] := by rw [h0]
    have hb3 : (Base filename).data = (slugOf filename).data ++ '.' :: ext2 := hb2
    rw [h1, hb] at hb3
    exact hst (last_dot_unique he he2 hb3)

theorem LoadArticle_slug_nonempty_iff_witness :
    (LoadArticle Lib.plain sampleFs "articles/2020-01-02.my-post.md").1.Slug =
      slugOf "articles/2020-01-02.my-post.md" ∧
    ((LoadArticle Lib.plain sampleFs "articles/2020-01-02.my-post.md").1.Slug ≠ "" ↔
      hasStem "articles/2020-01-02.my-post.md") :=
  LoadArticle_slug_nonempty_iff Lib.plain sampleFs "articles/2020-01-02.my-post.md"
    (LoadArticle Lib.plain sampleFs "articles/2020-01-02.my-post.md").1 rfl

/-! ### Title and hidden flag -/

/-- The loop body of `parseHeader` on a line, by the key of the line. -/
theorem headerStep_cases {lib : Lib} {st st1 : HeaderState} {text : String}
    (h : headerStep lib st (TrimSpace text) = .ok st1) :
    ∃ key v, headerKey lib text = some key ∧ headerValue text = some v ∧
      ((key = "title" ∧
          st1 = { st with article := { st.article with Title := v }, seenTitle := true }) ∨
       (key ≠ "title" ∧ key = "tags" ∧
          st1 = { st with article := { st.article with Tags := splitTags v } }) ∨
       (key ≠ "title" ∧ key ≠ "tags" ∧ key = "date" ∧ ∃ t, parseDate lib v = .ok t ∧
          st1 = { st with article := { st.article with Published := t },
                          seenPublished := true }) ∨
       (key ≠ "title" ∧ key ≠ "tags" ∧ key ≠ "date" ∧ key = "hidden" ∧
          st1 = { st with article := { st.article with Hidden := lib.ToLower v = "yes" } }) ∨
       (key ≠ "title" ∧ key ≠ "tags" ∧ key ≠ "date" ∧ key ≠ "hidden" ∧ st1 = st)) := by
  cases hc : hasColon text with
  | false => rw [headerStep_noColon lib st text hc] at h; cases h
  | true =>
    obtain ⟨k, v, hs⟩ := hasColon_split hc
    obtain ⟨hk, hv, hstep⟩ := headerStep_colon lib st text k v hs
    refine ⟨_, _, hk, hv, ?_⟩
    rw [hstep] at h
    by_cases h1 : lib.ToLower (TrimSpace ⟨k⟩) = "title"
    · rw [if_pos h1] at h
      cases h
      exact Or.inl ⟨h1, rfl⟩
    · rw [if_neg h1] at h
      by_cases h2 : lib.ToLower (TrimSpace ⟨k⟩) = "tags"
      · rw [if_pos h2] at h
        cases h
        exact Or.inr (Or.inl ⟨h1, h2, rfl⟩)
      · rw [if_neg h2] at h
        by_cases h3 : lib.ToLower (TrimSpace ⟨k⟩) = "date"
        · rw [if_pos h3] at h
          cases hp : parseDate lib (TrimSpace ⟨v⟩) with
          | error e => rw [hp] at h; cases h
          | ok t =>
            rw [hp] at h
            cases h
            exact Or.inr (Or.inr (Or.inl ⟨h1, h2, h3, t, rfl, rfl⟩))
        · rw [if_neg h3] at h
          by_cases h4 : lib.ToLower (TrimSpace ⟨k⟩) = "hidden"
          · rw [if_pos h4] at h
            cases h
            exact Or.inr (Or.inr (Or.inr (Or.inl ⟨h1, h2, h3, h4, rfl⟩)))
          · rw [if_neg h4] at h
            cases h
            exact Or.inr (Or.inr (Or.inr (Or.inr ⟨h1, h2, h3, h4, rfl⟩)))

/-- A line with the key `hidden` sets `Hidden` from its value; another line leaves it. -/
theorem headerStep_hidden {lib : Lib} {st st1 : HeaderState} {text : String}
    (h : headerStep lib st (TrimSpace text) = .ok st1) :
    (headerKey lib text = some "hidden" ∧ ∃ v, headerValue text = some v ∧
        st1.article.Hidden = decide (lib.ToLower v = "yes")) ∨
    (headerKey lib text ≠ some "hidden" ∧ st1.article.Hidden = st.article.Hidden) := by
  obtain ⟨key, v, hk, hv, hc⟩ := headerStep_cases h
  rw [hk]
  rcases hc with ⟨h1, rfl⟩ | ⟨_, h2, rfl⟩ | ⟨_, _, h3, t, _, rfl⟩ | ⟨_, _, _, h4, rfl⟩ |
      ⟨_, _, _, h4, rfl⟩
  · exact Or.inr ⟨by rw [h1]; decide, rfl⟩
  · exact Or.inr ⟨by rw [h2]; decide, rfl⟩
  · exact Or.inr ⟨by rw [h3]; decide, rfl⟩
  · exact Or.inl ⟨by rw [h4], v, hv, rfl⟩
  · exact Or.inr ⟨by simpa using h4, rfl⟩

/-- A line with the key `title` sets the title to its value and records it; another line
leaves both. -/
theorem headerStep_title {lib : Lib} {st st1 : HeaderState} {text : String}
    (h : headerStep lib st (TrimSpace text) = .ok st1) :
    (headerKey lib text = some "title" ∧ ∃ v, headerValue text = some v ∧
        st1.article.Title = v ∧ st1.seenTitle = true) ∨
    (headerKey lib text ≠ some "title" ∧ st1.article.Title = st.article.Title ∧
        st1.seenTitle = st.seenTitle) := by
  obtain ⟨key, v, hk, hv, hc⟩ := headerStep_cases h
  rw [hk]
  rcases hc with ⟨h1, rfl⟩ | ⟨h1, _, rfl⟩ | ⟨h1, _, _, t, _, rfl⟩ | ⟨h1, _, _, _, rfl⟩ |
      ⟨h1, _, _, _, rfl⟩
  · exact Or.inl ⟨by rw [h1], v, hv, rfl, rfl⟩
  · exact Or.inr ⟨by simpa using h1, rfl, rfl⟩
  · exact Or.inr ⟨by simpa using h1, rfl, rfl⟩
  · exact Or.inr ⟨by simpa using h1, rfl, rfl⟩
  · exact Or.inr ⟨by simpa using h1, rfl, rfl⟩

theorem foldSteps_hidden_other (lib : Lib) :
    ∀ (block : List String) (st st1 : HeaderState),
      (∀ l ∈ block, headerKey lib l ≠ some "hidden") → foldSteps lib block st = .ok st1 →
      st1.article.Hidden = st.article.Hidden := by
  intro block
  induction block with
  | nil => intro st st1 _ h; simp only [foldSteps] at h; cases h; rfl
  | cons text rest ih =>
    intro st st1 hk h
    simp only [foldSteps] at h
    cases hs : headerStep lib st (TrimSpace text) with
    | error e => rw [hs] at h; cases h
    | ok st2 =>
      rw [hs] at h
      rw [ih st2 st1 (fun l hl => hk l (List.mem_cons_of_mem _ hl)) h]
      rcases headerStep_hidden hs with ⟨h1, _⟩ | ⟨_, h2⟩
      · exact absurd h1 (hk text (List.mem_cons_self _ _))
      · exact h2

/-- Without a title line the loop records no title. -/
theorem foldSteps_seenTitle_other (lib : Lib) :
    ∀ (block : List String) (st st1 : HeaderState),
      (∀ l ∈ block, headerKey lib l ≠ some "title") → foldSteps lib block st = .ok st1 →
      st1.seenTitle = st.seenTitle := by
  intro block
  induction block with
  | nil => intro st st1 _ h; simp only [foldSteps] at h; cases h; rfl
  | cons text rest ih =>
    intro st st1 hk h
    simp only [foldSteps] at h
    cases hs : headerStep lib st (TrimSpace text) with
    | error e => rw [hs] at h; cases h
    | ok st2 =>
      rw [hs] at h
      rw [ih st2 st1 (fun l hl => hk l (List.mem_cons_of_mem _ hl)) h]
      rcases headerStep_title hs with ⟨h1, _⟩ | ⟨_, _, h2⟩
      · exact absurd h1 (hk text (List.mem_cons_self _ _))
      · exact h2

/-- The last element with a property splits the list. -/
theorem exists_last_with {α : Type} (p : α → Prop) :
    ∀ l : List α, (∃ x ∈ l, p x) →
      ∃ pre x post, l = pre ++ x :: post ∧ p x ∧ ∀ y ∈ post, ¬ p y := by
  intro l
  induction l with
  | nil => rintro ⟨x, hx, _⟩; simp at hx
  | cons a rest ih =>
    intro h
    by_cases hr : ∃ x ∈ rest, p x
    · obtain ⟨pre, x, post, h1, h2, h3⟩ := ih hr
      exact ⟨a :: pre, x, post, by rw [h1]; rfl, h2, h3⟩
    · obtain ⟨x, hx, hpx⟩ := h
      rcases List.mem_cons.1 hx with h1 | h1
      · subst h1
        exact ⟨[], x, rest, rfl, hpx, fun y hy hpy => hr ⟨y, hy, hpy⟩⟩
      · exact absurd ⟨x, h1, hpx⟩ hr

/-- The value a line with a key holds, after the step on that line. -/
theorem foldSteps_split {lib : Lib} {pre post : List String} {text : String}
    {st st1 : HeaderState} (h : foldSteps lib (pre ++ text :: post) st = .ok st1) :
    ∃ sa sb, foldSteps lib pre st = .ok sa ∧ headerStep lib sa (TrimSpace text) = .ok sb ∧
      foldSteps lib post sb = .ok st1 := by
  rw [foldSteps_append] at h
  cases h1 : foldSteps lib pre st with
  | error e => rw [h1] at h; cases h
  | ok sa =>
    rw [h1] at h
    simp only [foldSteps] at h
    cases h2 : headerStep lib sa (TrimSpace text) with
    | error e => rw [h2] at h; cases h
    | ok sb =>
      rw [h2] at h
      exact ⟨sa, sb, rfl, h2, h⟩

/-- C18, the claim as stated fails: an input whose title line has no value parses, and the
title of the article is the empty string. -/
theorem ParseArticle_empty_title :
    (ParseArticle Lib.plain ⟨"title:\ndate: 2020-01-02 03:04:05\n\nhello\n", none⟩).2 = none ∧
      (ParseArticle Lib.plain
        ⟨"title:\ndate: 2020-01-02 03:04:05\n\nhello\n", none⟩).1.Title = "" := by
  decide

/-- C18, amended: when `ParseArticle` succeeds the header block has a line with the key
`title`, and the title of the article is the value of the last such line, the trimmed text
behind its first colon, which can be empty. -/
theorem ParseArticle_title_of_last_title_line (lib : Lib) (r : Reader) (art : Article)
    (h : ParseArticle lib r = (art, none)) :
    ∃ pre text post v, headerBlock (NewScanner r).lines = pre ++ text :: post ∧
      headerKey lib text = some "title" ∧ (∀ l ∈ post, headerKey lib l ≠ some "title") ∧
      headerValue text = some v ∧ art.Title = v := by
  obtain ⟨hok, _, _, htitle, _, _⟩ := parseArticleFrom_fields h
  obtain ⟨st, hf, _, hseen, _, hart⟩ := parseHeader_ok_inv hok
  have hex : ∃ l ∈ headerBlock (NewScanner r).lines, headerKey lib l = some "title" := by
    by_contra hno
    have hno2 : ∀ l ∈ headerBlock (NewScanner r).lines, headerKey lib l ≠ some "title" :=
      fun l hl hk => hno ⟨l, hl, hk⟩
    have := foldSteps_seenTitle_other lib _ _ _ hno2 hf
    rw [hseen] at this
    exact absurd this (by decide)
  obtain ⟨pre, text, post, hb, hk, hpost⟩ :=
    exists_last_with (fun l => headerKey lib l = some "title") _ hex
  rw [hb] at hf
  obtain ⟨sa, sb, _, hstep, hrest⟩ := foldSteps_split hf
  rcases headerStep_title hstep with ⟨_, v, hv, ht, _⟩ | ⟨hne, _⟩
  · refine ⟨pre, text, post, v, hb, hk, hpost, hv, ?_⟩
    rw [htitle, hart, foldSteps_title_other lib post sb st hpost hrest, ht]
  · exact absurd hk hne

theorem ParseArticle_title_of_last_title_line_witness :
    ∃ pre text post v,
      headerBlock (NewScanner ⟨"title: a\nTitle:\ndate: 2020-01-02 03:04:05\n\nx\n",
        none⟩).lines = pre ++ text :: post ∧
      headerKey Lib.plain text = some "title" ∧
      (∀ l ∈ post, headerKey Lib.plain l ≠ some "title") ∧
      headerValue text = some v ∧
      (ParseArticle Lib.plain ⟨"title: a\nTitle:\ndate: 2020-01-02 03:04:05\n\nx\n",
        none⟩).1.Title = v :=
  ParseArticle_title_of_last_title_line Lib.plain
    ⟨"title: a\nTitle:\ndate: 2020-01-02 03:04:05\n\nx\n", none⟩
    (ParseArticle Lib.plain ⟨"title: a\nTitle:\ndate: 2020-01-02 03:04:05\n\nx\n", none⟩).1 rfl

/-- C19: after a successful `parseHeader`, `Hidden` is false when the header block has no line
with the key `hidden`; otherwise it is true exactly when the value of the last such line,
lower-cased, is `yes`. With the ASCII lower-casing the values `true`, `1` and `yes please`
give false and `YES` gives true. -/
theorem parseHeader_hidden (lib : Lib) (sc : Scanner) (h : (parseHeader lib sc).2.2 = none) :
    ((∀ l ∈ headerBlock sc.lines, headerKey lib l ≠ some "hidden") →
      (parseHeader lib sc).2.1.Hidden = false) ∧
    (∀ pre text post v, headerBlock sc.lines = pre ++ text :: post →
      headerKey lib text = some "hidden" → (∀ l ∈ post, headerKey lib l ≠ some "hidden") →
      headerValue text = some v →
      ((parseHeader lib sc).2.1.Hidden = true ↔ lib.ToLower v = "yes")) ∧
    (parseHeader Lib.plain (Scanner.ofLines
      ["title: t", "date: 2020-01-02 03:04:05", "hidden: true"])).2.1.Hidden = false ∧
    (parseHeader Lib.plain (Scanner.ofLines
      ["title: t", "date: 2020-01-02 03:04:05", "hidden: 1"])).2.1.Hidden = false ∧
    (parseHeader Lib.plain (Scanner.ofLines
      ["title: t", "date: 2020-01-02 03:04:05", "hidden: yes please"])).2.1.Hidden = false ∧
    (parseHeader Lib.plain (Scanner.ofLines
      ["title: t", "date: 2020-01-02 03:04:05", "hidden: no", "Hidden:  YES "])).2.1.Hidden =
        true := by
  obtain ⟨st, hf, hart⟩ := parseHeader_ok_fold h
  refine ⟨?_, ?_, by decide, by decide, by decide, by decide⟩
  · intro hno
    rw [hart, foldSteps_hidden_other lib _ _ _ hno hf]
    rfl
  · intro pre text post v hb hk hpost hv
    rw [hb] at hf
    obtain ⟨sa, sb, _, hstep, hrest⟩ := foldSteps_split hf
    rw [hart, foldSteps_hidden_other lib post sb st hpost hrest]
    rcases headerStep_hidden hstep with ⟨_, v2, hv2, hh⟩ | ⟨hne, _⟩
    · rw [hv] at hv2
      cases hv2
      rw [hh]
      simp
    · exact absurd hk hne

theorem parseHeader_hidden_witness :
    (parseHeader Lib.plain (Scanner.ofLines
      ["title: t", "hidden: no", "date: 2020-01-02 03:04:05", "Hidden:  YES ", "", "x"])).2.2 =
        none ∧
    ((parseHeader Lib.plain (Scanner.ofLines
      ["title: t", "hidden: no", "date: 2020-01-02 03:04:05", "Hidden:  YES ", "",
        "x"])).2.1.Hidden = true ↔ Lib.plain.ToLower "YES" = "yes") :=
  ⟨by decide,
    (parseHeader_hidden Lib.plain (Scanner.ofLines
      ["title: t", "hidden: no", "date: 2020-01-02 03:04:05", "Hidden:  YES ", "", "x"])
      (by decide)).2.1
      ["title: t", "hidden: no", "date: 2020-01-02 03:04:05"] "Hidden:  YES " [] "YES"
      (by decide) (by decide) (by decide) (by decide)⟩

/-! ### Errors of the parser -/

theorem markdownParse_of_ok {lib : Lib} {s html : String} (h : lib.Convert s = .ok html) :
    markdownParse lib s = (html, none) := by
  unfold markdownParse
  rw [h]

theorem markdownParse_of_error {lib : Lib} {s : String} {e : Error}
    (h : lib.Convert s = .error e) : markdownParse lib s = ("", some e) := by
  unfold markdownParse
  rw [h]

/-- When every marker finds a text the renderer accepts, the loop of `parseText` ends without
an error. -/
theorem textFold_of_markersRender (lib : Lib) :
    ∀ (lines : List String) (b : String) (a : Article), markersRender lib b lines →
      ∃ a1, textFold lib lines b a = (b ++ bodyText lines, a1, none) := by
  intro lines
  induction lines with
  | nil => intro b a _; exact ⟨a, by simp only [textFold, bodyText, String.append_empty]⟩
  | cons l rest ih =>
    intro b a h
    simp only [textFold, bodyText]
    cases hm : reMoreMatch l with
    | true =>
      simp only [if_true]
      obtain ⟨html, hh⟩ := h [] l rest rfl hm
      simp only [bodyText, String.append_empty] at hh
      rw [markdownParse_of_ok hh]
      simp only
      apply ih
      intro p m q hl hmm
      have := h (l :: p) m q (by rw [hl]; rfl) hmm
      simpa only [bodyText, hm, if_true] using this
    | false =>
      simp only [Bool.false_eq_true, if_false]
      have hr : markersRender lib (b ++ l ++ "\n") rest := by
        intro p m q hl hmm
        have := h (l :: p) m q (by rw [hl]; rfl) hmm
        simp only [bodyText, hm, Bool.false_eq_true, if_false] at this
        rw [String.append_assoc, String.append_assoc]
        rw [String.append_assoc] at this
        exact this
      obtain ⟨a1, h1⟩ := ih (b ++ l ++ "\n") a hr
      refine ⟨a1, ?_⟩
      rw [h1, String.append_assoc, String.append_assoc, String.append_assoc]

/-- The error of the renderer on the text before a marker is the error of `parseText`, when
the markers before that one found texts the renderer accepts. -/
theorem parseText_summary_error (lib : Lib) (sc : Scanner) (a : Article)
    (p : List String) (m : String) (post : List String) (e : Error)
    (hl : sc.lines = p ++ m :: post) (hm : reMoreMatch m = true)
    (hp : markersRender lib "" p) (he : lib.Convert (bodyText p) = .error e) :
    (parseText lib sc a).2.2 = some e := by
  rw [parseText_eq, hl, textFold_append]
  obtain ⟨a1, h1⟩ := textFold_of_markersRender lib p "" a hp
  rw [h1, String.empty_append]
  simp only [textFold, hm, if_true, markdownParse_of_error he]

/-- The error of the renderer on the whole text is the error of `parseText`, when the markers
found texts the renderer accepts and the input was read without error. -/
theorem parseText_full_error (lib : Lib) (sc : Scanner) (a : Article) (e : Error)
    (hread : sc.err = none ∧ sc.readErr = none)
    (hp : markersRender lib "" sc.lines) (he : lib.Convert (bodyText sc.lines) = .error e) :
    (parseText lib sc a).2.2 = some e := by
  rw [parseText_eq]
  obtain ⟨a1, h1⟩ := textFold_of_markersRender lib sc.lines "" a hp
  rw [h1, String.empty_append, hread.1, hread.2]
  simp only [Option.orElse, markdownParse_of_error he]

/-- The read error is the error of `parseText`, when the markers found texts the renderer
accepts. -/
theorem parseText_read_error (lib : Lib) (sc : Scanner) (a : Article) (e : Error)
    (hread : sc.err = none ∧ sc.readErr = some e) (hp : markersRender lib "" sc.lines) :
    (parseText lib sc a).2.2 = some e := by
  rw [parseText_eq]
  obtain ⟨a1, h1⟩ := textFold_of_markersRender lib sc.lines "" a hp
  rw [h1, hread.1, hread.2]
  rfl

/-- The error of `parseDate` on a date line is the error of `parseHeader`, when the lines
before that line are accepted. -/
theorem parseHeader_date_error (lib : Lib) (sc : Scanner) (pre : List String) (text : String)
    (post : List String) (v : String) (e : Error) (st : HeaderState)
    (hb : headerBlock sc.lines = pre ++ text :: post)
    (hpre : foldSteps lib pre HeaderState.init = .ok st)
    (hk : headerKey lib text = some "date") (hv : headerValue text = some v)
    (he : parseDate lib v = .error e) :
    (parseHeader lib sc).2 = (Article.empty, some e) := by
  rw [parseHeader_eq, hb, foldSteps_append, hpre]
  simp only [foldSteps]
  have hc : hasColon text = true := by
    cases hc : hasColon text with
    | true => rfl
    | false =>
      exfalso
      unfold hasColon at hc
      have : splitFirstColon (TrimSpace text).data = none :=
        splitFirstColon_none.2 (by simpa using hc)
      unfold headerKey at hk
      rw [this] at hk
      cases hk
  obtain ⟨k, v2, hs⟩ := hasColon_split hc
  obtain ⟨hk2, hv2, hstep⟩ := headerStep_colon lib st text k v2 hs
  rw [hk] at hk2
  rw [hv] at hv2
  simp only [Option.some.injEq] at hk2 hv2
  rw [hstep, ← hk2, ← hv2, he]
  simp

/-- C20: `ParseArticle` returns the error of `parseHeader`, or else the error of `parseText`,
as it is and next to the empty article, and `LoadArticle` returns the error of `os.Open` or of
`ParseArticle` in the same way, with no slug. The error of `parseHeader` for a date that does
not parse is the error of `parseDate`; the error of `parseText` is the error of the renderer
on the text before a marker or on the whole text, or the read error, whichever comes first. -/
theorem ParseArticle_propagates_errors (lib : Lib) :
    (∀ r e, (parseHeader lib (NewScanner r)).2.2 = some e →
      ParseArticle lib r = (Article.empty, some e)) ∧
    (∀ r e, (parseHeader lib (NewScanner r)).2.2 = none →
      (parseText lib (parseHeader lib (NewScanner r)).1
        (parseHeader lib (NewScanner r)).2.1).2.2 = some e →
      ParseArticle lib r = (Article.empty, some e)) ∧
    (∀ fs filename e, fs filename = .error e →
      LoadArticle lib fs filename = (Article.empty, some e)) ∧
    (∀ fs filename f e, fs filename = .ok f → (ParseArticle lib f).2 = some e →
      LoadArticle lib fs filename = (Article.empty, some e)) ∧
    (∀ r, (ParseArticle lib r).2 ≠ none → (ParseArticle lib r).1 = Article.empty) ∧
    (∀ fs filename, (LoadArticle lib fs filename).2 ≠ none →
      (LoadArticle lib fs filename).1 = Article.empty) ∧
    (∀ sc pre text post v e st, headerBlock sc.lines = pre ++ text :: post →
      foldSteps lib pre HeaderState.init = .ok st → headerKey lib text = some "date" →
      headerValue text = some v → parseDate lib v = .error e →
      (parseHeader lib sc).2 = (Article.empty, some e)) ∧
    (∀ sc a p m post e, sc.lines = p ++ m :: post → reMoreMatch m = true →
      markersRender lib "" p → lib.Convert (bodyText p) = .error e →
      (parseText lib sc a).2.2 = some e) ∧
    (∀ sc a e, sc.err = none ∧ sc.readErr = none → markersRender lib "" sc.lines →
      lib.Convert (bodyText sc.lines) = .error e → (parseText lib sc a).2.2 = some e) ∧
    (∀ sc a e, sc.err = none ∧ sc.readErr = some e → markersRender lib "" sc.lines →
      (parseText lib sc a).2.2 = some e) := by
  have hparse : ∀ r, (ParseArticle lib r).2 ≠ none → (ParseArticle lib r).1 = Article.empty := by
    intro r h
    unfold ParseArticle parseArticleFrom at h ⊢
    rcases hp : parseHeader lib (NewScanner r) with ⟨p1, p2, p3⟩
    rw [hp] at h
    cases p3 with
    | some e => rfl
    | none =>
      simp only at h ⊢
      rcases hq : parseText lib p1 p2 with ⟨t1, t2, t3⟩
      rw [hq] at h
      cases t3 with
      | some e => rfl
      | none => simp at h
  refine ⟨?_, ?_, ?_, ?_, hparse, ?_, ?_, ?_, ?_, ?_⟩
  · intro r e h
    unfold ParseArticle parseArticleFrom
    rcases hp : parseHeader lib (NewScanner r) with ⟨p1, p2, p3⟩
    rw [hp] at h
    simp only at h
    rw [h]
  · intro r e h ht
    unfold ParseArticle parseArticleFrom
    rcases hp : parseHeader lib (NewScanner r) with ⟨p1, p2, p3⟩
    rw [hp] at h ht
    simp only at h ht
    rw [h]
    simp only
    rcases hq : parseText lib p1 p2 with ⟨t1, t2, t3⟩
    rw [hq] at ht
    simp only at ht
    rw [ht]
  · intro fs filename e h
    unfold LoadArticle
    simp only [h]
  · intro fs filename f e h hp
    unfold LoadArticle
    simp only [h]
    rcases hq : ParseArticle lib f with ⟨a, e2⟩
    rw [hq] at hp
    simp only at hp
    rw [hp]
  · intro fs filename h
    unfold LoadArticle at h ⊢
    simp only at h ⊢
    cases hf : fs filename with
    | error e => rfl
    | ok f =>
      rw [hf] at h
      simp only at h ⊢
      rcases hq : ParseArticle lib f with ⟨a, e2⟩
      rw [hq] at h
      cases e2 with
      | some e => rfl
      | none => simp at h
  · intro sc pre text post v e st hb hpre hk hv he
    exact parseHeader_date_error lib sc pre text post v e st hb hpre hk hv he
  · intro sc a p m post e hl hm hp he
    exact parseText_summary_error lib sc a p m post e hl hm hp he
  · intro sc a e hread hp he
    exact parseText_full_error lib sc a e hread hp he
  · intro sc a e hread hp
    exact parseText_read_error lib sc a e hread hp

theorem ParseArticle_propagates_errors_witness :
    LoadArticle Lib.plain sampleFs "articles/broken.md" =
      (Article.empty, some Error.ErrBrokenHeader) ∧
    LoadArticle Lib.plain sampleFs "articles/none.md" =
      (Article.empty, some (Error.ext "open: no such file or directory")) ∧
    (parseText Lib.strict (Scanner.ofLines ["bad", "~~more~~", "good"])
      { Article.empty with Title := "t" }).2.2 = some (Error.ext "goldmark: cannot render") ∧
    ParseArticle Lib.strict ⟨"title: t\ndate: 2020-01-02 03:04:05\n\nbad\n~~more~~\ngood\n",
      none⟩ = (Article.empty, some (Error.ext "goldmark: cannot render")) :=
  have h := ParseArticle_propagates_errors Lib.plain
  have g := ParseArticle_propagates_errors Lib.strict
  ⟨h.2.2.2.1 sampleFs "articles/broken.md"
      ⟨"Title: Broken\nnot-a-kv-pair\ndate: 2020-01-02 03:04:05\n\nhello\n", none⟩
      Error.ErrBrokenHeader rfl rfl,
    h.2.2.1 sampleFs "articles/none.md" (Error.ext "open: no such file or directory") rfl,
    g.2.2.2.2.2.2.2.1 (Scanner.ofLines ["bad", "~~more~~", "good"])
      { Article.empty with Title := "t" } ["bad"] "~~more~~" ["good"]
      (Error.ext "goldmark: cannot render") rfl (by decide)
      (by
        intro p m q hl hm
        exfalso
        have h1 : p = [] := by
          cases p with
          | nil => rfl
          | cons x xs =>
            cases xs with
            | nil => simp at hl
            | cons y ys => simp at hl
        subst h1
        simp only [List.nil_append, List.cons.injEq] at hl
        rw [← hl.1] at hm
        exact absurd hm (by decide))
      rfl,
    g.2.1 ⟨"title: t\ndate: 2020-01-02 03:04:05\n\nbad\n~~more~~\ngood\n", none⟩
      (Error.ext "goldmark: cannot render") rfl rfl⟩

/-! ### What a save leaves alone -/

/-- C22: a successful `SaveToDb` of `a` on a store whose identities are unique leaves the
records with another slug as they were (the same rows in the same order), leaves the tag
associations of every identity other than the returned one as they were, and keeps slugs
unique when they were unique before. -/
theorem SaveToDb_frame (lib : Lib) (f : Faults) (a : Article) (db db1 : Db) (id : Int)
    (hk : db.KeysOk) (h : a.SaveToDb lib f db = (db1, .ok id)) :
    db1.article.filter (fun r => r.slug ≠ a.Slug) =
      db.article.filter (fun r => r.slug ≠ a.Slug) ∧
    db1.article_tag.filter (fun t => t.article_id ≠ id) =
      db.article_tag.filter (fun t => t.article_id ≠ id) ∧
    (db.SlugsUnique → db1.SlugsUnique) := by
  obtain ⟨e1, i1⟩ := SaveToDb_ok_eq h
  subst e1 i1
  refine ⟨?_, ?_, savedDb_slugsUnique lib a db⟩
  · have := savedDb_filter_notin lib a db hk [a.Slug] (by simp)
    simpa using this
  · rw [savedDb_article_tag]
    exact filter_tagRowsAfter_ne _ _ _

theorem SaveToDb_frame_witness :
    sampleDb.KeysOk ∧
    ((sampleArticle "B" ["x"]).savedDb Lib.plain sampleDb).article.filter
        (fun r => r.slug ≠ (sampleArticle "B" ["x"]).Slug) =
      sampleDb.article.filter (fun r => r.slug ≠ (sampleArticle "B" ["x"]).Slug) ∧
    ((sampleArticle "B" ["x"]).savedDb Lib.plain sampleDb).article_tag.filter
        (fun t => t.article_id ≠ 2) =
      sampleDb.article_tag.filter (fun t => t.article_id ≠ 2) ∧
    ((sampleArticle "B" ["x"]).savedDb Lib.plain sampleDb).SlugsUnique :=
  have h := SaveToDb_frame Lib.plain Faults.none (sampleArticle "B" ["x"]) sampleDb
    ((sampleArticle "B" ["x"]).savedDb Lib.plain sampleDb) 2 (by decide) rfl
  ⟨by decide, h.1, h.2.1, h.2.2 (by decide)⟩

/-! ### `stripTags` and tag-like tokens -/

/-- Inside a value opened with `q`, the scan runs to the next `q`. -/
theorem tagEnd_quoted (q : Char) (tl : List Char) :
    ∀ v : List Char, q ∉ v → tagEnd (some q) (v ++ q :: tl) = tagEnd none tl := by
  intro v
  induction v with
  | nil => intro _; simp [tagEnd]
  | cons c cs ih =>
    intro h
    have hc : c ≠ q := fun e => h (by simp [e])
    have hcs : q ∉ cs := fun e => h (by simp [e])
    simp [tagEnd, hc, ih hcs]

/-- The scan steps over one piece. -/
theorem tagEnd_piece {p : List Char} (hp : TagPiece p) (tl : List Char) :
    tagEnd none (p ++ tl) = tagEnd none tl := by
  cases hp with
  | char c h1 h2 h3 => simp [tagEnd, h1, h2, h3]
  | quoted q hq v hv =>
    have : tagEnd none (q :: v ++ [q] ++ tl) = tagEnd (some q) (v ++ q :: tl) := by
      have hne : q ≠ '>' := by
        rcases hq with e | e <;> rw [e] <;> decide
      simp [tagEnd, hne, hq]
    rw [this, tagEnd_quoted q tl v hv]

/-- The scan of `tagEnd` accepts every body followed by `>`. -/
theorem tagEnd_body {b : List Char} (hb : TagBody b) (rest : List Char) :
    tagEnd none (b ++ '>' :: rest) = some rest := by
  induction hb with
  | nil => simp [tagEnd]
  | cons p b hp _ ih => rw [List.append_assoc, tagEnd_piece hp, ih]

/-- What the scan of `tagEnd` accepts is a body followed by `>`; inside a
value, the rest of the value, its closing quote, a body and `>`. -/
theorem tagEnd_sound (rest : List Char) :
    ∀ cs : List Char,
      (tagEnd none cs = some rest → ∃ b, TagBody b ∧ cs = b ++ '>' :: rest) ∧
      (∀ q, tagEnd (some q) cs = some rest →
        ∃ v b, q ∉ v ∧ TagBody b ∧ cs = v ++ q :: (b ++ '>' :: rest)) := by
  intro cs
  induction cs with
  | nil => simp [tagEnd]
  | cons c cs ih =>
    constructor
    · intro h
      by_cases h1 : c = '>'
      · simp [tagEnd, h1] at h
        exact ⟨[], TagBody.nil, by simp [h1, h]⟩
      · by_cases h2 : c = Char.ofNat 39 ∨ c = Char.ofNat 34
        · simp only [tagEnd, h1, h2, if_true, if_false] at h
          obtain ⟨v, b, hv, hb, e⟩ := ih.2 c h
          refine ⟨(c :: v ++ [c]) ++ b, TagBody.cons _ _ (TagPiece.quoted c h2 v hv) hb, ?_⟩
          rw [e]; simp
        · simp only [tagEnd, h1, h2, if_false] at h
          obtain ⟨b, hb, e⟩ := ih.1 h
          have h3 : c ≠ Char.ofNat 39 := fun e => h2 (Or.inl e)
          have h4 : c ≠ Char.ofNat 34 := fun e => h2 (Or.inr e)
          refine ⟨[c] ++ b, TagBody.cons _ _ (TagPiece.char c h1 h3 h4) hb, ?_⟩
          rw [e]; simp
    · intro q h
      by_cases hq : c = q
      · simp only [tagEnd, hq, if_true] at h
        obtain ⟨b, hb, e⟩ := ih.1 h
        exact ⟨[], b, by simp, hb, by simp [hq, e]⟩
      · simp only [tagEnd, hq, if_false] at h
        obtain ⟨v, b, hv, hb, e⟩ := ih.2 q h
        refine ⟨c :: v, b, ?_, hb, by simp [e]⟩
        intro hm
        rcases List.mem_cons.1 hm with e1 | e1
        · exact hq e1.symm
        · exact hv e1

/-- The scan of `tagEnd` matches the pattern of `reHtmlTag` behind its `<`:
it returns `rest` exactly when the input is the inside of a tag-like token,
`>`, and `rest`. -/
theorem tagEnd_iff (cs rest : List Char) :
    tagEnd none cs = some rest ↔ ∃ b, TagBody b ∧ cs = b ++ '>' :: rest := by
  constructor
  · exact (tagEnd_sound rest cs).1
  · rintro ⟨b, hb, e⟩
    rw [e, tagEnd_body hb]

/-- What `tagEnd` returns is a proper end piece of its input. -/
theorem tagEnd_suffix (rest : List Char) :
    ∀ (cs : List Char) (st : Option Char), tagEnd st cs = some rest →
      rest.length < cs.length ∧ ∀ c ∈ rest, c ∈ cs := by
  intro cs
  induction cs with
  | nil => intro st h; cases st <;> simp [tagEnd] at h
  | cons c cs ih =>
    intro st h
    have step : ∀ st1, tagEnd st1 cs = some rest →
        rest.length < (c :: cs).length ∧ ∀ x ∈ rest, x ∈ c :: cs := by
      intro st1 h1
      obtain ⟨hl, hm⟩ := ih st1 h1
      exact ⟨by simp only [List.length_cons]; omega, fun x hx => List.mem_cons_of_mem _ (hm x hx)⟩
    cases st with
    | none =>
      by_cases h1 : c = '>'
      · simp [tagEnd, h1] at h
        subst h
        exact ⟨by simp, fun x hx => List.mem_cons_of_mem _ hx⟩
      · by_cases h2 : c = Char.ofNat 39 ∨ c = Char.ofNat 34
        · simp only [tagEnd, h1, h2, if_true, if_false] at h
          exact step _ h
        · simp only [tagEnd, h1, h2, if_false] at h
          exact step _ h
    | some q =>
      by_cases hq : c = q
      · simp only [tagEnd, hq, if_true] at h
        exact step _ h
      · simp only [tagEnd, hq, if_false] at h
        exact step _ h

/-- Without quotes, the scan fails only when no `>` follows. -/
theorem tagEnd_none_no_quote :
    ∀ cs : List Char, Char.ofNat 39 ∉ cs → Char.ofNat 34 ∉ cs →
      tagEnd none cs = none → '>' ∉ cs := by
  intro cs
  induction cs with
  | nil => intro _ _ _; simp
  | cons c cs ih =>
    intro hs hd h
    have hs1 : c ≠ Char.ofNat 39 := fun e => hs (by simp [e])
    have hd1 : c ≠ Char.ofNat 34 := fun e => hd (by simp [e])
    have hs2 : Char.ofNat 39 ∉ cs := fun e => hs (List.mem_cons_of_mem _ e)
    have hd2 : Char.ofNat 34 ∉ cs := fun e => hd (List.mem_cons_of_mem _ e)
    by_cases h1 : c = '>'
    · simp [tagEnd, h1] at h
    · simp only [tagEnd, h1, hs1, hd1, or_self, if_false] at h
      intro hm
      rcases List.mem_cons.1 hm with e | e
      · exact h1 e.symm
      · exact ih hs2 hd2 h e

/-- Every character `removeHtmlTags` keeps is a character of its input. -/
theorem mem_removeHtmlTags :
    ∀ (fuel : Nat) (cs : List Char) (x : Char), x ∈ removeHtmlTags fuel cs → x ∈ cs := by
  intro fuel
  induction fuel with
  | zero => intro cs x h; simpa [removeHtmlTags] using h
  | succ n ih =>
    intro cs x h
    cases cs with
    | nil => simp [removeHtmlTags] at h
    | cons c cs =>
      by_cases hc : c = '<'
      · rcases ht : tagEnd none cs with _ | rest
        · simp only [removeHtmlTags, hc, ht, if_true] at h
          rcases List.mem_cons.1 h with e | e
          · simp [e, hc]
          · exact List.mem_cons_of_mem _ (ih cs x e)
        · simp only [removeHtmlTags, hc, ht, if_true] at h
          exact List.mem_cons_of_mem _ ((tagEnd_suffix rest cs none ht).2 x (ih rest x h))
      · simp only [removeHtmlTags, hc, if_false] at h
        rcases List.mem_cons.1 h with e | e
        · simp [e]
        · exact List.mem_cons_of_mem _ (ih cs x e)

/-- On a text without quotes, no `<` that `removeHtmlTags` keeps has a `>`
behind it. -/
theorem removeHtmlTags_no_close :
    ∀ (fuel : Nat) (cs : List Char), cs.length ≤ fuel →
      Char.ofNat 39 ∉ cs → Char.ofNat 34 ∉ cs →
      ∀ pre post : List Char, removeHtmlTags fuel cs = pre ++ '<' :: post → '>' ∉ post := by
  intro fuel
  induction fuel with
  | zero =>
    intro cs hl _ _ pre post h
    have : cs = [] := List.length_eq_zero.1 (Nat.le_zero.1 hl)
    subst this
    simp [removeHtmlTags] at h
  | succ n ih =>
    intro cs hl hs hd pre post h
    cases cs with
    | nil => simp [removeHtmlTags] at h
    | cons c cs =>
      have hs2 : Char.ofNat 39 ∉ cs := fun e => hs (List.mem_cons_of_mem _ e)
      have hd2 : Char.ofNat 34 ∉ cs := fun e => hd (List.mem_cons_of_mem _ e)
      have hl2 : cs.length ≤ n := by simp only [List.length_cons] at hl; omega
      by_cases hc : c = '<'
      · rcases ht : tagEnd none cs with _ | rest
        · simp only [removeHtmlTags, hc, ht, if_true] at h
          have hno := tagEnd_none_no_quote cs hs2 hd2 ht
          cases pre with
          | nil =>
            simp only [List.nil_append, List.cons.injEq, true_and] at h
            intro hm
            exact hno (mem_removeHtmlTags n cs _ (h ▸ hm))
          | cons p pre =>
            simp only [List.cons_append, List.cons.injEq] at h
            exact ih cs hl2 hs2 hd2 pre post h.2
        · simp only [removeHtmlTags, hc, ht, if_true] at h
          obtain ⟨hlen, hmem⟩ := tagEnd_suffix rest cs none ht
          exact ih rest (by omega) (fun e => hs2 (hmem _ e)) (fun e => hd2 (hmem _ e)) pre post h
      · simp only [removeHtmlTags, hc, if_false] at h
        cases pre with
        | nil =>
          simp only [List.nil_append, List.cons.injEq] at h
          exact absurd h.1 hc
        | cons p pre =>
          simp only [List.cons_append, List.cons.injEq] at h
          exact ih cs hl2 hs2 hd2 pre post h.2

/-- Without an `&` there is no entity to replace. -/
theorem replaceEntities_no_amp (lib : Lib) :
    ∀ (fuel : Nat) (cs : List Char), '&' ∉ cs → replaceEntities lib fuel cs = cs := by
  intro fuel
  induction fuel with
  | zero => intro cs _; simp [replaceEntities]
  | succ n ih =>
    intro cs h
    cases cs with
    | nil => simp [replaceEntities]
    | cons c cs =>
      have hc : c ≠ '&' := fun e => h (by simp [e])
      have hcs : '&' ∉ cs := fun e => h (List.mem_cons_of_mem _ e)
      simp [replaceEntities, hc, ih cs hcs]

/-- A text in which no `<` has a `>` behind it is tag-free. -/
theorem tagFree_of_no_close (s : String)
    (h : ∀ pre post : List Char, s.data = pre ++ '<' :: post → '>' ∉ post) : TagFree s := by
  intro pre tok post e ht
  obtain ⟨b, _, hb⟩ := ht
  subst hb
  refine h pre (b ++ ['>'] ++ post) ?_ (by simp)
  rw [e]; simp

/-! #### Tag-free texts, by one pass -/

theorem hasTag_append_right (x : List Char) {y : List Char} (h : hasTag y = true) :
    hasTag (x ++ y) = true := by
  induction x with
  | nil => exact h
  | cons c cs ih => simp [hasTag, ih]

theorem hasTag_skip (y : List Char) :
    ∀ x : List Char, '<' ∉ x → hasTag (x ++ y) = hasTag y := by
  intro x
  induction x with
  | nil => intro _; rfl
  | cons c cs ih =>
    intro h
    have hc : c ≠ '<' := fun e => h (by simp [e])
    have hcs : '<' ∉ cs := fun e => h (List.mem_cons_of_mem _ e)
    simp [hasTag, hc, ih hcs]

theorem hasTag_of_no_lt : ∀ x : List Char, '<' ∉ x → hasTag x = false := by
  intro x h
  have := hasTag_skip [] x h
  simpa [hasTag] using this

/-- A text in which the pass finds no token is tag-free. -/
theorem tagFree_of_hasTag (s : String) (h : hasTag s.data = false) : TagFree s := by
  intro pre tok post e ht
  obtain ⟨b, hb, hbe⟩ := ht
  subst hbe
  have h1 : hasTag ('<' :: (b ++ '>' :: post)) = true := by
    simp [hasTag, tagEnd_body hb post]
  have h2 := hasTag_append_right pre h1
  have e2 : s.data = pre ++ '<' :: (b ++ '>' :: post) := by rw [e]; simp
  rw [← e2, h] at h2
  cases h2

/-- The scan steps over characters that are no `<`, `>` or quote, outside a value and inside
a value that a quote opened. -/
theorem tagEnd_skip (st : Option Char)
    (hst : ∀ q, st = some q → q = Char.ofNat 39 ∨ q = Char.ofNat 34) (y : List Char) :
    ∀ x : List Char, (∀ c ∈ x, isTagChar c = false) → tagEnd st (x ++ y) = tagEnd st y := by
  intro x
  induction x with
  | nil => intro _; rfl
  | cons c cs ih =>
    intro h
    have hc := h c (List.mem_cons_self _ _)
    have hcs := ih (fun d hd => h d (List.mem_cons_of_mem _ hd))
    simp only [isTagChar, Bool.or_eq_false_iff, decide_eq_false_iff_not] at hc
    obtain ⟨⟨⟨_, h2⟩, h3⟩, h4⟩ := hc
    cases st with
    | none =>
      simp only [List.cons_append, tagEnd, h2, h3, h4, or_self, if_false]
      exact hcs
    | some q =>
      have hq : c ≠ q := by
        intro e
        rcases hst q rfl with e1 | e1
        · exact h3 (e.trans e1)
        · exact h4 (e.trans e1)
      simp only [List.cons_append, tagEnd, hq, if_false]
      exact hcs

theorem throughSemicolon_eq :
    ∀ (cs m rest : List Char), throughSemicolon cs = some (m, rest) →
      cs = m ++ rest ∧ rest.length < cs.length := by
  intro cs
  induction cs with
  | nil => intro m rest h; simp [throughSemicolon] at h
  | cons c cs ih =>
    intro m rest h
    simp only [throughSemicolon] at h
    by_cases hc : c = ';'
    · simp only [hc, if_true, Option.some.injEq, Prod.mk.injEq] at h
      obtain ⟨h1, h2⟩ := h
      subst h1 h2
      exact ⟨by simp [hc], by simp⟩
    · simp only [hc, if_false] at h
      rcases ht : throughSemicolon cs with _ | ⟨m1, r1⟩
      · rw [ht] at h; cases h
      · rw [ht] at h
        simp only [Option.some.injEq, Prod.mk.injEq] at h
        obtain ⟨h1, h2⟩ := h
        subst h1 h2
        obtain ⟨e1, e2⟩ := ih m1 r1 ht
        exact ⟨by rw [e1]; simp, by simp only [List.length_cons]; omega⟩

/-- One step of the scan, on two texts that begin with the same character. -/
theorem tagEnd_cons_isSome (c : Char) (x y : List Char)
    (h : ∀ st, (∀ q, st = some q → q = Char.ofNat 39 ∨ q = Char.ofNat 34) →
      (tagEnd st x).isSome = (tagEnd st y).isSome)
    (st : Option Char) (hst : ∀ q, st = some q → q = Char.ofNat 39 ∨ q = Char.ofNat 34) :
    (tagEnd st (c :: x)).isSome = (tagEnd st (c :: y)).isSome := by
  cases st with
  | none =>
    by_cases h1 : c = '>'
    · simp [tagEnd, h1]
    · by_cases h2 : c = Char.ofNat 39 ∨ c = Char.ofNat 34
      · simp only [tagEnd, h1, h2, if_true, if_false]
        exact h (some c) (fun q hq => by cases hq; exact h2)
      · simp only [tagEnd, h1, h2, if_false]
        exact h none (fun q hq => by cases hq)
  | some q =>
    by_cases hq : c = q
    · simp only [tagEnd, hq, if_true]
      exact h none (fun q hq => by cases hq)
    · simp only [tagEnd, hq, if_false]
      exact h (some q) hst

/-- Decoding entities that hold and give no `<`, `>` or quote does not change whether the
scan of a tag succeeds. -/
theorem tagEnd_replaceEntities (lib : Lib) :
    ∀ (fuel : Nat) (cs : List Char), cs.length ≤ fuel →
      (∀ m ∈ entityMatches fuel cs, (∀ c ∈ m.data, isTagChar c = false) ∧
        ∀ c ∈ (lib.UnescapeString m).data, isTagChar c = false) →
      ∀ st, (∀ q, st = some q → q = Char.ofNat 39 ∨ q = Char.ofNat 34) →
        (tagEnd st (replaceEntities lib fuel cs)).isSome = (tagEnd st cs).isSome := by
  intro fuel
  induction fuel with
  | zero => intro cs _ _ st _; simp [replaceEntities]
  | succ n ih =>
    intro cs hl hm st hst
    cases cs with
    | nil => simp [replaceEntities]
    | cons c t =>
      have hl2 : t.length ≤ n := by simp only [List.length_cons] at hl; omega
      by_cases hc : c = '&'
      · rcases ht : throughSemicolon t with _ | ⟨m, rest⟩
        · simp only [replaceEntities, hc, ht, if_true]
          simp only [entityMatches, hc, ht, if_true] at hm
          exact tagEnd_cons_isSome '&' _ _ (fun st1 h1 => ih t hl2 hm st1 h1) st hst
        · obtain ⟨e1, e2⟩ := throughSemicolon_eq t m rest ht
          simp only [replaceEntities, hc, ht, if_true]
          have hmem : entityMatches (n + 1) (c :: t) = ⟨'&' :: m⟩ :: entityMatches n rest := by
            simp [entityMatches, hc, ht]
          rw [hmem] at hm
          obtain ⟨hm1, hm2⟩ := hm ⟨'&' :: m⟩ (List.mem_cons_self _ _)
          have hm3 := fun x hx => hm x (List.mem_cons_of_mem _ hx)
          rw [tagEnd_skip st hst _ _ hm2]
          have e3 : '&' :: t = ('&' :: m) ++ rest := by rw [e1]; simp
          rw [e3, tagEnd_skip st hst _ _ hm1]
          exact ih rest (by omega) hm3 st hst
      · simp only [replaceEntities, hc, if_false]
        simp only [entityMatches, hc, if_false] at hm
        exact tagEnd_cons_isSome c _ _ (fun st1 h1 => ih t hl2 hm st1 h1) st hst

/-- Decoding entities that hold and give no `<`, `>` or quote makes no tag-like token and
removes none. -/
theorem hasTag_replaceEntities (lib : Lib) :
    ∀ (fuel : Nat) (cs : List Char), cs.length ≤ fuel →
      (∀ m ∈ entityMatches fuel cs, (∀ c ∈ m.data, isTagChar c = false) ∧
        ∀ c ∈ (lib.UnescapeString m).data, isTagChar c = false) →
      hasTag (replaceEntities lib fuel cs) = hasTag cs := by
  have nolt : ∀ x : List Char, (∀ c ∈ x, isTagChar c = false) → '<' ∉ x := by
    intro x h hx
    have := h _ hx
    simp [isTagChar] at this
  intro fuel
  induction fuel with
  | zero => intro cs _ _; simp [replaceEntities]
  | succ n ih =>
    intro cs hl hm
    cases cs with
    | nil => simp [replaceEntities]
    | cons c t =>
      have hl2 : t.length ≤ n := by simp only [List.length_cons] at hl; omega
      by_cases hc : c = '&'
      · rcases ht : throughSemicolon t with _ | ⟨m, rest⟩
        · simp only [replaceEntities, hc, ht, if_true]
          simp only [entityMatches, hc, ht, if_true] at hm
          simp only [hasTag]
          rw [ih t hl2 hm,
            tagEnd_replaceEntities lib n t hl2 hm none (fun q hq => by cases hq)]
        · obtain ⟨e1, e2⟩ := throughSemicolon_eq t m rest ht
          simp only [replaceEntities, hc, ht, if_true]
          have hmem : entityMatches (n + 1) (c :: t) = ⟨'&' :: m⟩ :: entityMatches n rest := by
            simp [entityMatches, hc, ht]
          rw [hmem] at hm
          obtain ⟨hm1, hm2⟩ := hm ⟨'&' :: m⟩ (List.mem_cons_self _ _)
          have hm3 := fun x hx => hm x (List.mem_cons_of_mem _ hx)
          rw [hasTag_skip _ _ (nolt _ hm2)]
          have e3 : '&' :: t = ('&' :: m) ++ rest := by rw [e1]; simp
          rw [e3, hasTag_skip _ _ (nolt _ hm1)]
          exact ih rest (by omega) hm3
      · simp only [replaceEntities, hc, if_false]
        simp only [entityMatches, hc, if_false] at hm
        simp only [hasTag]
        rw [ih t hl2 hm, tagEnd_replaceEntities lib n t hl2 hm none (fun q hq => by cases hq)]

/-- Decoding entities that give no `<` puts no `<` into a text that has none. -/
theorem replaceEntities_no_lt (lib : Lib) :
    ∀ (fuel : Nat) (cs : List Char), cs.length ≤ fuel → '<' ∉ cs →
      (∀ m ∈ entityMatches fuel cs, '<' ∉ (lib.UnescapeString m).data) →
      '<' ∉ replaceEntities lib fuel cs := by
  intro fuel
  induction fuel with
  | zero => intro cs _ h _; simpa [replaceEntities] using h
  | succ n ih =>
    intro cs hl hno hm
    cases cs with
    | nil => simp [replaceEntities]
    | cons c t =>
      have hl2 : t.length ≤ n := by simp only [List.length_cons] at hl; omega
      have hc1 : '<' ≠ c := fun e => hno (by rw [← e]; exact List.mem_cons_self _ _)
      have ht1 : '<' ∉ t := fun e => hno (List.mem_cons_of_mem _ e)
      by_cases hc : c = '&'
      · rcases ht : throughSemicolon t with _ | ⟨m, rest⟩
        · simp only [replaceEntities, hc, ht, if_true]
          simp only [entityMatches, hc, ht, if_true] at hm
          intro hx
          rcases List.mem_cons.1 hx with e | e
          · exact absurd e (by decide)
          · exact ih t hl2 ht1 hm e
        · obtain ⟨e1, e2⟩ := throughSemicolon_eq t m rest ht
          simp only [replaceEntities, hc, ht, if_true]
          have hmem : entityMatches (n + 1) (c :: t) = ⟨'&' :: m⟩ :: entityMatches n rest := by
            simp [entityMatches, hc, ht]
          rw [hmem] at hm
          have hm1 := hm ⟨'&' :: m⟩ (List.mem_cons_self _ _)
          have hm3 := fun x hx => hm x (List.mem_cons_of_mem _ hx)
          have hr : '<' ∉ rest := fun e => ht1 (by rw [e1]; simp [e])
          intro hx
          rcases List.mem_append.1 hx with e | e
          · exact hm1 e
          · exact ih rest (by omega) hr hm3 e
      · simp only [replaceEntities, hc, if_false]
        simp only [entityMatches, hc, if_false] at hm
        intro hx
        rcases List.mem_cons.1 hx with e | e
        · exact hc1 e
        · exact ih t hl2 ht1 hm e

/-! #### Texts with one kind of quote -/

/-- On a text with the one quote `q`, a scan begun outside a value and a scan begun inside one
are never both outside: when one of them ends a tag and the other does not, the other is
inside a value behind that tag. -/
theorem tagEnd_two_scans (q q1 : Char)
    (hq : (q = Char.ofNat 39 ∧ q1 = Char.ofNat 34) ∨ (q = Char.ofNat 34 ∧ q1 = Char.ofNat 39))
    (rest : List Char) :
    ∀ cs : List Char, q1 ∉ cs →
      (tagEnd none cs = some rest → tagEnd (some q) cs = none → tagEnd (some q) rest = none) ∧
      (tagEnd (some q) cs = some rest → tagEnd none cs = none →
        tagEnd (some q) rest = none) := by
  have hqq : q = Char.ofNat 39 ∨ q = Char.ofNat 34 := by
    rcases hq with h | h
    · exact Or.inl h.1
    · exact Or.inr h.1
  have hqgt : q ≠ '>' := by
    rcases hqq with e | e <;> rw [e] <;> decide
  intro cs
  induction cs with
  | nil => intro _; simp [tagEnd]
  | cons c t ih =>
    intro hno
    have hc1 : c ≠ q1 := fun e => hno (by rw [← e]; exact List.mem_cons_self _ _)
    obtain ⟨iha, ihb⟩ := ih (fun e => hno (List.mem_cons_of_mem _ e))
    by_cases hcq : c = q
    · subst hcq
      constructor
      · intro h1 h2
        simp only [tagEnd, hqgt, hqq, if_true, if_false] at h1 h2
        exact ihb h1 h2
      · intro h1 h2
        simp only [tagEnd, hqgt, hqq, if_true, if_false] at h1 h2
        exact iha h1 h2
    · have hnq : ¬ (c = Char.ofNat 39 ∨ c = Char.ofNat 34) := by
        intro h
        rcases hq with ⟨e1, e2⟩ | ⟨e1, e2⟩
        · rcases h with h | h
          · exact hcq (h.trans e1.symm)
          · exact hc1 (h.trans e2.symm)
        · rcases h with h | h
          · exact hc1 (h.trans e2.symm)
          · exact hcq (h.trans e1.symm)
      by_cases hgt : c = '>'
      · constructor
        · intro h1 h2
          simp only [tagEnd, hgt, if_true, Option.some.injEq] at h1
          have hne : ¬ ('>' = q) := fun e => hqgt e.symm
          simp only [tagEnd, hgt, hne, if_false] at h2
          rw [← h1]; exact h2
        · intro _ h2
          simp [tagEnd, hgt] at h2
      · constructor
        · intro h1 h2
          simp only [tagEnd, hgt, hnq, hcq, if_false] at h1 h2
          exact iha h1 h2
        · intro h1 h2
          simp only [tagEnd, hgt, hnq, hcq, if_false] at h1 h2
          exact ihb h1 h2

/-- On a text with one kind of quote, a scan that ends no tag ends none either on what the
removal of the tags leaves of the text. -/
theorem tagEnd_removeHtmlTags (q q1 : Char)
    (hq : (q = Char.ofNat 39 ∧ q1 = Char.ofNat 34) ∨ (q = Char.ofNat 34 ∧ q1 = Char.ofNat 39)) :
    ∀ (fuel : Nat) (cs : List Char), cs.length ≤ fuel → q1 ∉ cs →
      ∀ st, (st = none ∨ st = some q) → tagEnd st cs = none →
        tagEnd st (removeHtmlTags fuel cs) = none := by
  have hqq : q = Char.ofNat 39 ∨ q = Char.ofNat 34 := by
    rcases hq with h | h
    · exact Or.inl h.1
    · exact Or.inr h.1
  have hqlt : ¬ ('<' = q) := by
    rcases hqq with e | e <;> rw [e] <;> decide
  intro fuel
  induction fuel with
  | zero =>
    intro cs hl _ st _ h
    have : cs = [] := List.length_eq_zero.1 (Nat.le_zero.1 hl)
    subst this
    simpa [removeHtmlTags] using h
  | succ n ih =>
    intro cs hl hno st hst h
    cases cs with
    | nil => simpa [removeHtmlTags] using h
    | cons c t =>
      have hl2 : t.length ≤ n := by simp only [List.length_cons] at hl; omega
      have hno2 : q1 ∉ t := fun e => hno (List.mem_cons_of_mem _ e)
      have hc1 : c ≠ q1 := fun e => hno (by rw [← e]; exact List.mem_cons_self _ _)
      -- a character that is kept: both scans take the same step
      have kept : removeHtmlTags (n + 1) (c :: t) = c :: removeHtmlTags n t →
          tagEnd st (removeHtmlTags (n + 1) (c :: t)) = none := by
        intro e
        rw [e]
        rcases hst with hs | hs
        · subst hs
          by_cases hgt : c = '>'
          · simp [tagEnd, hgt] at h
          · by_cases hcq : c = Char.ofNat 39 ∨ c = Char.ofNat 34
            · have hcq2 : c = q := by
                rcases hq with ⟨e1, e2⟩ | ⟨e1, e2⟩
                · rcases hcq with h3 | h3
                  · exact h3.trans e1.symm
                  · exact absurd (h3.trans e2.symm) hc1
                · rcases hcq with h3 | h3
                  · exact absurd (h3.trans e2.symm) hc1
                  · exact h3.trans e1.symm
              simp only [tagEnd, hgt, hcq, if_true, if_false] at h ⊢
              rw [hcq2] at h ⊢
              exact ih t hl2 hno2 (some q) (Or.inr rfl) h
            · simp only [tagEnd, hgt, hcq, if_false] at h ⊢
              exact ih t hl2 hno2 none (Or.inl rfl) h
        · subst hs
          by_cases hcq : c = q
          · simp only [tagEnd, hcq, if_true] at h ⊢
            exact ih t hl2 hno2 none (Or.inl rfl) h
          · simp only [tagEnd, hcq, if_false] at h ⊢
            exact ih t hl2 hno2 (some q) (Or.inr rfl) h
      by_cases hc : c = '<'
      · rcases ht : tagEnd none t with _ | rest
        · exact kept (by simp [removeHtmlTags, hc, ht])
        · have e : removeHtmlTags (n + 1) (c :: t) = removeHtmlTags n rest := by
            simp [removeHtmlTags, hc, ht]
          rw [e]
          obtain ⟨hlen, hmem⟩ := tagEnd_suffix rest t none ht
          have hno3 : q1 ∉ rest := fun e1 => hno2 (hmem _ e1)
          rcases hst with hs | hs
          · subst hs
            exfalso
            have hne1 : ¬ ('<' = Char.ofNat 39 ∨ '<' = Char.ofNat 34) := by decide
            have hne2 : ¬ ('<' = '>') := by decide
            simp only [hc, tagEnd, hne1, hne2, if_false] at h
            rw [ht] at h
            cases h
          · subst hs
            simp only [hc, tagEnd, hqlt, if_false] at h
            have h3 := (tagEnd_two_scans q q1 hq rest t hno2).1 ht h
            exact ih rest (by omega) hno3 (some q) (Or.inr rfl) h3
      · exact kept (by simp [removeHtmlTags, hc])

/-- What the removal of the tags leaves of a text with one kind of quote has no tag-like
token. -/
theorem hasTag_removeHtmlTags (q q1 : Char)
    (hq : (q = Char.ofNat 39 ∧ q1 = Char.ofNat 34) ∨ (q = Char.ofNat 34 ∧ q1 = Char.ofNat 39)) :
    ∀ (fuel : Nat) (cs : List Char), cs.length ≤ fuel → q1 ∉ cs →
      hasTag (removeHtmlTags fuel cs) = false := by
  intro fuel
  induction fuel with
  | zero =>
    intro cs hl _
    have : cs = [] := List.length_eq_zero.1 (Nat.le_zero.1 hl)
    subst this
    simp [removeHtmlTags, hasTag]
  | succ n ih =>
    intro cs hl hno
    cases cs with
    | nil => simp [removeHtmlTags, hasTag]
    | cons c t =>
      have hl2 : t.length ≤ n := by simp only [List.length_cons] at hl; omega
      have hno2 : q1 ∉ t := fun e => hno (List.mem_cons_of_mem _ e)
      by_cases hc : c = '<'
      · rcases ht : tagEnd none t with _ | rest
        · have e : removeHtmlTags (n + 1) (c :: t) = c :: removeHtmlTags n t := by
            simp [removeHtmlTags, hc, ht]
          rw [e]
          simp only [hasTag, ih t hl2 hno2,
            tagEnd_removeHtmlTags q q1 hq n t hl2 hno2 none (Or.inl rfl) ht]
          simp
        · have e : removeHtmlTags (n + 1) (c :: t) = removeHtmlTags n rest := by
            simp [removeHtmlTags, hc, ht]
          rw [e]
          obtain ⟨hlen, hmem⟩ := tagEnd_suffix rest t none ht
          exact ih rest (by omega) (fun e1 => hno2 (hmem _ e1))
      · have e : removeHtmlTags (n + 1) (c :: t) = c :: removeHtmlTags n t := by
          simp [removeHtmlTags, hc]
        rw [e]
        simp [hasTag, hc, ih t hl2 hno2]

/-! #### Texts in which every `<` opens a tag -/

theorem isMarkup_sound :
    ∀ (fuel : Nat) (cs : List Char), isMarkup fuel cs = true → Markup cs := by
  intro fuel
  induction fuel with
  | zero =>
    intro cs h
    cases cs with
    | nil => exact Markup.nil
    | cons c t => simp [isMarkup] at h
  | succ n ih =>
    intro cs h
    cases cs with
    | nil => exact Markup.nil
    | cons c t =>
      by_cases hc : c = '<'
      · rcases ht : tagEnd none t with _ | rest
        · simp [isMarkup, hc, ht] at h
        · simp only [isMarkup, hc, ht, if_true] at h
          obtain ⟨b, hb, e⟩ := (tagEnd_iff t rest).1 ht
          have e2 : c :: t = ('<' :: b ++ ['>']) ++ rest := by rw [hc, e]; simp
          rw [e2]
          exact Markup.tag _ _ ⟨b, hb, rfl⟩ (ih rest h)
      · simp only [isMarkup, hc, if_false] at h
        exact Markup.text c t hc (ih t h)

/-- The removal of the tags leaves no `<` of a text in which every `<` opens a tag. -/
theorem removeHtmlTags_markup {cs : List Char} (h : Markup cs) :
    ∀ fuel : Nat, cs.length ≤ fuel → '<' ∉ removeHtmlTags fuel cs := by
  induction h with
  | nil => intro fuel _; cases fuel <;> simp [removeHtmlTags]
  | text c rest hc _ ih =>
    intro fuel hl
    cases fuel with
    | zero => simp at hl
    | succ n =>
      have hl2 : rest.length ≤ n := by simp only [List.length_cons] at hl; omega
      simp only [removeHtmlTags, hc, if_false]
      intro hx
      rcases List.mem_cons.1 hx with e | e
      · exact hc e.symm
      · exact ih n hl2 e
  | tag tok rest ht _ ih =>
    intro fuel hl
    obtain ⟨b, hb, e⟩ := ht
    subst e
    cases fuel with
    | zero => simp at hl
    | succ n =>
      have hl2 : rest.length ≤ n := by
        simp only [List.cons_append, List.length_cons, List.length_append] at hl; omega
      have e2 : ('<' :: b ++ ['>']) ++ rest = '<' :: (b ++ '>' :: rest) := by simp
      rw [e2]
      simp only [removeHtmlTags, if_true, tagEnd_body hb rest]
      exact ih n hl2

/-- A library that decodes `&lt;` and `&gt;` makes `stripTags` turn the escaped text of a
tag into the text of a tag. -/
theorem stripTags_decodes_tag (lib : Lib) (h1 : lib.UnescapeString "&lt;" = "<")
    (h2 : lib.UnescapeString "&gt;" = ">") : stripTags lib "<p>&lt;b&gt;</p>" = "<b>" := by
  have e1 : lib.UnescapeString ⟨['&', 'l', 't', ';']⟩ = "<" := h1
  have e2 : lib.UnescapeString ⟨['&', 'g', 't', ';']⟩ = ">" := h2
  simp [stripTags, removeHtmlTags, tagEnd, replaceEntities, throughSemicolon, e1, e2]

/-- C21, as stated, fails: `stripTags` leaves the tag-like token `<''>` of
`<'<"'">'>`, whose first `<` starts no token while the token inside the quotes
is removed, and with a library that decodes entities it makes the tag-like
token `<b>` out of `<p>&lt;b&gt;</p>`. -/
theorem stripTags_not_tag_free :
    stripTags Lib.plain "<'<\"'\">'>" = "<''>" ∧
    ¬ TagFree (stripTags Lib.plain "<'<\"'\">'>") ∧
    stripTags Lib.html "<p>&lt;b&gt;</p>" = "<b>" ∧
    ¬ TagFree (stripTags Lib.html "<p>&lt;b&gt;</p>") := by
  have e1 : stripTags Lib.plain "<'<\"'\">'>" = "<''>" := by decide
  have e2 : stripTags Lib.html "<p>&lt;b&gt;</p>" = "<b>" := by decide
  refine ⟨e1, ?_, e2, ?_⟩
  · rw [e1]
    intro h
    refine h [] ['<', Char.ofNat 39, Char.ofNat 39, '>'] [] (by decide) ?_
    exact ⟨[Char.ofNat 39, Char.ofNat 39],
      TagBody.cons _ [] (TagPiece.quoted (Char.ofNat 39) (Or.inl rfl) [] (by simp)) TagBody.nil,
      by decide⟩
  · rw [e2]
    intro h
    refine h [] ['<', 'b', '>'] [] (by decide) ?_
    exact ⟨['b'],
      TagBody.cons _ [] (TagPiece.char 'b' (by decide) (by decide) (by decide)) TagBody.nil,
      by decide⟩

/-- C21, amended: for every string `h` that does not hold both kinds of quote, what the
removal of the tags leaves of `h` is tag-free, and `stripTags h` is tag-free when no entity
decoded in that text holds or gives a `<`, a `>` or a quote.  For every string `h` in which
every `<` opens a tag-like token, whatever quotes it holds, the removal leaves no `<`, and
`stripTags h` has no `<` and so is tag-free when no entity decoded gives a `<`. -/
theorem stripTags_tag_free (lib : Lib) (h : String) :
    ((Char.ofNat 39 ∉ h.data ∨ Char.ofNat 34 ∉ h.data) →
      TagFree ⟨removeHtmlTags h.data.length h.data⟩ ∧
      ((∀ m ∈ entitiesLeft h, (∀ c ∈ m.data, isTagChar c = false) ∧
          ∀ c ∈ (lib.UnescapeString m).data, isTagChar c = false) →
        TagFree (stripTags lib h))) ∧
    (Markup h.data →
      '<' ∉ removeHtmlTags h.data.length h.data ∧
      ((∀ m ∈ entitiesLeft h, '<' ∉ (lib.UnescapeString m).data) →
        '<' ∉ (stripTags lib h).data ∧ TagFree (stripTags lib h))) := by
  constructor
  · intro hq
    have h1 : hasTag (removeHtmlTags h.data.length h.data) = false := by
      rcases hq with hs | hd
      · exact hasTag_removeHtmlTags (Char.ofNat 34) (Char.ofNat 39) (Or.inr ⟨rfl, rfl⟩) _ _
          (Nat.le_refl _) hs
      · exact hasTag_removeHtmlTags (Char.ofNat 39) (Char.ofNat 34) (Or.inl ⟨rfl, rfl⟩) _ _
          (Nat.le_refl _) hd
    refine ⟨tagFree_of_hasTag _ h1, ?_⟩
    intro he
    apply tagFree_of_hasTag
    unfold stripTags
    simp only
    rw [hasTag_replaceEntities lib _ _ (Nat.le_refl _) he]
    exact h1
  · intro hm
    have h1 := removeHtmlTags_markup hm h.data.length (Nat.le_refl _)
    refine ⟨h1, ?_⟩
    intro he
    have h2 : '<' ∉ (stripTags lib h).data := by
      unfold stripTags
      simp only
      exact replaceEntities_no_lt lib _ _ (Nat.le_refl _) h1 he
    exact ⟨h2, tagFree_of_hasTag _ (hasTag_of_no_lt _ h2)⟩

theorem stripTags_tag_free_witness :
    (TagFree (stripTags Lib.html "<a href=\"x\">Tom &amp; Jerry</a> 1 < 2") ∧
      stripTags Lib.html "<a href=\"x\">Tom &amp; Jerry</a> 1 < 2" = "Tom & Jerry 1 < 2") ∧
    (TagFree (stripTags Lib.html "<p class=\"x\">it's &quot;new&quot; &amp; 1 &gt; 0</p>") ∧
      stripTags Lib.html "<p class=\"x\">it's &quot;new&quot; &amp; 1 &gt; 0</p>" =
        "it's \"new\" & 1 > 0") :=
  have h1 := (stripTags_tag_free Lib.html "<a href=\"x\">Tom &amp; Jerry</a> 1 < 2").1
    (Or.inl (by decide))
  have h2 := (stripTags_tag_free Lib.html
    "<p class=\"x\">it's &quot;new&quot; &amp; 1 &gt; 0</p>").2
    (isMarkup_sound 100 _ (by decide))
  ⟨⟨h1.2 (by decide), by decide⟩, ⟨(h2.2 (by decide)).2, by decide⟩⟩

/-! ### The update handler -/

/-- With a configuration at hand, `handleUpdate` calls `ctx.update` exactly when the request
is a POST whose form parses: the posted secret plays no part in it. -/
theorem handleUpdate_updates {Menu Views : Type} (fs : Files Menu Views)
    (ctx : serveContext Menu Views) (w : ResponseWriter) (r : Request)
    (res : Handled Menu Views) (h : handleUpdate fs ctx w r = .ok res) :
    (res.updates = 1 ↔ r.Method = "POST" ∧ ∃ form, r.ParseForm = .ok form) ∧
      (res.updates = 0 ∨ res.updates = 1) := by
  unfold handleUpdate at h
  rcases hc : ctx.env.Config with ⟨env1, _ | conf⟩
  · rw [hc] at h; simp at h
  · rw [hc] at h
    simp only at h
    by_cases hm : r.Method = "POST"
    · simp only [hm, ne_eq, not_true_eq_false, if_false] at h
      rcases hp : r.ParseForm with _ | form
      · rw [hp] at h
        simp only [Except.ok.injEq] at h
        subst h
        simp
      · rw [hp] at h
        simp only at h
        rcases hu : serveContext.update fs { ctx with env := env1 } with ⟨ctx2, _ | e⟩
        · rw [hu] at h
          simp only [Except.ok.injEq] at h
          subst h
          simp [hm]
        · rw [hu] at h
          simp only [Except.ok.injEq] at h
          subst h
          simp [hm]
    · simp only [ne_eq, hm, not_false_eq_true, if_true, Except.ok.injEq] at h
      subst h
      simp [hm]

/-- A POST whose form parses and carries a wrong secret is answered with status 401, on a
response writer not written to before, and `ctx.update` is called all the same. -/
theorem handleUpdate_wrong_secret {Menu Views : Type} (fs : Files Menu Views)
    (ctx : serveContext Menu Views) (r : Request) (form : List (String × List String))
    (conf : Config) (env1 : Env) (hc : ctx.env.Config = (env1, .ok conf))
    (hm : r.Method = "POST") (hp : r.ParseForm = .ok form)
    (hs : Get form "secret" ≠ conf.Secret) :
    ∃ res, handleUpdate fs ctx ⟨[]⟩ r = .ok res ∧ res.w.status = some 401 ∧
      res.updates = 1 ∧
      res.ctx = (serveContext.update fs { ctx with env := env1 }).1 := by
  unfold handleUpdate
  rw [hc]
  simp only [hm, ne_eq, not_true_eq_false, if_false, hp, hs, not_false_eq_true, if_true]
  rcases hu : serveContext.update fs { ctx with env := env1 } with ⟨ctx2, _ | e⟩
  · exact ⟨_, rfl, rfl, rfl, rfl⟩
  · exact ⟨_, rfl, rfl, rfl, rfl⟩

/-- C23 fails on the code: a POST with the wrong secret `guess` (the configured one is
`s3cret`) is answered with status 401, the first of the two `WriteHeader` calls, but
`ctx.update` is called once and the cached menu, pages and templates are replaced. -/
theorem handleUpdate_reloads_on_wrong_secret :
    handleUpdate sampleFiles sampleContext ⟨[]⟩
        ⟨"POST", .ok [("secret", ["guess"])]⟩ =
      .ok { ctx := { sampleContext with
              pages := [("about", "<p>new</p>")], menu := "new menu", views := "new views" },
            w := ⟨[401, 200]⟩, updates := 1 } ∧
    (ResponseWriter.mk [401, 200]).status = some 401 ∧
    Get [("secret", ["guess"])] "secret" ≠ sampleConfig.Secret ∧
    sampleContext.menu = "old menu" :=
  ⟨rfl, rfl, by decide, rfl⟩

end Laria
